import Mathlib

/-!
Mython: lexer, runtime values and AST evaluator.

A shallow embedding of `src/lexer.cpp`, `src/runtime.cpp` and `src/statement.cpp`.

* C++ exceptions become constructors of `Outcome`: a thrown `ObjectHolder` (the
  `return` signal) is `Outcome.returned`, a thrown `std::runtime_error` or
  `std::out_of_range` is `Outcome.raised`.
* Dereferencing the null pointer that `TryAs<T>()` yields for a holder of another
  type, and a failed `AssertIsValid`, are `Outcome.crash`.
* Class instances are mutable and shared, so they live in a heap (`World.heap`) and a
  holder of an instance is its address; `ObjectHolder::Share(*this)` is the same address.
* Recursion through method calls is unbounded, so `Execute` takes fuel; every nested
  `Execute` call spends one unit.
* The lexer reads a `std::istream`, modelled by the characters left and its state bits;
  the loops over the stream are recursions over the characters left. `Load` calls itself
  after a blank line or a comment, so it takes fuel too, and `NextToken` gives it enough.
-/

namespace Mython

/-! ## Data model -/

/-- The comparators of `runtime.cpp` that a `Comparison` node can carry. -/
inductive Comparator where
  | Equal
  | NotEqual
  | Less
  | Greater
  | LessOrEqual
  | GreaterOrEqual

mutual
/-- The statement nodes whose `Execute` is defined in `statement.cpp`. -/
inductive Statement where
  | Assignment (var : String) (rv : Statement)
  | VariableValue (dotted_ids : List String)
  | Print (args : List Statement)
  | MethodCall (object : Statement) (method : String) (args : List Statement)
  | Stringify (argument : Statement)
  | Add (lhs rhs : Statement)
  | Sub (lhs rhs : Statement)
  | Mult (lhs rhs : Statement)
  | Div (lhs rhs : Statement)
  | Compound (statements : List Statement)
  | Return (statement : Statement)
  | ClassDefinition (cls : ObjectHolder)
  | FieldAssignment (object : List String) (field_name : String) (rv : Statement)
  | IfElse (condition if_body : Statement) (else_body : Option Statement)
  | Or (lhs rhs : Statement)
  | And (lhs rhs : Statement)
  | Not (argument : Statement)
  | Comparison (cmp : Comparator) (lhs rhs : Statement)
  | NewInstance (class_ : Class) (args : List Statement)
  | MethodBody (body : Statement)
/-- A method: name, formal parameter names, body. -/
inductive Method where
  | mk (name : String) (formal_params : List String) (body : Statement)
/-- A class: name, methods in declaration order, optional parent. The parent is a value,
so a parent chain is finite and acyclic, as it is for the `const Class*` handed to the
constructor of an immutable `Class`. -/
inductive Class where
  | mk (name : String) (methods : List Method) (parent : Option Class)
/-- An `ObjectHolder`: empty, or holding an object. An instance is held by address. -/
inductive ObjectHolder where
  | None
  | Number (value : Int)
  | String (value : String)
  | Bool (value : Bool)
  | Class (cls : Class)
  | ClassInstance (addr : Nat)
end

def Method.name : Method → String
  | .mk n _ _ => n

def Method.formal_params : Method → List String
  | .mk _ ps _ => ps

def Method.body : Method → Statement
  | .mk _ _ b => b

def Class.name_ : Class → String
  | .mk n _ _ => n

def Class.methods_ : Class → List Method
  | .mk _ ms _ => ms

def Class.parent_ : Class → Option Class
  | .mk _ _ p => p

/-- `runtime::Closure`: a map from names to holders with unique keys, kept as an
association list in insertion order. -/
abbrev Closure := List (String × ObjectHolder)

/-- `closure.find(key)`: the holder bound to `key`, if any. -/
def Closure.find : Closure → String → Option ObjectHolder
  | [], _ => none
  | (k, v) :: rest, key => if k = key then some v else Closure.find rest key

/-- `closure[key] = v`: overwrite the binding of `key`, or add one. -/
def Closure.assign : Closure → String → ObjectHolder → Closure
  | [], key, v => [(key, v)]
  | (k, old) :: rest, key, v =>
    if k = key then (k, v) :: rest else (k, old) :: Closure.assign rest key v

/-- A `runtime::ClassInstance` object: its class and its fields. -/
structure Instance where
  cls_ : Class
  closure_ : Closure

/-- Everything outside the current closure that execution can change: the instances
allocated so far and the text written to `context.GetOutputStream()`. -/
structure World where
  heap : List Instance
  output : String

/-- The exceptions other than the `return` signal that the sources throw. -/
inductive Exception where
  | runtime_error (what : String)
  | out_of_range

/-- How a call of the evaluator ends: normally with a result, by a thrown `ObjectHolder`,
by a thrown exception, by a crash (null dereference, failed assertion, signed overflow),
or not within the fuel. The closure is that of the frame in which the call was made. -/
inductive Outcome (α : Type) where
  | value (a : α) (closure : Closure) (w : World)
  | returned (v : ObjectHolder) (closure : Closure) (w : World)
  | raised (e : Exception) (closure : Closure) (w : World)
  | crash
  | outOfFuel

/-- Sequencing: continue with `k` after a normal completion, propagate anything else. -/
def Outcome.bind {α β : Type} (o : Outcome α) (k : α → Closure → World → Outcome β) :
    Outcome β :=
  match o with
  | .value a c w => k a c w
  | .returned v c w => .returned v c w
  | .raised e c w => .raised e c w
  | .crash => .crash
  | .outOfFuel => .outOfFuel

/-- Leaving a callee: the caller's frame is in force again. -/
def Outcome.inFrame {α : Type} (o : Outcome α) (frame : Closure) : Outcome α :=
  match o with
  | .value a _ w => .value a frame w
  | .returned v _ w => .returned v frame w
  | .raised e _ w => .raised e frame w
  | .crash => .crash
  | .outOfFuel => .outOfFuel

/-- The type of the evaluator, as seen by the runtime functions that call back into it
(`Executable::Execute`). -/
abbrev Exec := Statement → Closure → World → Outcome ObjectHolder

/-! ## runtime.cpp -/

def EQ_METHOD : String := "__eq__"
def LT_METHOD : String := "__lt__"
def STR_METHOD : String := "__str__"

/-- `IsTrue`. -/
def IsTrue (object : ObjectHolder) : Bool :=
  match object with
  | .None => false
  | .Class _ => false
  | .ClassInstance _ => false
  | .Bool value => value
  | .Number value => !(value == 0)
  | .String value => !(value == "")

/-- The loop of `Class::GetMethod` over `methods_`. -/
def findMethod (name : String) : List Method → Option Method
  | [] => none
  | method :: rest => if method.name = name then some method else findMethod name rest

/-- `Class::GetMethod`. -/
def Class.GetMethod : Class → String → Option Method
  | .mk _ methods parent, name =>
    match findMethod name methods with
    | some method => some method
    | none =>
      match parent with
      | some p => p.GetMethod name
      | none => none

/-- `ClassInstance::HasMethod`, on the class of the instance. -/
def HasMethod (cls : Class) (method : String) (argument_count : Nat) : Bool :=
  match cls.GetMethod method with
  | some q_method => q_method.formal_params.length == argument_count
  | none => false

/-- The loop of `ClassInstance::Call` binding formal parameters to arguments. -/
def bindParams : Closure → List String → List ObjectHolder → Closure
  | closure, p :: ps, a :: as => bindParams (closure.assign p a) ps as
  | closure, _, _ => closure

/-- The closure that `ClassInstance::Call` builds for the body. -/
def callClosure (self : Nat) (formal_params : List String) (actual_args : List ObjectHolder) :
    Closure :=
  bindParams (Closure.assign [] "self" (.ClassInstance self)) formal_params actual_args

/-- `ClassInstance::Call` on the instance at address `self`. -/
def Call (exec : Exec) (self : Nat) (method : String) (actual_args : List ObjectHolder)
    (frame : Closure) (w : World) : Outcome ObjectHolder :=
  match w.heap[self]? with
  | none => .crash
  | some inst =>
    match inst.cls_.GetMethod method with
    | some q_method =>
      if HasMethod inst.cls_ method actual_args.length then
        (exec q_method.body (callClosure self q_method.formal_params actual_args) w).inFrame frame
      else
        .raised (.runtime_error "Not implemented") frame w
    | none => .raised (.runtime_error "Not implemented") frame w

/-- Modelled from the spec: the width of a `Number` (§3.2 gives `Number(i64)`); the
declaration of `runtime::Number` is in `runtime.h`, which is not among the sources. -/
def NUMBER_BITS : Nat := 64

/-- Whether `v` is representable in a `Number`. -/
def inNumberRange (v : Int) : Bool :=
  decide (-(2 ^ (NUMBER_BITS - 1) : Int) ≤ v) && decide (v < (2 ^ (NUMBER_BITS - 1) : Int))

/-- The holder of an arithmetic result; signed overflow is undefined behaviour. -/
def numberResult (v : Int) (frame : Closure) (w : World) : Outcome ObjectHolder :=
  if inNumberRange v then .value (.Number v) frame w else .crash

/-- The text that `os << this` writes for the instance at `addr`: an implementation-defined
identity token. -/
def addressText (addr : Nat) : String :=
  "0x" ++ String.mk (Nat.toDigits 16 addr)

/-- `object->Print(os, context)` for a holder `object`: the text written to `os`.
`operator->` asserts that the holder is not empty. `ClassInstance::Print` calls `__str__`
and prints what it returns, which may again be an instance. -/
def PrintObject (exec : Exec) : Nat → ObjectHolder → Closure → World → Outcome String
  | 0, _, _, _ => .outOfFuel
  | fuel + 1, object, frame, w =>
    match object with
    | .None => .crash
    | .Number value => .value (toString value) frame w
    | .String value => .value value frame w
    | .Bool value => .value (if value then "True" else "False") frame w
    | .Class cls => .value ("Class " ++ cls.name_) frame w
    | .ClassInstance addr =>
      match w.heap[addr]? with
      | none => .crash
      | some inst =>
        if HasMethod inst.cls_ STR_METHOD 0 then
          (Call exec addr STR_METHOD [] frame w).bind fun r c w1 => PrintObject exec fuel r c w1
        else
          .value (addressText addr) frame w

/-- The two predicates handed to `Compare`: `std::equal_to` and `std::less`. -/
inductive Predicate where
  | equal_to
  | less

def Predicate.onBool : Predicate → Bool → Bool → Bool
  | .equal_to, a, b => a == b
  | .less, a, b => !a && b

def Predicate.onNumber : Predicate → Int → Int → Bool
  | .equal_to, a, b => a == b
  | .less, a, b => decide (a < b)

def Predicate.onString : Predicate → String → String → Bool
  | .equal_to, a, b => a == b
  | .less, a, b => decide (a < b)

/-- `Compare`. -/
def Compare (exec : Exec) (lhs rhs : ObjectHolder) (method : String) (pred : Predicate)
    (frame : Closure) (w : World) : Outcome Bool :=
  match lhs, rhs with
  | .Bool a, .Bool b => .value (pred.onBool a b) frame w
  | .Number a, .Number b => .value (pred.onNumber a b) frame w
  | .String a, .String b => .value (pred.onString a b) frame w
  | .ClassInstance addr, .ClassInstance _ =>
    match w.heap[addr]? with
    | none => .crash
    | some inst =>
      if HasMethod inst.cls_ method 1 then
        (Call exec addr method [rhs] frame w).bind fun r c w1 => .value (IsTrue r) c w1
      else
        .value false frame w
  | _, _ => .raised (.runtime_error "Can not compare objects") frame w

/-- `Equal`. -/
def Equal (exec : Exec) (lhs rhs : ObjectHolder) (frame : Closure) (w : World) : Outcome Bool :=
  match lhs, rhs with
  | .None, .None => .value true frame w
  | _, _ => Compare exec lhs rhs EQ_METHOD .equal_to frame w

/-- `Less`. -/
def Less (exec : Exec) (lhs rhs : ObjectHolder) (frame : Closure) (w : World) : Outcome Bool :=
  Compare exec lhs rhs LT_METHOD .less frame w

/-- `NotEqual`. -/
def NotEqual (exec : Exec) (lhs rhs : ObjectHolder) (frame : Closure) (w : World) :
    Outcome Bool :=
  (Equal exec lhs rhs frame w).bind fun e c w1 => .value (!e) c w1

/-- `Greater`: `!(Less || Equal)`, where `||` evaluates `Equal` only if `Less` is false. -/
def Greater (exec : Exec) (lhs rhs : ObjectHolder) (frame : Closure) (w : World) :
    Outcome Bool :=
  (Less exec lhs rhs frame w).bind fun l c w1 =>
    if l then .value false c w1
    else (Equal exec lhs rhs c w1).bind fun e c2 w2 => .value (!e) c2 w2

/-- `LessOrEqual`: `Less || Equal`. -/
def LessOrEqual (exec : Exec) (lhs rhs : ObjectHolder) (frame : Closure) (w : World) :
    Outcome Bool :=
  (Less exec lhs rhs frame w).bind fun l c w1 =>
    if l then .value true c w1
    else Equal exec lhs rhs c w1

/-- `GreaterOrEqual`: `!Less`. -/
def GreaterOrEqual (exec : Exec) (lhs rhs : ObjectHolder) (frame : Closure) (w : World) :
    Outcome Bool :=
  (Less exec lhs rhs frame w).bind fun l c w1 => .value (!l) c w1

/-- The comparator a `Comparison` node applies. -/
def Comparator.apply (cmp : Comparator) (exec : Exec) (lhs rhs : ObjectHolder)
    (frame : Closure) (w : World) : Outcome Bool :=
  match cmp with
  | .Equal => Mython.Equal exec lhs rhs frame w
  | .NotEqual => Mython.NotEqual exec lhs rhs frame w
  | .Less => Mython.Less exec lhs rhs frame w
  | .Greater => Mython.Greater exec lhs rhs frame w
  | .LessOrEqual => Mython.LessOrEqual exec lhs rhs frame w
  | .GreaterOrEqual => Mython.GreaterOrEqual exec lhs rhs frame w

/-! ## statement.cpp -/

def ADD_METHOD : String := "__add__"
def INIT_METHOD : String := "__init__"

/-- The loop of `VariableValue::Execute` over the intermediate names: the instance `cl`
(class `cls`, fields `fields`) is the one bound to the first name throughout. -/
def walkFields (cls : Class) (fields : Closure) :
    List String → ObjectHolder → Closure → World → Outcome ObjectHolder
  | [], object, frame, w => .value object frame w
  | id :: rest, _, frame, w =>
    if HasMethod cls id 0 then
      match fields.find id with
      | some field => walkFields cls fields rest field frame w
      | none => .raised .out_of_range frame w
    else
      .raised (.runtime_error "VariableValue::Execute. HasMethod false") frame w

/-- `VariableValue::Execute`. -/
def VariableValue.Execute (dotted_ids : List String) (closure : Closure) (w : World) :
    Outcome ObjectHolder :=
  match dotted_ids with
  | [] => .crash
  | [var_name] =>
    match closure.find var_name with
    | none => .raised (.runtime_error "VariableValue::Execute") closure w
    | some object => .value object closure w
  | first :: second :: more =>
    match closure.find first with
    | none => .raised .out_of_range closure w
    | some (.ClassInstance addr) =>
      match w.heap[addr]? with
      | none => .crash
      | some cl =>
        (walkFields cl.cls_ cl.closure_ (second :: more).dropLast (.ClassInstance addr)
            closure w).bind fun object c w1 =>
          match object with
          | .ClassInstance last =>
            match w1.heap[last]? with
            | none => .crash
            | some inst =>
              match inst.closure_.find ((second :: more).getLast (List.cons_ne_nil _ _)) with
              | some field => .value field c w1
              | none => .raised .out_of_range c w1
          | _ => .crash
    | some _ =>
      .raised (.runtime_error "VariableValue::Execute. runtime::ClassInstance* == nullptr")
        closure w

/-- The statements of a `Compound`, in order; their results are dropped. -/
def ExecuteStatements (exec : Exec) : List Statement → Closure → World → Outcome Unit
  | [], closure, w => .value () closure w
  | statement :: rest, closure, w =>
    (exec statement closure w).bind fun _ c w1 => ExecuteStatements exec rest c w1

/-- The loop evaluating argument expressions into `actual_args`, left to right. -/
def ExecuteArgs (exec : Exec) : List Statement → Closure → World → Outcome (List ObjectHolder)
  | [], closure, w => .value [] closure w
  | arg :: rest, closure, w =>
    (exec arg closure w).bind fun v c w1 =>
      (ExecuteArgs exec rest c w1).bind fun vs c2 w2 => .value (v :: vs) c2 w2

/-- Appending text to `context.GetOutputStream()`. -/
def World.write (w : World) (text : String) : World :=
  { w with output := w.output ++ text }

/-- The loop of `Print::Execute`. -/
def PrintArgs (exec : Exec) (fuel : Nat) :
    List Statement → Bool → Closure → World → Outcome Unit
  | [], _, closure, w => .value () closure w
  | arg :: rest, first, closure, w =>
    (exec arg closure (if first then w else w.write " ")).bind fun object c w1 =>
      match object with
      | .None => PrintArgs exec fuel rest false c (w1.write "None")
      | _ =>
        (PrintObject exec fuel object c w1).bind fun text c2 w2 =>
          PrintArgs exec fuel rest false c2 (w2.write text)

/-- The part of `Stringify::Execute` after the argument is evaluated. -/
def Stringify.apply (exec : Exec) (fuel : Nat) (arg : ObjectHolder) (closure : Closure)
    (w : World) : Outcome ObjectHolder :=
  match arg with
  | .Number _ | .String _ | .Bool _ | .ClassInstance _ =>
    (PrintObject exec fuel arg closure w).bind fun text c w1 => .value (.String text) c w1
  | _ => .value (.String "None") closure w

/-- The part of `Add::Execute` after both operands are evaluated. -/
def Add.apply (exec : Exec) (lhs rhs : ObjectHolder) (closure : Closure) (w : World) :
    Outcome ObjectHolder :=
  match lhs, rhs with
  | .Number a, .Number b => numberResult (a + b) closure w
  | .String a, .String b => .value (.String (a ++ b)) closure w
  | .ClassInstance addr, _ =>
    match w.heap[addr]? with
    | none => .crash
    | some cl =>
      if HasMethod cl.cls_ ADD_METHOD 1 then Call exec addr ADD_METHOD [rhs] closure w
      else .raised (.runtime_error "Add::Execute") closure w
  | _, _ => .raised (.runtime_error "Add::Execute") closure w

/-- The part of `Sub::Execute` after both operands are evaluated. -/
def Sub.apply (lhs rhs : ObjectHolder) (closure : Closure) (w : World) : Outcome ObjectHolder :=
  match lhs, rhs with
  | .Number a, .Number b => numberResult (a - b) closure w
  | _, _ => .raised (.runtime_error "Sub::Execute") closure w

/-- The part of `Mult::Execute` after both operands are evaluated. -/
def Mult.apply (lhs rhs : ObjectHolder) (closure : Closure) (w : World) : Outcome ObjectHolder :=
  match lhs, rhs with
  | .Number a, .Number b => numberResult (a * b) closure w
  | _, _ => .raised (.runtime_error "Mult::Execute") closure w

/-- The part of `Div::Execute` after both operands are evaluated; `/` truncates. -/
def Div.apply (lhs rhs : ObjectHolder) (closure : Closure) (w : World) : Outcome ObjectHolder :=
  match lhs, rhs with
  | .Number a, .Number b =>
    if b ≠ 0 then numberResult (Int.tdiv a b) closure w
    else .raised (.runtime_error "Div::Execute") closure w
  | _, _ => .raised (.runtime_error "Div::Execute") closure w

/-- The part of `ClassDefinition::Execute`. -/
def ClassDefinition.apply (cls : ObjectHolder) (closure : Closure) (w : World) :
    Outcome ObjectHolder :=
  match cls with
  | .Class c => .value cls (closure.assign c.name_ cls) w
  | _ => .crash

/-- The field store of `FieldAssignment::Execute` into the instance at `addr`. -/
def storeField (heap : List Instance) (addr : Nat) (field_name : String) (v : ObjectHolder) :
    Option (List Instance) :=
  match heap[addr]? with
  | none => none
  | some inst => some (heap.set addr { inst with closure_ := inst.closure_.assign field_name v })

/-- The part of `Or::Execute` after the left operand is evaluated. -/
def Or.apply (exec : Exec) (lhs : ObjectHolder) (rhs : Statement) (closure : Closure)
    (w : World) : Outcome ObjectHolder :=
  match lhs with
  | .Bool true => .value (.Bool true) closure w
  | .Bool false =>
    (exec rhs closure w).bind fun r c w1 =>
      match r with
      | .Bool value => .value (.Bool value) c w1
      | _ => .crash
  | _ => .crash

/-- The part of `And::Execute` after both operands are evaluated: `&&` reads the right
value only if the left one is true. -/
def And.apply (lhs rhs : ObjectHolder) (closure : Closure) (w : World) : Outcome ObjectHolder :=
  match lhs with
  | .Bool false => .value (.Bool false) closure w
  | .Bool true =>
    match rhs with
    | .Bool value => .value (.Bool value) closure w
    | _ => .crash
  | _ => .crash

/-- The part of `Not::Execute` after the argument is evaluated. -/
def Not.apply (arg : ObjectHolder) (closure : Closure) (w : World) : Outcome ObjectHolder :=
  match arg with
  | .Bool value => .value (.Bool (!value)) closure w
  | _ => .crash

/-- `Statement::Execute` for every node of `statement.cpp`. The two operands of a
`Comparison` are arguments of one call, which C++ leaves unsequenced; they are evaluated
left to right here, as the specification has it. Operand pointers are not null. -/
def Execute : Nat → Statement → Closure → World → Outcome ObjectHolder
  | 0, _, _, _ => .outOfFuel
  | fuel + 1, stmt, closure, w =>
    match stmt with
    | .Assignment var rv =>
      (Execute fuel rv closure w).bind fun v c w1 => .value v (c.assign var v) w1
    | .VariableValue dotted_ids => VariableValue.Execute dotted_ids closure w
    | .Print args =>
      (PrintArgs (Execute fuel) fuel args true closure w).bind fun _ c w1 =>
        .value .None c (w1.write "\n")
    | .MethodCall object method args =>
      (ExecuteArgs (Execute fuel) args closure w).bind fun actual_args c1 w1 =>
        (Execute fuel object c1 w1).bind fun obj c2 w2 =>
          match obj with
          | .ClassInstance addr => Call (Execute fuel) addr method actual_args c2 w2
          | _ => .raised (.runtime_error "MethodCall::Execute") c2 w2
    | .Stringify argument =>
      (Execute fuel argument closure w).bind fun arg c w1 =>
        Stringify.apply (Execute fuel) fuel arg c w1
    | .Add lhs rhs =>
      (Execute fuel lhs closure w).bind fun l c1 w1 =>
        (Execute fuel rhs c1 w1).bind fun r c2 w2 => Add.apply (Execute fuel) l r c2 w2
    | .Sub lhs rhs =>
      (Execute fuel lhs closure w).bind fun l c1 w1 =>
        (Execute fuel rhs c1 w1).bind fun r c2 w2 => Sub.apply l r c2 w2
    | .Mult lhs rhs =>
      (Execute fuel lhs closure w).bind fun l c1 w1 =>
        (Execute fuel rhs c1 w1).bind fun r c2 w2 => Mult.apply l r c2 w2
    | .Div lhs rhs =>
      (Execute fuel lhs closure w).bind fun l c1 w1 =>
        (Execute fuel rhs c1 w1).bind fun r c2 w2 => Div.apply l r c2 w2
    | .Compound statements =>
      (ExecuteStatements (Execute fuel) statements closure w).bind fun _ c w1 =>
        .value .None c w1
    | .Return statement =>
      (Execute fuel statement closure w).bind fun v c w1 => .returned v c w1
    | .ClassDefinition cls => ClassDefinition.apply cls closure w
    | .FieldAssignment object field_name rv =>
      (VariableValue.Execute object closure w).bind fun obj c1 w1 =>
        match obj with
        | .ClassInstance addr =>
          (Execute fuel rv c1 w1).bind fun v c2 w2 =>
            match storeField w2.heap addr field_name v with
            | some heap => .value v c2 { w2 with heap := heap }
            | none => .crash
        | _ => .raised (.runtime_error "cls==nullptr") c1 w1
    | .IfElse condition if_body else_body =>
      (Execute fuel condition closure w).bind fun cond c w1 =>
        if IsTrue cond then Execute fuel if_body c w1
        else
          match else_body with
          | some body => Execute fuel body c w1
          | none => .value .None c w1
    | .Or lhs rhs =>
      (Execute fuel lhs closure w).bind fun l c w1 => Or.apply (Execute fuel) l rhs c w1
    | .And lhs rhs =>
      (Execute fuel lhs closure w).bind fun l c1 w1 =>
        (Execute fuel rhs c1 w1).bind fun r c2 w2 => And.apply l r c2 w2
    | .Not argument =>
      (Execute fuel argument closure w).bind fun arg c w1 => Not.apply arg c w1
    | .Comparison cmp lhs rhs =>
      (Execute fuel lhs closure w).bind fun l c1 w1 =>
        (Execute fuel rhs c1 w1).bind fun r c2 w2 =>
          (cmp.apply (Execute fuel) l r c2 w2).bind fun b c3 w3 => .value (.Bool b) c3 w3
    | .NewInstance class_ args =>
      if HasMethod class_ INIT_METHOD args.length then
        (ExecuteArgs (Execute fuel) args closure
            { w with heap := w.heap ++ [Instance.mk class_ []] }).bind fun actual_args c1 w1 =>
          (Call (Execute fuel) w.heap.length INIT_METHOD actual_args c1 w1).bind
            fun _ c2 w2 => .value (.ClassInstance w.heap.length) c2 w2
      else
        .value (.ClassInstance w.heap.length) closure
          { w with heap := w.heap ++ [Instance.mk class_ []] }
    | .MethodBody body =>
      match Execute fuel body closure w with
      | .returned obj c w1 => .value obj c w1
      | other => other

/-! ## lexer.cpp

A `Char` stands for one byte of the input, `Char.ofNat 255` for the byte 0xFF. What
`input_.get()` and `input_.peek()` return (an `int`) is an `Option Char`, `none` being `EOF`.
`Load` keeps what `get()` returns in a `char c`; `char` is signed, so the byte 0xFF becomes
-1 there, which is the value of `EOF`: the tests `c == EOF` and `case EOF` of `Load` hold of
the end of the input and of the byte 0xFF alike (`isEOF`). The comparisons of `c` with other
characters, and those of `peek()` with `EOF` in `LoadComment`, are not affected. In the "C"
locale no byte above 0x7F is a letter or a digit. -/

namespace parse

/-- A `Token`: the kinds of `token_type`. -/
inductive Token where
  | Number (value : Nat)
  | Id (value : String)
  | Char (value : Char)
  | String (value : String)
  | Class
  | Return
  | If
  | Else
  | Def
  | Newline
  | Print
  | Indent
  | Dedent
  | And
  | Or
  | Not
  | Eq
  | NotEq
  | LessOrEq
  | GreaterOrEq
  | None
  | True
  | False
  | Eof
  deriving DecidableEq, Repr

/-- A `std::istream`: the characters not yet extracted, and the state bits that the lexer
can set (`failbit` also stands for `badbit`). -/
structure IStream where
  buf : List Char
  eofbit : Bool
  failbit : Bool
  deriving DecidableEq, Repr

/-- `good()`. -/
def IStream.good (s : IStream) : Bool := !s.eofbit && !s.failbit

/-- `get()`: extracts a character; at the end of the input sets `eofbit` and `failbit` and
returns `EOF`; on a stream that is not good sets `failbit` and returns `EOF`. -/
def IStream.get (s : IStream) : Option Char × IStream :=
  if s.good then
    match s.buf with
    | [] => (none, { s with eofbit := true, failbit := true })
    | c :: rest => (some c, { s with buf := rest })
  else (none, { s with failbit := true })

/-- `peek()`: the next character, not extracted; at the end of the input sets `eofbit`
and returns `EOF`; on a stream that is not good sets `failbit` and returns `EOF`. -/
def IStream.peek (s : IStream) : Option Char × IStream :=
  if s.good then
    match s.buf with
    | [] => (none, { s with eofbit := true })
    | c :: _ => (some c, s)
  else (none, { s with failbit := true })

/-- `putback(c)`: clears `eofbit`; then, if the stream is good, makes `c` the next
character, else sets `failbit`. The lexer only puts back what it has just read;
putting back `EOF` into a good stream (which it never does) fails. -/
def IStream.putback (s : IStream) (c : Option Char) : IStream :=
  if s.failbit then { s with eofbit := false }
  else
    match c with
    | some ch => { s with buf := ch :: s.buf, eofbit := false }
    | none => { s with eofbit := false, failbit := true }

/-- The members of a `Lexer`. -/
structure Lexer where
  input_ : IStream
  token_ : Token
  new_line_ : Bool
  offset_ : Int
  current_offset_ : Int
  deriving DecidableEq, Repr

/-- Modelled from the spec: the map `tokens` from reserved words to their tokens (§3.1);
it is declared in `lexer.h`, which is not among the sources. -/
def tokens : List (String × Token) :=
  [("class", .Class), ("return", .Return), ("if", .If), ("else", .Else), ("def", .Def),
   ("print", .Print), ("and", .And), ("or", .Or), ("not", .Not), ("None", .None),
   ("True", .True), ("False", .False)]

/-- The loop `while (c == ' ') c = input_.get();` on a good stream with buffer `buf`:
the number of spaces read, the first character that is not a space, the stream. -/
def readSpacesBuf : List Char → Nat × Option Char × IStream
  | [] => (0, none, ⟨[], true, true⟩)
  | c :: rest =>
    if c = ' ' then
      let r := readSpacesBuf rest
      (r.1 + 1, r.2)
    else (0, some c, ⟨rest, false, false⟩)

/-- The loop `while (c == ' ') c = input_.get();`, entered with `c == ' '`. -/
def readSpaces (s : IStream) : Nat × Option Char × IStream :=
  if s.good then readSpacesBuf s.buf else (0, none, { s with failbit := true })

/-- The loop of `CheckEmptyLine` putting `temp` back, last character first. -/
def putbackAll (temp : List (Option Char)) (s : IStream) : IStream :=
  temp.reverse.foldl IStream.putback s

/-- `CheckEmptyLine`: whether the rest of the line is blank or a comment, and the stream
it leaves. -/
def CheckEmptyLine (s : IStream) : Bool × IStream :=
  let r := readSpaces s
  if r.2.1 = some '\n' ∨ r.2.1 = some '#' then (true, r.2.2.putback r.2.1)
  else (false, putbackAll (List.replicate r.1 (some ' ') ++ [r.2.1]) r.2.2)

/-- What the loop counting the leading spaces of a line ends with: an `Indent` at
`current_offset_ = co`, or the first character `c` that is not a space. -/
inductive Counted where
  | indent (co : Int) (input : IStream)
  | done (c : Option Char) (co : Int) (input : IStream)

/-- The loop `while (c == ' ')` of `Load` on a good stream with buffer `buf`, entered
with `c == ' '` and `current_offset_ = co`. -/
def countSpacesBuf (offset_ : Int) : Int → List Char → Counted
  | co, [] =>
    if co + 1 > offset_ ∧ (co + 1) % 2 = 0 then .indent (co + 1) ⟨[], false, false⟩
    else .done none (co + 1) ⟨[], true, true⟩
  | co, c :: rest =>
    if co + 1 > offset_ ∧ (co + 1) % 2 = 0 then .indent (co + 1) ⟨c :: rest, false, false⟩
    else if c = ' ' then countSpacesBuf offset_ (co + 1) rest
    else .done (some c) (co + 1) ⟨rest, false, false⟩

/-- The loop `while (c == ' ')` of `Load`, entered with `c == ' '`. -/
def countSpaces (offset_ co : Int) (s : IStream) : Counted :=
  if s.good then countSpacesBuf offset_ co s.buf
  else if co + 1 > offset_ ∧ (co + 1) % 2 = 0 then .indent (co + 1) s
  else .done none (co + 1) { s with failbit := true }

/-- `std::isalpha(c) || c == '_'`. -/
def isIdStart (c : Char) : Bool := c.isAlpha || c = '_'

/-- `std::isalnum(c) || c == '_'`. -/
def isIdChar (c : Char) : Bool := c.isAlphanum || c = '_'

/-- A loop `while (p(input_.peek())) result.push_back(input_.get());`: the characters
taken and the stream. `peeks` is the number of `peek()` calls in the condition that
fails at the end of the input: the first sets `eofbit`, a second one `failbit`. -/
def takeWhilePeek (p : Char → Bool) (peeks : Nat) (s : IStream) : List Char × IStream :=
  if s.good then
    (s.buf.takeWhile p,
      match s.buf.dropWhile p with
      | [] => ⟨[], true, decide (2 ≤ peeks)⟩
      | rest => ⟨rest, false, false⟩)
  else ([], { s with failbit := true })

/-- `GetString`. -/
def GetString (s : IStream) : String × IStream :=
  let r := takeWhilePeek isIdChar 2 s
  (String.mk r.1, r.2)

/-- `LoadId`. -/
def LoadId (s : Lexer) : Lexer :=
  let r := GetString s.input_
  match tokens.lookup r.1 with
  | some t => { s with new_line_ := false, input_ := r.2, token_ := t }
  | none => { s with new_line_ := false, input_ := r.2, token_ := .Id r.1 }

/-- The value `atoi` gives for a string of digits. -/
def atoi (digits : List Char) : Nat :=
  digits.foldl (fun n d => 10 * n + (d.toNat - '0'.toNat)) 0

/-- `LoadNumber`. -/
def LoadNumber (s : Lexer) : Lexer :=
  let r := takeWhilePeek Char.isDigit 1 s.input_
  { s with new_line_ := false, input_ := r.2, token_ := .Number (atoi r.1) }

/-- `LoadChar`. -/
def LoadChar (c : Char) (s : Lexer) : Lexer :=
  if c = '!' ∨ c = '=' ∨ c = '>' ∨ c = '<' then
    let p := s.input_.peek
    if p.1 = some '=' then
      { s with new_line_ := false, input_ := (p.2.get).2,
               token_ := if c = '!' then .NotEq else if c = '=' then .Eq
                         else if c = '>' then .GreaterOrEq else .LessOrEq }
    else { s with new_line_ := false, input_ := p.2, token_ := .Char c }
  else { s with new_line_ := false, token_ := .Char c }

/-- The loop of `LoadString` on a good stream with buffer `buf`: the text accumulated
and the stream. After a backslash at the end of the input the `peek()` calls set both
state bits. -/
def LoadStringBuf (first : Char) : List Char → List Char → List Char × IStream
  | [], result => (result, ⟨[], true, true⟩)
  | [c], result =>
    if c = first then (result, ⟨[], false, false⟩)
    else if c = '\\' then (result ++ ['\\'], ⟨[], true, true⟩)
    else (result ++ [c], ⟨[], true, true⟩)
  | c :: d :: rest, result =>
    if c = first then (result, ⟨d :: rest, false, false⟩)
    else if c = '\\' then
      if d = '"' ∨ d = Char.ofNat 39 then LoadStringBuf first rest (result ++ [d])
      else if d = 'n' then LoadStringBuf first rest (result ++ ['\n'])
      else if d = 't' then LoadStringBuf first rest (result ++ ['\t'])
      else LoadStringBuf first (d :: rest) (result ++ ['\\'])
    else LoadStringBuf first (d :: rest) (result ++ [c])

/-- `LoadString`. -/
def LoadString (first : Char) (s : Lexer) : Lexer :=
  let r := if s.input_.good then LoadStringBuf first s.input_.buf []
           else ([], { s.input_ with failbit := true })
  { s with new_line_ := false, input_ := r.2, token_ := .String (String.mk r.1) }

/-- The loop of `LoadComment`: `while (peek() != '\n' && peek() != EOF) get();`. -/
def skipComment (s : IStream) : IStream :=
  if s.good then
    match s.buf.dropWhile (fun c => c ≠ '\n') with
    | [] => ⟨[], true, true⟩
    | rest => ⟨rest, false, false⟩
  else { s with failbit := true }

/-- `LoadComment`; `load` is the `Load()` it ends with. -/
def LoadComment (load : Lexer → Option Lexer) (s : Lexer) : Option Lexer :=
  load { s with input_ := skipComment s.input_ }

/-- `LoadNewline`; `load` is the `Load()` of its second branch. -/
def LoadNewline (load : Lexer → Option Lexer) (s : Lexer) : Option Lexer :=
  if !s.new_line_ then
    some { s with new_line_ := true, offset_ := s.current_offset_, current_offset_ := 0,
                  token_ := .Newline }
  else load s

/-- The characters of `case '+': ... case ':':`. -/
def isOperatorChar (c : Char) : Bool :=
  c = '+' || c = '-' || c = '*' || c = '/' || c = '=' || c = '>' || c = '<' || c = '.' ||
  c = ',' || c = '(' || c = ')' || c = '!' || c = ':'

/-- The `switch (c)` of `Load`, for a `c` that is not `EOF`. -/
def switchChar (load : Lexer → Option Lexer) (c : Char) (s : Lexer) : Option Lexer :=
  if c = '\n' then LoadNewline load s
  else if isOperatorChar c then some (LoadChar c s)
  else if c = Char.ofNat 39 ∨ c = '"' then some (LoadString c s)
  else if c = '#' then LoadComment load s
  else if isIdStart c then some (LoadId { s with input_ := s.input_.putback (some c) })
  else if c.isDigit then some (LoadNumber { s with input_ := s.input_.putback (some c) })
  else some s

/-- `c == EOF` for the `char c` of `Load` that holds what `input_.get()` returned: true at
the end of the input, and for the byte 0xFF, which as a `char` is -1 like `EOF`. -/
def isEOF (c : Option Char) : Bool :=
  match c with
  | none => true
  | some ch => ch = Char.ofNat 255

/-- The part of `Load` after `c` is read: the synthesized `Newline` when `c == EOF` inside a
line (`c` is put back first), then the `switch`, whose `case EOF` sets `token_` to `Eof`. -/
def dispatch (load : Lexer → Option Lexer) (c : Option Char) (s : Lexer) : Option Lexer :=
  if isEOF c ∧ s.token_ ≠ .Newline ∧ s.new_line_ = false then
    LoadNewline load { s with input_ := s.input_.putback c }
  else
    match c with
    | none => some { s with token_ := .Eof }
    | some ch =>
      if ch = Char.ofNat 255 then some { s with token_ := .Eof } else switchChar load ch s

/-- How the first part of `Load` (up to the test for the end of the input) ends: it has
returned with `token_` set to `Indent` or `Dedent`, or it has read the character `c` that
the second part looks at. -/
inductive Scanned where
  | token (s : Lexer)
  | char (c : Option Char) (s : Lexer)

/-- The first part of `Load`: skipping spaces inside a line, or, on a new line, skipping
the line if it is blank or a comment and counting its leading spaces if it is not. -/
def scan (s : Lexer) : Scanned :=
  if !s.new_line_ then
    let r := readSpaces s.input_
    .char r.2.1 { s with input_ := r.2.2 }
  else
    let e := CheckEmptyLine s.input_
    if !e.1 then
      let g := e.2.get
      if g.1 ≠ some ' ' then
        if s.offset_ > s.current_offset_ then
          .token { s with input_ := g.2.putback g.1, offset_ := s.offset_ - 2,
                          token_ := .Dedent }
        else .char g.1 { s with input_ := g.2 }
      else
        match countSpaces s.offset_ s.current_offset_ g.2 with
        | .indent co input =>
          .token { s with input_ := input, current_offset_ := co, token_ := .Indent }
        | .done c co input =>
          if co < s.offset_ then
            .token { s with input_ := input.putback c, current_offset_ := co,
                            offset_ := s.offset_ - 2, token_ := .Dedent }
          else .char c { s with input_ := input, current_offset_ := co }
    else
      let g := e.2.get
      .char g.1 { s with input_ := g.2 }

/-- `Load`: its first part, then the test for the end of the input and the `switch`.
The calls `Load -> LoadNewline -> Load` and `Load -> LoadComment -> Load` each spend one
unit of fuel; `none` is out of fuel. -/
def Load : Nat → Lexer → Option Lexer
  | 0, _ => none
  | fuel + 1, s =>
    match scan s with
    | .token s1 => some s1
    | .char c s1 => dispatch (Load fuel) c s1

/-- `NextToken`: `Load()` with fuel for every character left; the lexer afterwards. -/
def NextToken (s : Lexer) : Lexer :=
  (Load (s.input_.buf.length + 1) s).getD s

/-- Modelled from the spec: the members of a `Lexer` before its constructor calls `Load()`.
Their initialisers are in `lexer.h`, which is not among the sources: both offsets count
spaces and start at 0 (§4.1.1), `token_` is a default token; whether `new_line_` starts
set is left open. -/
def Lexer.members (input : List Char) (new_line : Bool) : Lexer :=
  { input_ := ⟨input, false, false⟩, token_ := .Number 0, new_line_ := new_line,
    offset_ := 0, current_offset_ := 0 }

/-- `Lexer::Lexer`: the constructor calls `Load()`. -/
def Lexer.new (input : List Char) (new_line : Bool) : Lexer :=
  NextToken (Lexer.members input new_line)

/-- The tokens a client sees: `CurrentToken()` of the lexer, then what `NextToken()`
returns, call after call, up to `Eof` or for at most `n` tokens. -/
def tokenStream : Nat → Lexer → List Token
  | 0, _ => []
  | n + 1, s => s.token_ :: (if s.token_ = .Eof then [] else tokenStream n (NextToken s))

/-! ### Vocabulary of the statements about the lexer -/

/-- The characters with which the `switch` of `Load` starts a token. -/
def startsToken (c : Char) : Bool :=
  isOperatorChar c || c = Char.ofNat 39 || c = '"' || isIdStart c || c.isDigit

/-- The characters for which `Load` has a case: the space, the line feed, `#`, and the
characters that start a token. -/
def recognised (c : Char) : Bool :=
  c = ' ' || c = '\n' || c = '#' || startsToken c

/-- The tokens other than `Newline`, `Indent`, `Dedent` and `Eof`. -/
def Token.isContent : Token → Bool
  | .Newline => false
  | .Indent => false
  | .Dedent => false
  | .Eof => false
  | _ => true

/-- The number of spaces a line starts with. -/
def leadingSpaces : List Char → Nat
  | c :: rest => if c = ' ' then leadingSpaces rest + 1 else 0
  | [] => 0

/-- A line (the text from its start on) is blank or a comment: after its leading spaces
comes a line feed, a `#`, or the end of the input. -/
def blankOrComment (line : List Char) : Bool :=
  match line.drop (leadingSpaces line) with
  | [] => true
  | c :: _ => c = '\n' || c = '#'

/-- A line is blank, a comment, or indented by an even number of spaces. -/
def evenLead (line : List Char) : Bool :=
  blankOrComment line || leadingSpaces line % 2 = 0

/-- `#Indent - #Dedent` in a list of tokens. -/
def balance : List Token → Int
  | [] => 0
  | .Indent :: rest => balance rest + 1
  | .Dedent :: rest => balance rest - 1
  | _ :: rest => balance rest

/-- The nesting depth a lexer is at: the larger of its two offsets on a new line (where
the `Indent`s up to `current_offset_` or the `Dedent`s down to `offset_` are out), the
spaces of the line inside a line; two spaces a level. -/
def Lexer.level (s : Lexer) : Int :=
  if s.new_line_ then max s.offset_ s.current_offset_ / 2 else s.current_offset_ / 2

/-- No two neighbours in the list are both `Newline`. -/
def noDoubleNewline : List Token → Bool
  | .Newline :: .Newline :: _ => false
  | _ :: rest => noDoubleNewline rest
  | [] => true

/-- The lexer right after it has returned the `Newline` of a line whose leading spaces
were `offset`, with `text` left to read; `tok` is its current token. -/
def atLineStart (text : List Char) (tok : Token) (offset : Int) : Lexer :=
  { input_ := ⟨text, false, false⟩, token_ := tok, new_line_ := true, offset_ := offset,
    current_offset_ := 0 }

/-- The text of lines that `Load` skips: each is blank or a comment and ends with its
line feed. -/
def skippedText : List (List Char) → List Char
  | [] => []
  | line :: more => line ++ '\n' :: skippedText more

/-! ### Vocabulary of the statements about string literals -/

/-- The decoding of the body of a string literal (the text between its quotes) as the loop
of `LoadString` does it, one turn of the loop per clause: `\"` and `\'` give the quote,
`\n` a line feed, `\t` a tab, and any other character is copied. A backslash that is not
followed by a quote, `n` or `t` is such an other character: it alone is copied, and the next
turn starts at the character after it, which is decoded like any character of the body (a
second backslash can start an escape: the body `a\\nb` gives `a`, backslash, line feed,
`b`). -/
def decodeEscapes : List Char → List Char
  | [] => []
  | [c] => [c]
  | c :: d :: rest =>
    if c = '\\' then
      if d = '"' ∨ d = Char.ofNat 39 then d :: decodeEscapes rest
      else if d = 'n' then '\n' :: decodeEscapes rest
      else if d = 't' then '\t' :: decodeEscapes rest
      else '\\' :: decodeEscapes (d :: rest)
    else c :: decodeEscapes (d :: rest)

/-- The decoding of the body of a string literal as the specification words it: a backslash
followed by any character other than `n` and `t` contributes only that character. -/
def decodeAsSpecified : List Char → List Char
  | [] => []
  | [c] => [c]
  | c :: d :: rest =>
    if c = '\\' then
      if d = 'n' then '\n' :: decodeAsSpecified rest
      else if d = 't' then '\t' :: decodeAsSpecified rest
      else d :: decodeAsSpecified rest
    else c :: decodeAsSpecified (d :: rest)

/-- Whether `body` is the text between the quotes of a literal opened and closed by
`first`: it holds `first` only as the second character of an escape, and it does not end
with a backslash that would make an escape of the closing quote. -/
def isLiteralBody (first : Char) : List Char → Bool
  | [] => true
  | [c] => c != first && c != '\\'
  | c :: d :: rest =>
    if c = '\\' then
      if d = '"' ∨ d = Char.ofNat 39 ∨ d = 'n' ∨ d = 't' then isLiteralBody first rest
      else isLiteralBody first (d :: rest)
    else c != first && isLiteralBody first (d :: rest)

/-! ### Vocabulary of the statements about inserted lines and the end of the input -/

/-- Where the reading of a text stands: outside string literals and comments, inside a
comment, inside a string literal opened by `first`, or right after a backslash inside
one. -/
inductive Where where
  | code
  | comment
  | string (first : Char)
  | escape (first : Char)
  deriving DecidableEq, Repr

/-- Where the reading stands one character further: a quote opens a literal and `#` a
comment; a line feed ends a comment; the opening quote closes a literal unless it is the
second character of an escape. -/
def Where.step : Where → Char → Where
  | .code, c =>
    if c = '"' ∨ c = Char.ofNat 39 then .string c else if c = '#' then .comment else .code
  | .comment, c => if c = '\n' then .code else .comment
  | .string first, c =>
    if c = first then .code else if c = '\\' then .escape first else .string first
  | .escape first, d =>
    if d = '"' ∨ d = Char.ofNat 39 ∨ d = 'n' ∨ d = 't' then .string first
    else if d = first then .code
    else if d = '\\' then .escape first
    else .string first

/-- Where the reading of `text` ends when it starts outside literals and comments. -/
def whereAfter (text : List Char) : Where :=
  text.foldl Where.step .code

/-- Not inside a string literal. -/
def Where.outsideString : Where → Bool
  | .code => true
  | .comment => true
  | _ => false

/-- What can follow a text whose reading does not depend on it: the end of the input, or a
line feed and anything. -/
def LineEnd (tail : List Char) : Prop :=
  tail = [] ∨ ∃ more, tail = '\n' :: more

/-- The stream has `text ++ tail` left; it is good, unless nothing is left (at the end of
the input a `peek()` or a failed `get()` may have set its state bits). -/
def IStream.LeftWith (i : IStream) (text tail : List Char) : Prop :=
  i.buf = text ++ tail ∧ (i.good = true ∨ (text = [] ∧ tail = []))

/-- Inside a line the current token is one of the line (or the initial one). -/
def Lexer.InLine (s : Lexer) : Prop :=
  s.new_line_ = false → s.token_.isContent = true

/-- Nothing but spaces is left to read: the stream is good with only spaces left, or not
good with nothing left. -/
def IStream.AtEnd (i : IStream) : Prop :=
  (∃ m, i = ⟨List.replicate m ' ', false, false⟩) ∨ (i.good = false ∧ i.buf = [])

/-- Outside string literals and comments. -/
def Where.isCode : Where → Bool
  | .code => true
  | _ => false

/-- `P` holds at every character of `text`, the reading of which starts at `w`: `P v c rest`
is asked of each character `c`, where `v` is where the reading stands before `c` and `rest`
is the text after `c`. -/
def Where.all (P : Where → Char → List Char → Bool) : Where → List Char → Bool
  | _, [] => true
  | w, c :: rest => P w c rest && Where.all P (w.step c) rest

/-- What `Where.all P` is kept by the lexer for: `P` asks nothing of the characters inside
string literals, and of a line feed that ends a comment what it asks of a line feed outside
comments. -/
structure Where.OutsideStrings (P : Where → Char → List Char → Bool) : Prop where
  string : ∀ first c rest, P (.string first) c rest = true
  escape : ∀ first c rest, P (.escape first) c rest = true
  comment : ∀ rest, P .comment '\n' rest = true → P .code '\n' rest = true

/-- Every character of `text` that stands outside string literals and comments satisfies
`p`. -/
def codeChars (p : Char → Bool) (text : List Char) : Bool :=
  Where.all (fun w c _ => !w.isCode || p c) .code text

/-- Every line of `text` that starts after a line feed outside string literals is blank, a
comment, or indented by an even number of spaces. -/
def codeLinesEven (text : List Char) : Bool :=
  Where.all (fun w c rest => !(w.outsideString && c == '\n') || evenLead rest) .code text

/-- Not the byte 0xFF, which `Load` takes for the end of the input. -/
def notEofByte (c : Char) : Bool := c != Char.ofNat 255

/-- The characters for which `Load` has a case: those of `recognised`, and the byte 0xFF,
which it takes for the end of the input. -/
def hasCase (c : Char) : Bool := recognised c || c == Char.ofNat 255

/-- Every line of the text is blank, a comment, or indented by an even number of spaces. The
lines are those the lexer sees: a line feed inside a string literal starts none. -/
def evenIndented (text : List Char) : Bool :=
  evenLead text && codeLinesEven text

/-- What holds of a lexer all along an input whose characters outside string literals and
comments are recognised and whose lines are blank, comments, or indented by an even number of
spaces. -/
structure Lexer.EvenlyIndented (s : Lexer) : Prop where
  /-- `token_` is `Newline` only with `new_line_` set. -/
  newline_flag : s.token_ = .Newline → s.new_line_ = true
  /-- The characters left outside string literals and comments are recognised. -/
  chars_recognised : codeChars recognised s.input_.buf = true
  /-- The lines that start in the text left are blank, comments or evenly indented. -/
  lines_even : codeLinesEven s.input_.buf = true
  co_nonneg : 0 ≤ s.current_offset_
  co_even : s.current_offset_ % 2 = 0
  offset_nonneg : s.new_line_ = true → 0 ≤ s.offset_
  offset_even : s.new_line_ = true → s.offset_ % 2 = 0
  /-- At the start of a line, the line is blank, a comment or evenly indented. -/
  line_even : s.new_line_ = true → s.current_offset_ = 0 → s.input_.good = true →
    evenLead s.input_.buf = true
  /-- After an `Indent` or a `Dedent` inside the leading spaces of a line, an even number
  of spaces and a character that starts a token are left. -/
  mid_line : s.new_line_ = true → s.current_offset_ ≠ 0 →
    ∃ m c rest, s.input_ = ⟨List.replicate m ' ' ++ c :: rest, false, false⟩ ∧
      startsToken c = true ∧ m % 2 = 0
  /-- At `Eof` the depth is 0. -/
  eof_level : s.token_ = .Eof → s.level = 0

/-- A line of source that holds a token: the number of its leading spaces, its first
character, and what follows that character up to the line feed. -/
structure SourceLine where
  indent : Nat
  first : Char
  body : List Char

/-- The text of the line, without its line feed. -/
def SourceLine.text (l : SourceLine) : List Char :=
  List.replicate l.indent ' ' ++ l.first :: l.body

/-- The line starts with a character that starts a token, holds no line feed, does not end
inside a string literal, and holds no byte 0xFF outside string literals and comments. -/
def SourceLine.tokenLine (l : SourceLine) : Bool :=
  startsToken l.first && !l.body.contains '\n' &&
    (whereAfter (l.first :: l.body)).outsideString && codeChars notEofByte (l.first :: l.body)

/-- The text of a source: for each line that holds a token, the blank lines and comment lines
before it, then the line, each with its line feed. -/
def sourceText : List (List (List Char) × SourceLine) → List Char
  | [] => []
  | g :: more => skippedText g.1 ++ (g.2.text ++ '\n' :: sourceText more)

/-- What `codeChars notEofByte` asks, but for the last `n` characters of the text, of which
nothing is asked. -/
def noEofByteBefore (n : Nat) (w : Where) (c : Char) (rest : List Char) : Bool :=
  decide (rest.length < n) || !w.isCode || notEofByte c

end parse

/-! ## Positions of a `Return` under `Compound` and `IfElse` nodes -/

/-- A path from a method body down to one of its statements through `Compound` and
`IfElse` nodes only. -/
inductive ReturnPath where
  | here
  | inCompound (before : List Statement) (inner : ReturnPath) (after : List Statement)
  | inThen (condition : Statement) (inner : ReturnPath) (else_body : Option Statement)
  | inElse (condition if_body : Statement) (inner : ReturnPath)

/-- The body that has `s` at the end of the path. -/
def ReturnPath.plug : ReturnPath → Statement → Statement
  | .here, s => s
  | .inCompound before inner after, s => .Compound (before ++ inner.plug s :: after)
  | .inThen condition inner else_body, s => .IfElse condition (inner.plug s) else_body
  | .inElse condition if_body inner, s => .IfElse condition if_body (some (inner.plug s))

/-- The number of nodes above the end of the path. -/
def ReturnPath.depth : ReturnPath → Nat
  | .here => 0
  | .inCompound _ inner _ => inner.depth + 1
  | .inThen _ inner _ => inner.depth + 1
  | .inElse _ _ inner => inner.depth + 1

/-- Control gets from the start of the body (closure `c`, world `w`) to the statement at the
end of the path (closure `c1`, world `w1`): the statements before it in each `Compound`
complete normally and each `IfElse` on the way takes the branch of the path. `fuel` is the
fuel with which the statement at the end of the path is executed. -/
def ReturnPath.Reaches : ReturnPath → Nat → Closure → World → Closure → World → Prop
  | .here, _, c, w, c1, w1 => c = c1 ∧ w = w1
  | .inCompound before inner _, fuel, c, w, c1, w1 =>
    ∃ cm wm, ExecuteStatements (Execute (fuel + inner.depth)) before c w = .value () cm wm ∧
      inner.Reaches fuel cm wm c1 w1
  | .inThen condition inner _, fuel, c, w, c1, w1 =>
    ∃ cond cm wm, Execute (fuel + inner.depth) condition c w = .value cond cm wm ∧
      IsTrue cond = true ∧ inner.Reaches fuel cm wm c1 w1
  | .inElse condition _ inner, fuel, c, w, c1, w1 =>
    ∃ cond cm wm, Execute (fuel + inner.depth) condition c w = .value cond cm wm ∧
      IsTrue cond = false ∧ inner.Reaches fuel cm wm c1 w1

/-! ## Data of the examples -/

/-- The class of the witness of C1: `f(x)` returns `x` from inside an `if` inside the
body's compound; statements follow the `return` at both levels. -/
def C1_class : Class :=
  .mk "A" [.mk "f" ["x"] (.MethodBody (.Compound [
      .IfElse (.VariableValue ["x"])
        (.Compound [.Return (.VariableValue ["x"]),
                    .Assignment "y" (.VariableValue ["x"])])
        none,
      .Assignment "x" (.VariableValue ["self"])]))] none

/-- The parent chain of a class, nearest first: `C, P1, P2, ...`. -/
def Class.chain : Class → List Class
  | .mk name methods parent =>
    .mk name methods parent ::
      (match parent with
       | some p => p.chain
       | none => [])

/-- Whether a class itself declares a method named `name`. -/
def Class.declares (cls : Class) (name : String) : Bool :=
  cls.methods_.any fun method => decide (method.name = name)

/-- Method lookup as the specification words it: in the first class of the chain that
declares a method named `name`, the first such method in declaration order. -/
def lookupAlongChain (cls : Class) (name : String) : Option Method :=
  (cls.chain.find? fun k => k.declares name).bind fun k =>
    k.methods_.find? fun method => decide (method.name = name)

/-- Data for C8: `Base` declares `f()`; `Derived`, its child, declares `f(x)`. -/
def C8_Base : Class :=
  .mk "Base" [.mk "f" [] (.MethodBody (.Compound [.Return (.VariableValue ["self"])]))] none

def C8_Derived : Class :=
  .mk "Derived" [.mk "f" ["x"] (.MethodBody (.Compound [.Return (.VariableValue ["x"])]))]
    (some C8_Base)

/-- Data for C9: a class whose only method is `m()`, and a class declaring `a()` and
`b()`. -/
def C9_Plain : Class := .mk "Plain" [.mk "m" [] (.MethodBody (.Compound []))] none

def C9_WithMethods : Class :=
  .mk "WithMethods" [.mk "a" [] (.MethodBody (.Compound [])),
                     .mk "b" [] (.MethodBody (.Compound []))] none

/-! ## Vocabulary and data of the statements about comparison, `Stringify` and `Div` -/

/-- The type of the object in a holder, as a number; 0 for the empty holder. -/
def ObjectHolder.typeIndex : ObjectHolder → Nat
  | .None => 0
  | .Number _ => 1
  | .String _ => 2
  | .Bool _ => 3
  | .Class _ => 4
  | .ClassInstance _ => 5

/-- The result of a call that completed normally. -/
def Outcome.result? {α : Type} : Outcome α → Option α
  | .value a _ _ => some a
  | _ => none

/-- Data for C13: a class whose `__lt__` takes two parameters, and a class whose `__lt__`
takes one and returns it. -/
def C13_Pair : Class :=
  .mk "Pair" [.mk "__lt__" ["a", "b"] (.MethodBody (.Compound [.Return (.VariableValue ["a"])]))]
    none

def C13_Ordered : Class :=
  .mk "Ordered"
    [.mk "__lt__" ["other"] (.MethodBody (.Compound [.Return (.VariableValue ["other"])]))] none

/-- Data for C14: `__lt__` stores the field `yes` into the field `seen` and returns
`not self.yes`; `__eq__` returns `self.seen`. -/
def C14_Counter : Class :=
  .mk "Counter"
    [.mk "__lt__" ["other"] (.MethodBody (.Compound [
        .FieldAssignment ["self"] "seen" (.VariableValue ["self", "yes"]),
        .Return (.Not (.VariableValue ["self", "yes"]))])),
     .mk "__eq__" ["other"] (.MethodBody (.Compound [
        .Return (.VariableValue ["self", "seen"])]))]
    none

/-- One instance of `C14_Counter`, with `seen = False` and `yes = True`. -/
def C14_world : World :=
  ⟨[⟨C14_Counter, [("seen", .Bool false), ("yes", .Bool true)]⟩], ""⟩

/-- Data for C15: a class without methods. -/
def C15_A : Class := .mk "A" [] none

/-- The least value of a `Number`. -/
def NUMBER_MIN : Int := -(2 ^ (NUMBER_BITS - 1) : Int)

/-! ## Vocabulary of the statements about calls -/

/-- The specification's reading of "the arguments are evaluated from left to right":
`EvaluatedLeftToRight exec args c w vals c1 w1` says that the first expression of `args` is
evaluated in the state `(c, w)` and every next one in the state that the one before it left,
that each evaluation ends normally, that `vals` are the values in the order of `args`, and
that `(c1, w1)` is the state the last one left (`(c, w)` itself for no argument). -/
def EvaluatedLeftToRight (exec : Exec) :
    List Statement → Closure → World → List ObjectHolder → Closure → World → Prop
  | [], c, w, vals, c1, w1 => vals = [] ∧ c1 = c ∧ w1 = w
  | arg :: rest, c, w, vals, c1, w1 =>
    ∃ v vs cm wm, exec arg c w = .value v cm wm ∧ vals = v :: vs
      ∧ EvaluatedLeftToRight exec rest cm wm vs c1 w1

/-! ## Data of the statements about calls -/

/-- Data for C22: `f` has a parameter named `self` and returns `self`; `g` has two
parameters named `x` and returns `x`. -/
def C22_Shadow : Class :=
  .mk "Shadow"
    [.mk "f" ["self"] (.MethodBody (.Compound [.Return (.VariableValue ["self"])])),
     .mk "g" ["x", "x"] (.MethodBody (.Compound [.Return (.VariableValue ["x"])]))]
    none

/-- Data for the witness of C22: `m(p)` returns `p`. -/
def C22_Box : Class :=
  .mk "Box" [.mk "m" ["p"] (.MethodBody (.Compound [.Return (.VariableValue ["p"])]))] none

/-- Data for C23: `m(p)` returns `p`. -/
def C23_Box : Class :=
  .mk "Box" [.mk "m" ["p"] (.MethodBody (.Compound [.Return (.VariableValue ["p"])]))] none

/-- Data for C25: `Child` declares `__init__(a, b)`; its parent declares `__init__(a)`. -/
def C25_Parent : Class :=
  .mk "Parent" [.mk "__init__" ["a"] (.MethodBody (.Compound []))] none

def C25_Child : Class :=
  .mk "Child" [.mk "__init__" ["a", "b"] (.MethodBody (.Compound []))] (some C25_Parent)

/-! # Theorems -/

/-! ## Lemmas on the evaluator -/

theorem ExecuteStatements_append_returned (exec : Exec) (before after : List Statement)
    (s : Statement) (c cm c2 : Closure) (w wm w2 : World) (v : ObjectHolder)
    (hb : ExecuteStatements exec before c w = .value () cm wm)
    (hs : exec s cm wm = .returned v c2 w2) :
    ExecuteStatements exec (before ++ s :: after) c w = .returned v c2 w2 := by
  induction before generalizing c w with
  | nil =>
    simp only [ExecuteStatements] at hb
    cases hb
    simp [ExecuteStatements, hs, Outcome.bind]
  | cons b rest ih =>
    simp only [ExecuteStatements, List.cons_append] at hb ⊢
    cases hx : exec b c w with
    | value a c' w' =>
      rw [hx] at hb
      simp only [Outcome.bind] at hb ⊢
      exact ih c' w' hb
    | returned _ _ _ => rw [hx] at hb; simp [Outcome.bind] at hb
    | raised _ _ _ => rw [hx] at hb; simp [Outcome.bind] at hb
    | crash => rw [hx] at hb; simp [Outcome.bind] at hb
    | outOfFuel => rw [hx] at hb; simp [Outcome.bind] at hb

theorem Execute_plug_Return (path : ReturnPath) (e : Statement) (fuel : Nat)
    (c0 c1 c2 : Closure) (w0 w1 w2 : World) (v : ObjectHolder)
    (hreach : path.Reaches (fuel + 1) c0 w0 c1 w1)
    (he : Execute fuel e c1 w1 = .value v c2 w2) :
    Execute (fuel + 1 + path.depth) (path.plug (.Return e)) c0 w0 = .returned v c2 w2 := by
  induction path generalizing c0 w0 with
  | here =>
    obtain ⟨rfl, rfl⟩ := hreach
    simp [ReturnPath.plug, ReturnPath.depth, Execute, he, Outcome.bind]
  | inCompound before inner after ih =>
    obtain ⟨cm, wm, hb, hin⟩ := hreach
    have hs := ih cm wm hin
    have := ExecuteStatements_append_returned (Execute (fuel + 1 + inner.depth)) before after
      (inner.plug (.Return e)) c0 cm c2 w0 wm w2 v hb hs
    simp only [ReturnPath.plug, ReturnPath.depth]
    rw [← Nat.add_assoc, Execute]
    simp [this, Outcome.bind]
  | inThen condition inner else_body ih =>
    obtain ⟨cond, cm, wm, hc, ht, hin⟩ := hreach
    have hs := ih cm wm hin
    simp only [ReturnPath.plug, ReturnPath.depth]
    rw [← Nat.add_assoc, Execute]
    simp [hc, Outcome.bind, ht, hs]
  | inElse condition if_body inner ih =>
    obtain ⟨cond, cm, wm, hc, ht, hin⟩ := hreach
    have hs := ih cm wm hin
    simp only [ReturnPath.plug, ReturnPath.depth]
    rw [← Nat.add_assoc, Execute]
    simp [hc, Outcome.bind, ht, hs]

/-! ## C1: return locality -/

/-- C1. Return locality. A method `q_method` of the receiver has the body
`MethodBody (path.plug (Return e))`: a `Return e` at any depth under `Compound` and `IfElse`
nodes. If control reaches that `Return` and `e` evaluates to `v`, leaving closure `c2` and
world `w2`, then (1) the `MethodBody` yields `v` in exactly that closure and world, whatever
statements follow the `Return` on the path, so none of them is executed; (2) the
`MethodCall` completes normally with `v`, so the signal does not escape; (3) a `Compound` of
the caller goes on with the statements after the call. -/
theorem C1_return_locality (path : ReturnPath) (e : Statement) (fuel : Nat)
    (object : Statement) (method : String) (args after : List Statement)
    (caller ca cb c1 c2 : Closure) (w wa wb w1 w2 : World)
    (actual_args : List ObjectHolder) (self : Nat) (inst : Instance) (q_method : Method)
    (v : ObjectHolder)
    (hargs : ExecuteArgs (Execute (fuel + path.depth + 2)) args caller w
      = .value actual_args ca wa)
    (hobj : Execute (fuel + path.depth + 2) object ca wa = .value (.ClassInstance self) cb wb)
    (hinst : wb.heap[self]? = some inst)
    (hmethod : inst.cls_.GetMethod method = some q_method)
    (harity : q_method.formal_params.length = actual_args.length)
    (hbody : q_method.body = .MethodBody (path.plug (.Return e)))
    (hreach : path.Reaches (fuel + 1)
      (callClosure self q_method.formal_params actual_args) wb c1 w1)
    (he : Execute fuel e c1 w1 = .value v c2 w2) :
    Execute (fuel + path.depth + 2) (.MethodBody (path.plug (.Return e)))
        (callClosure self q_method.formal_params actual_args) wb = .value v c2 w2
    ∧ Execute (fuel + path.depth + 3) (.MethodCall object method args) caller w
        = .value v cb w2
    ∧ Execute (fuel + path.depth + 4) (.Compound (.MethodCall object method args :: after))
        caller w
        = Execute (fuel + path.depth + 4) (.Compound after) cb w2 := by
  have hret := Execute_plug_Return path e fuel _ c1 c2 wb w1 w2 v hreach he
  have hfuel : fuel + path.depth + 1 = fuel + 1 + path.depth := by omega
  have hmb : Execute (fuel + path.depth + 2) (.MethodBody (path.plug (.Return e)))
      (callClosure self q_method.formal_params actual_args) wb = .value v c2 w2 := by
    rw [Execute, hfuel, hret]
  have hcall : Execute (fuel + path.depth + 3) (.MethodCall object method args) caller w
      = .value v cb w2 := by
    rw [Execute]
    simp [hargs, hobj, Outcome.bind, Call, hinst, hmethod, HasMethod, harity, hbody, hmb,
      Outcome.inFrame]
  refine ⟨hmb, hcall, ?_⟩
  rw [Execute, Execute]
  simp [ExecuteStatements, hcall, Outcome.bind]

/-- C1 at a concrete program: `obj.f(n)` with `n = 7`, followed by `z = n`. The call
yields 7 and `z = n` is executed. -/
theorem C1_return_locality_witness :
    Execute 7 (.MethodCall (.VariableValue ["obj"]) "f" [.VariableValue ["n"]])
        [("obj", .ClassInstance 0), ("n", .Number 7)] ⟨[⟨C1_class, []⟩], ""⟩
      = .value (.Number 7) [("obj", .ClassInstance 0), ("n", .Number 7)]
          ⟨[⟨C1_class, []⟩], ""⟩
    ∧ Execute 8 (.Compound [.MethodCall (.VariableValue ["obj"]) "f" [.VariableValue ["n"]],
          .Assignment "z" (.VariableValue ["n"])])
        [("obj", .ClassInstance 0), ("n", .Number 7)] ⟨[⟨C1_class, []⟩], ""⟩
      = .value .None [("obj", .ClassInstance 0), ("n", .Number 7), ("z", .Number 7)]
          ⟨[⟨C1_class, []⟩], ""⟩ := by
  have h := C1_return_locality
    (.inCompound [] (.inThen (.VariableValue ["x"])
      (.inCompound [] .here [.Assignment "y" (.VariableValue ["x"])]) none)
      [.Assignment "x" (.VariableValue ["self"])])
    (.VariableValue ["x"]) 1
    (.VariableValue ["obj"]) "f" [.VariableValue ["n"]]
    [.Assignment "z" (.VariableValue ["n"])]
    [("obj", .ClassInstance 0), ("n", .Number 7)]
    [("obj", .ClassInstance 0), ("n", .Number 7)]
    [("obj", .ClassInstance 0), ("n", .Number 7)]
    [("self", .ClassInstance 0), ("x", .Number 7)]
    [("self", .ClassInstance 0), ("x", .Number 7)]
    ⟨[⟨C1_class, []⟩], ""⟩ ⟨[⟨C1_class, []⟩], ""⟩ ⟨[⟨C1_class, []⟩], ""⟩
    ⟨[⟨C1_class, []⟩], ""⟩ ⟨[⟨C1_class, []⟩], ""⟩
    [.Number 7] 0 ⟨C1_class, []⟩
    (.mk "f" ["x"] (.MethodBody (.Compound [
      .IfElse (.VariableValue ["x"])
        (.Compound [.Return (.VariableValue ["x"]),
                    .Assignment "y" (.VariableValue ["x"])])
        none,
      .Assignment "x" (.VariableValue ["self"])])))
    (.Number 7)
    rfl rfl rfl rfl rfl rfl
    ⟨_, _, rfl, _, _, _, rfl, rfl, _, _, rfl, rfl, rfl⟩
    rfl
  exact ⟨h.2.1, h.2.2.trans rfl⟩

/-! ## C2: a body that completes without `Return` -/

/-- C2, as stated, fails: the body `x = n` completes without a `Return` and produces 7, and
`MethodBody` yields that 7, not the empty holder. -/
theorem C2_counterexample :
    Execute 2 (.Assignment "x" (.VariableValue ["n"])) [("n", .Number 7)] ⟨[], ""⟩
      = .value (.Number 7) [("n", .Number 7), ("x", .Number 7)] ⟨[], ""⟩
    ∧ Execute 3 (.MethodBody (.Assignment "x" (.VariableValue ["n"]))) [("n", .Number 7)]
        ⟨[], ""⟩
      = .value (.Number 7) [("n", .Number 7), ("x", .Number 7)] ⟨[], ""⟩
    ∧ Execute 3 (.MethodBody (.Assignment "x" (.VariableValue ["n"]))) [("n", .Number 7)]
        ⟨[], ""⟩
      ≠ .value .None [("n", .Number 7), ("x", .Number 7)] ⟨[], ""⟩ := by
  refine ⟨rfl, rfl, ?_⟩
  rw [show Execute 3 (.MethodBody (.Assignment "x" (.VariableValue ["n"]))) [("n", .Number 7)]
        ⟨[], ""⟩
      = .value (.Number 7) [("n", .Number 7), ("x", .Number 7)] ⟨[], ""⟩ from rfl]
  intro h
  injection h with h1
  cases h1

/-- C2, amended. When the body completes without a `Return`, producing `v`, `MethodBody`
yields that same `v` in the same closure and world; `v` is the empty holder when the body
is a `Compound`. -/
theorem C2_method_body_yields_body_value (fuel : Nat) (body : Statement) (c c1 : Closure)
    (w w1 : World) (v : ObjectHolder)
    (hbody : Execute fuel body c w = .value v c1 w1) :
    Execute (fuel + 1) (.MethodBody body) c w = .value v c1 w1
    ∧ ∀ statements, body = .Compound statements → v = .None := by
  refine ⟨by rw [Execute, hbody], ?_⟩
  rintro statements rfl
  cases fuel with
  | zero => simp [Execute] at hbody
  | succ n =>
    rw [Execute] at hbody
    cases hs : ExecuteStatements (Execute n) statements c w with
    | value a c2 w2 =>
      rw [hs] at hbody
      simp only [Outcome.bind] at hbody
      injection hbody with h1
      exact h1.symm
    | returned _ _ _ => rw [hs] at hbody; simp [Outcome.bind] at hbody
    | raised _ _ _ => rw [hs] at hbody; simp [Outcome.bind] at hbody
    | crash => rw [hs] at hbody; simp [Outcome.bind] at hbody
    | outOfFuel => rw [hs] at hbody; simp [Outcome.bind] at hbody

/-- C2 amended, at the body `x = n` with `n = 7`. -/
theorem C2_method_body_yields_body_value_witness :
    Execute 3 (.MethodBody (.Assignment "x" (.VariableValue ["n"]))) [("n", .Number 7)]
        ⟨[], ""⟩
      = .value (.Number 7) [("n", .Number 7), ("x", .Number 7)] ⟨[], ""⟩ :=
  (C2_method_body_yields_body_value 2 (.Assignment "x" (.VariableValue ["n"]))
    [("n", .Number 7)] [("n", .Number 7), ("x", .Number 7)] ⟨[], ""⟩ ⟨[], ""⟩ (.Number 7)
    rfl).1

/-! ## C6: truthiness -/

/-- C6. `IsTrue x` holds exactly when `x` is a `Number` other than 0, a `String` that is not
empty, or `Bool true`; it is false for the empty holder, every `Class`, every
`ClassInstance`, `Bool false`, `Number 0` and the empty `String`. -/
theorem C6_IsTrue_iff (x : ObjectHolder) :
    (IsTrue x = true ↔
      (∃ n, x = .Number n ∧ n ≠ 0) ∨ (∃ s, x = .String s ∧ s ≠ "") ∨ x = .Bool true)
    ∧ IsTrue .None = false
    ∧ (∀ cls, IsTrue (.Class cls) = false)
    ∧ (∀ addr, IsTrue (.ClassInstance addr) = false)
    ∧ IsTrue (.Bool false) = false
    ∧ IsTrue (.Number 0) = false
    ∧ IsTrue (.String "") = false := by
  refine ⟨?_, rfl, fun _ => rfl, fun _ => rfl, rfl, rfl, rfl⟩
  cases x with
  | None => simp [IsTrue]
  | Number n => simp [IsTrue]
  | String s => simp [IsTrue]
  | Bool b => simp [IsTrue]
  | Class cls => simp [IsTrue]
  | ClassInstance addr => simp [IsTrue]

/-! ## C7: method lookup -/

theorem findMethod_eq_find (name : String) (methods : List Method) :
    findMethod name methods = methods.find? fun method => decide (method.name = name) := by
  induction methods with
  | nil => rfl
  | cons m rest ih =>
    by_cases h : m.name = name <;> simp [findMethod, List.find?, h, ih]

theorem findMethod_eq_none (name : String) (methods : List Method) :
    findMethod name methods = none ↔ ∀ q ∈ methods, q.name ≠ name := by
  rw [findMethod_eq_find]
  simp

theorem findMethod_isSome (name : String) (methods : List Method) :
    (findMethod name methods).isSome = methods.any fun method => decide (method.name = name) := by
  induction methods with
  | nil => rfl
  | cons m rest ih =>
    by_cases h : m.name = name <;> simp [findMethod, h, ih]

theorem Class.methods_mk (name : String) (methods : List Method) (parent : Option Class) :
    (Class.mk name methods parent).methods_ = methods := rfl

theorem GetMethod_eq_lookupAlongChain : (C : Class) → (m : String) →
    C.GetMethod m = lookupAlongChain C m
  | .mk name methods none, m => by
    have h1 := findMethod_isSome m methods
    have h2 := findMethod_eq_find m methods
    simp only [Class.GetMethod, lookupAlongChain, Class.chain, List.find?, Class.declares,
      Class.methods_mk, ← h1, ← h2]
    cases h : findMethod m methods <;> simp [Class.methods_mk, ← h2, h]
  | .mk name methods (some p), m => by
    have ih := GetMethod_eq_lookupAlongChain p m
    have h1 := findMethod_isSome m methods
    have h2 := findMethod_eq_find m methods
    simp only [Class.GetMethod, lookupAlongChain, Class.chain, List.find?, Class.declares,
      Class.methods_mk, ← h1]
    cases h : findMethod m methods with
    | none => simpa [lookupAlongChain, Class.declares] using ih
    | some q => simp [Class.methods_mk, ← h2, h]

theorem GetMethod_eq_none : (C : Class) → (m : String) →
    (C.GetMethod m = none ↔ ∀ K ∈ C.chain, ∀ q ∈ K.methods_, q.name ≠ m)
  | .mk name methods none, m => by
    have h1 := findMethod_eq_none m methods
    simp only [Class.GetMethod, Class.chain, List.mem_singleton, forall_eq, Class.methods_mk,
      ← h1]
    cases h : findMethod m methods <;> simp
  | .mk name methods (some p), m => by
    have ih := GetMethod_eq_none p m
    have h1 := findMethod_eq_none m methods
    simp only [Class.GetMethod, Class.chain, List.mem_cons, forall_eq_or_imp, Class.methods_mk,
      ← h1, ← ih]
    cases h : findMethod m methods <;> simp

/-- C7. Method-lookup linearity. `Class.GetMethod` is a total function on classes (a parent
chain is a finite value); its result is the first method named `m`, in declaration order,
of the first class of the chain `C, P1, P2, ...` that declares one, with no regard to
parameter lists; it is null exactly when no class of the chain declares a method named `m`. -/
theorem C7_GetMethod_linear (C : Class) (m : String) :
    C.GetMethod m = lookupAlongChain C m
    ∧ (C.GetMethod m = none ↔ ∀ K ∈ C.chain, ∀ q ∈ K.methods_, q.name ≠ m) :=
  ⟨GetMethod_eq_lookupAlongChain C m, GetMethod_eq_none C m⟩

/-! ## C8: `ClassInstance::Call` and `HasMethod` -/

theorem HasMethod_iff (cls : Class) (method : String) (n : Nat) :
    HasMethod cls method n = true ↔
      ∃ q, cls.GetMethod method = some q ∧ q.formal_params.length = n := by
  unfold HasMethod
  cases cls.GetMethod method <;> simp

/-- C8. For the instance at `self`: if `HasMethod name |args|` is false, `Call` throws
`runtime_error("Not implemented")` in an unchanged world, whatever the evaluator `exec` is
(no body is executed); if it is true, `Call` executes the body of the first method named
`name` along the chain, which has `|args|` parameters. `HasMethod` is true exactly when
that first method exists and has `|args|` parameters. -/
theorem C8_Call_iff_HasMethod (exec : Exec) (self : Nat) (name : String)
    (args : List ObjectHolder) (frame : Closure) (w : World) (inst : Instance)
    (hinst : w.heap[self]? = some inst) :
    (HasMethod inst.cls_ name args.length = false →
      ∀ exec1 : Exec,
        Call exec1 self name args frame w = .raised (.runtime_error "Not implemented") frame w)
    ∧ (HasMethod inst.cls_ name args.length = true →
      ∃ q, lookupAlongChain inst.cls_ name = some q ∧ q.formal_params.length = args.length ∧
        Call exec self name args frame w
          = (exec q.body (callClosure self q.formal_params args) w).inFrame frame)
    ∧ (HasMethod inst.cls_ name args.length = true ↔
      ∃ q, lookupAlongChain inst.cls_ name = some q ∧ q.formal_params.length = args.length) := by
  rw [← GetMethod_eq_lookupAlongChain]
  refine ⟨?_, ?_, HasMethod_iff _ _ _⟩
  · intro h exec1
    unfold Call
    rw [hinst]
    cases hq : inst.cls_.GetMethod name <;> simp [h, hq]
  · intro h
    obtain ⟨q, hq, hlen⟩ := (HasMethod_iff _ _ _).1 h
    refine ⟨q, hq, hlen, ?_⟩
    unfold Call
    rw [hinst]
    simp [hq, h]

/-- C8 at an instance of `Derived`, whose `f(x)` hides `f()` of `Base`: `Call("f", [])`
throws and `Base.f` is not called; `Call("f", [5])` runs `Derived.f`. -/
theorem C8_Call_iff_HasMethod_witness :
    (∀ exec1 : Exec,
      Call exec1 0 "f" [] [] ⟨[⟨C8_Derived, []⟩], ""⟩
        = .raised (.runtime_error "Not implemented") [] ⟨[⟨C8_Derived, []⟩], ""⟩)
    ∧ HasMethod C8_Base "f" 0 = true
    ∧ HasMethod C8_Derived "f" 0 = false
    ∧ HasMethod C8_Derived "f" 1 = true :=
  ⟨(C8_Call_iff_HasMethod (Execute 5) 0 "f" [] [] ⟨[⟨C8_Derived, []⟩], ""⟩ ⟨C8_Derived, []⟩
      rfl).1 rfl,
    rfl, rfl, rfl⟩

/-! ## C9: dotted paths -/

/-- C9 fails on the code. (1) `x.a.b`, where `x` holds an instance with field `a`, which
holds an instance with field `b = 1`, and the class declares no method named `a`: the loop
asks `HasMethod("a", 0)` and throws. (2) `x.a.b.c`, where the class declares `a()` and `b()`,
`x.a.b.c = 9` and `x` itself has a field `b = 5`: the loop reads `b` from `x` again, not
from `x.a`, and the last step dereferences a null pointer. -/
theorem C9_dotted_path_failing_input :
    Execute 1 (.VariableValue ["x", "a", "b"]) [("x", .ClassInstance 0)]
        ⟨[⟨C9_Plain, [("a", .ClassInstance 1)]⟩, ⟨C9_Plain, [("b", .Number 1)]⟩], ""⟩
      = .raised (.runtime_error "VariableValue::Execute. HasMethod false")
          [("x", .ClassInstance 0)]
          ⟨[⟨C9_Plain, [("a", .ClassInstance 1)]⟩, ⟨C9_Plain, [("b", .Number 1)]⟩], ""⟩
    ∧ Execute 1 (.VariableValue ["x", "a", "b", "c"]) [("x", .ClassInstance 0)]
        ⟨[⟨C9_WithMethods, [("a", .ClassInstance 1), ("b", .Number 5)]⟩,
          ⟨C9_WithMethods, [("b", .ClassInstance 2)]⟩,
          ⟨C9_WithMethods, [("c", .Number 9)]⟩], ""⟩
      = .crash :=
  ⟨rfl, rfl⟩

/-! ## C10: `And` -/

/-- C10 fails on the code: with `x = 1` and `y = 2`, `x and y` dereferences the null pointer
that `TryAs<Bool>()` yields for a `Number`, where the claim has `Bool(true)`. -/
theorem C10_And_failing_input :
    Execute 2 (.And (.VariableValue ["x"]) (.VariableValue ["y"]))
        [("x", .Number 1), ("y", .Number 2)] ⟨[], ""⟩ = .crash
    ∧ (IsTrue (.Number 1) && IsTrue (.Number 2)) = true :=
  ⟨rfl, rfl⟩

/-! ## C11: `Or` -/

/-- C11 fails on the code: with `x = 1`, `x or y` dereferences the null pointer that
`TryAs<Bool>()` yields for a `Number`, where the claim has `Bool(true)` without a look at
`y`; and with `y = False`, `y or x` does so for the right operand, where the claim has
`Bool(IsTrue(1))`. On `Bool` operands `Or` does short-circuit: a right operand that would
fail is not evaluated. The null pointer is dereferenced for every left operand that is not
a `Bool`, whatever the right operand. -/
theorem C11_Or_failing_input :
    Execute 2 (.Or (.VariableValue ["x"]) (.VariableValue ["y"]))
        [("x", .Number 1), ("y", .Bool false)] ⟨[], ""⟩ = .crash
    ∧ IsTrue (.Number 1) = true
    ∧ Execute 2 (.Or (.VariableValue ["y"]) (.VariableValue ["x"]))
        [("x", .Number 1), ("y", .Bool false)] ⟨[], ""⟩ = .crash
    ∧ Execute 2 (.Or (.VariableValue ["t"]) (.VariableValue ["unbound"]))
        [("t", .Bool true)] ⟨[], ""⟩ = .value (.Bool true) [("t", .Bool true)] ⟨[], ""⟩
    ∧ (∀ (exec : Exec) (rhs : Statement) (c : Closure) (w : World),
        (∀ n : Int, Or.apply exec (.Number n) rhs c w = .crash)
        ∧ (∀ s : String, Or.apply exec (.String s) rhs c w = .crash)
        ∧ Or.apply exec .None rhs c w = .crash
        ∧ (∀ cls : Class, Or.apply exec (.Class cls) rhs c w = .crash)
        ∧ (∀ addr : Nat, Or.apply exec (.ClassInstance addr) rhs c w = .crash)) :=
  ⟨rfl, rfl, rfl, rfl, fun _ _ _ _ => ⟨fun _ => rfl, fun _ => rfl, rfl, fun _ => rfl,
    fun _ => rfl⟩⟩

/-! ## C12: `Equal` on holders of different types -/

/-- C12 fails: `Equal` on `Number(1)` and `String("a")` throws
`runtime_error("Can not compare objects")`; so does the `Comparison` node that applies it. -/
theorem C12_counterexample :
    Equal (Execute 1) (.Number 1) (.String "a") [] ⟨[], ""⟩
      = .raised (.runtime_error "Can not compare objects") [] ⟨[], ""⟩
    ∧ Execute 2 (.Comparison .Equal (.VariableValue ["x"]) (.VariableValue ["y"]))
        [("x", .Number 1), ("y", .String "a")] ⟨[], ""⟩
      = .raised (.runtime_error "Can not compare objects")
          [("x", .Number 1), ("y", .String "a")] ⟨[], ""⟩ :=
  ⟨rfl, rfl⟩

/-- C12, amended: `Equal` applied to two holders of different types (two objects of
different types, or an object and the empty holder) fails with
`runtime_error("Can not compare objects")`, whatever the evaluator and the state. -/
theorem C12_Equal_mixed_types_fails (exec : Exec) (lhs rhs : ObjectHolder) (frame : Closure)
    (w : World) (h : lhs.typeIndex ≠ rhs.typeIndex) :
    Equal exec lhs rhs frame w = .raised (.runtime_error "Can not compare objects") frame w := by
  cases lhs <;> cases rhs <;> first | exact absurd rfl h | rfl

theorem C12_Equal_mixed_types_fails_witness :
    Equal (Execute 1) (.Bool true) (.Number 1) [] ⟨[], ""⟩
      = .raised (.runtime_error "Can not compare objects") [] ⟨[], ""⟩ :=
  C12_Equal_mixed_types_fails (Execute 1) (.Bool true) (.Number 1) [] ⟨[], ""⟩ (by decide)

/-! ## C13: `Less` on class instances -/

/-- C13 fails: on two instances of a class whose `__lt__` takes two parameters, `Less`
returns `false`; it does not fail. -/
theorem C13_counterexample :
    HasMethod C13_Pair LT_METHOD 1 = false
    ∧ Less (Execute 1) (.ClassInstance 0) (.ClassInstance 1) []
        ⟨[⟨C13_Pair, []⟩, ⟨C13_Pair, []⟩], ""⟩
      = .value false [] ⟨[⟨C13_Pair, []⟩, ⟨C13_Pair, []⟩], ""⟩ :=
  ⟨rfl, rfl⟩

/-- C13, amended: `Less` applied to two class instances calls the `__lt__` of the left one
with the right one as only argument and coerces what it returns with `IsTrue`, when the
left instance has a `__lt__` with exactly one parameter; when it has none, `Less` returns
`false` and does not fail. `Less` on two empty holders fails with a runtime error. -/
theorem C13_Less_on_instances (exec : Exec) (a b : Nat) (frame : Closure) (w : World)
    (inst : Instance) (h : w.heap[a]? = some inst) :
    (HasMethod inst.cls_ LT_METHOD 1 = true →
      Less exec (.ClassInstance a) (.ClassInstance b) frame w
        = (Call exec a LT_METHOD [.ClassInstance b] frame w).bind
            fun r c w1 => .value (IsTrue r) c w1)
    ∧ (HasMethod inst.cls_ LT_METHOD 1 = false →
      Less exec (.ClassInstance a) (.ClassInstance b) frame w = .value false frame w)
    ∧ Less exec .None .None frame w
        = .raised (.runtime_error "Can not compare objects") frame w := by
  refine ⟨fun hm => ?_, fun hm => ?_, rfl⟩
  · simp [Less, Compare, h, hm]
  · simp [Less, Compare, h, hm]

theorem C13_Less_on_instances_witness :
    Less (Execute 1) (.ClassInstance 0) (.ClassInstance 1) []
        ⟨[⟨C13_Pair, []⟩, ⟨C13_Ordered, []⟩], ""⟩
      = .value false [] ⟨[⟨C13_Pair, []⟩, ⟨C13_Ordered, []⟩], ""⟩
    ∧ Less (Execute 4) (.ClassInstance 1) (.ClassInstance 0) []
        ⟨[⟨C13_Pair, []⟩, ⟨C13_Ordered, []⟩], ""⟩
      = (Call (Execute 4) 1 LT_METHOD [.ClassInstance 0] []
          ⟨[⟨C13_Pair, []⟩, ⟨C13_Ordered, []⟩], ""⟩).bind
            fun r c w1 => .value (IsTrue r) c w1 :=
  ⟨(C13_Less_on_instances (Execute 1) 0 1 [] ⟨[⟨C13_Pair, []⟩, ⟨C13_Ordered, []⟩], ""⟩
      ⟨C13_Pair, []⟩ rfl).2.1 rfl,
   (C13_Less_on_instances (Execute 4) 1 0 [] ⟨[⟨C13_Pair, []⟩, ⟨C13_Ordered, []⟩], ""⟩
      ⟨C13_Ordered, []⟩ rfl).1 rfl⟩

/-! ## C14: the derived comparisons -/

theorem Outcome.inFrame_bind_value {α β : Type} (o : Outcome α) (frame : Closure)
    (f : α → β) (b : β) (c1 : Closure) (w1 : World)
    (h : (o.inFrame frame).bind (fun r c w => .value (f r) c w) = .value b c1 w1) :
    c1 = frame := by
  cases o <;> simp [Outcome.inFrame, Outcome.bind] at h
  exact h.2.1.symm

/-- `Compare` returns in the frame it was called in. -/
theorem Compare_frame (exec : Exec) (lhs rhs : ObjectHolder) (method : String)
    (pred : Predicate) (frame : Closure) (w : World) (b : Bool) (c1 : Closure) (w1 : World)
    (h : Compare exec lhs rhs method pred frame w = .value b c1 w1) : c1 = frame := by
  unfold Compare at h
  split at h
  · simp at h; exact h.2.1.symm
  · simp at h; exact h.2.1.symm
  · simp at h; exact h.2.1.symm
  · split at h
    · simp at h
    · split_ifs at h
      · unfold Call at h
        split at h
        · simp [Outcome.bind] at h
        · split at h
          · split_ifs at h
            · exact Outcome.inFrame_bind_value _ _ _ _ _ _ h
            · simp [Outcome.bind] at h
          · simp [Outcome.bind] at h
      · simp at h; exact h.2.1.symm
  · simp at h

/-- C14 fails when `__lt__` changes what `__eq__` reads: on an instance whose `__lt__` sets
the field that its `__eq__` returns, `Less` and `Equal` both succeed with `false`, yet
`LessOrEqual` gives `true` and `Greater` gives `false`. -/
theorem C14_counterexample :
    (Less (Execute 6) (.ClassInstance 0) (.ClassInstance 0) [] C14_world).result? = some false
    ∧ (Equal (Execute 6) (.ClassInstance 0) (.ClassInstance 0) [] C14_world).result?
        = some false
    ∧ (LessOrEqual (Execute 6) (.ClassInstance 0) (.ClassInstance 0) [] C14_world).result?
        = some true
    ∧ (Greater (Execute 6) (.ClassInstance 0) (.ClassInstance 0) [] C14_world).result?
        = some false :=
  ⟨rfl, rfl, rfl, rfl⟩

/-- C14, amended: `NotEqual(a, b) = not Equal(a, b)` whenever `Equal` succeeds, and
`GreaterOrEqual(a, b) = not Less(a, b)` whenever `Less` succeeds, in the state that `Equal`
or `Less` left, whatever that state is; and for every pair `(a, b)` and every state in which
`Less` and `Equal` both succeed and `Less` leaves the state as it found it (as it does on
`Bool`, `Number` and `String` operands, and on instances whose `__lt__` changes nothing),
`Greater` and `LessOrEqual` succeed with `Greater = not (Less or Equal)` and
`LessOrEqual = Less or Equal`. -/
theorem C14_comparison_derivation (exec : Exec) (a b : ObjectHolder) (c : Closure)
    (w : World) :
    (∀ (e : Bool) (c2 : Closure) (w2 : World), Equal exec a b c w = .value e c2 w2 →
      NotEqual exec a b c w = .value (!e) c2 w2)
    ∧ (∀ (l : Bool) (c1 : Closure) (w1 : World), Less exec a b c w = .value l c1 w1 →
      GreaterOrEqual exec a b c w = .value (!l) c1 w1)
    ∧ (∀ (l e : Bool) (c1 c2 : Closure) (w2 : World),
      Less exec a b c w = .value l c1 w → Equal exec a b c w = .value e c2 w2 →
      (Greater exec a b c w).result? = some (!(l || e))
      ∧ (LessOrEqual exec a b c w).result? = some (l || e)) := by
  refine ⟨fun e c2 w2 he => ?_, fun l c1 w1 hl => ?_, fun l e c1 c2 w2 hl he => ?_⟩
  · simp [NotEqual, he, Outcome.bind]
  · simp [GreaterOrEqual, hl, Outcome.bind]
  · have hc : c1 = c := Compare_frame exec a b LT_METHOD .less c w l c1 w hl
    subst hc
    constructor
    · cases l <;> simp [Greater, hl, he, Outcome.bind, Outcome.result?]
    · cases l <;> simp [LessOrEqual, hl, he, Outcome.bind, Outcome.result?]

theorem C14_comparison_derivation_witness :
    NotEqual (Execute 6) (.ClassInstance 0) (.ClassInstance 0) [] C14_world
        = .value (!false) [] C14_world
    ∧ GreaterOrEqual (Execute 6) (.ClassInstance 0) (.ClassInstance 0) [] C14_world
        = .value (!false) []
            ⟨[⟨C14_Counter, [("seen", .Bool true), ("yes", .Bool true)]⟩], ""⟩
    ∧ (Greater (Execute 0) (.Number 1) (.Number 2) [] ⟨[], ""⟩).result?
        = some (!(true || false))
    ∧ (LessOrEqual (Execute 0) (.Number 1) (.Number 2) [] ⟨[], ""⟩).result?
        = some (true || false) :=
  ⟨(C14_comparison_derivation (Execute 6) (.ClassInstance 0) (.ClassInstance 0) []
      C14_world).1 false [] C14_world rfl,
   (C14_comparison_derivation (Execute 6) (.ClassInstance 0) (.ClassInstance 0) []
      C14_world).2.1 false [] _ rfl,
   (C14_comparison_derivation (Execute 0) (.Number 1) (.Number 2) [] ⟨[], ""⟩).2.2
      true false [] [] ⟨[], ""⟩ rfl rfl⟩

/-! ## C15: `Stringify` -/

/-- C15 fails on the code for a `Class`: `Stringify` of a class named `A` gives the string
`None`, where `Print` writes `Class A` for the same value; `Stringify::Execute` has no case
for a `Class`, so this is so for every class. For a `Number`, a `String`, a `Bool` and the
empty holder the string is the text that `Print` writes. -/
theorem C15_Stringify_failing_input :
    Execute 2 (.Stringify (.VariableValue ["A"])) [("A", .Class C15_A)] ⟨[], ""⟩
      = .value (.String "None") [("A", .Class C15_A)] ⟨[], ""⟩
    ∧ Execute 2 (.Print [.VariableValue ["A"]]) [("A", .Class C15_A)] ⟨[], ""⟩
      = .value .None [("A", .Class C15_A)] ⟨[], "Class A\n"⟩
    ∧ (∀ (exec : Exec) (fuel : Nat) (cls : Class) (c : Closure) (w : World),
        Stringify.apply exec (fuel + 1) (.Class cls) c w = .value (.String "None") c w
        ∧ PrintObject exec (fuel + 1) (.Class cls) c w = .value ("Class " ++ cls.name_) c w)
    ∧ (∀ (exec : Exec) (fuel : Nat) (c : Closure) (w : World),
        (∀ n : Int, Stringify.apply exec (fuel + 1) (.Number n) c w
            = .value (.String (toString n)) c w)
        ∧ (∀ s : String, Stringify.apply exec (fuel + 1) (.String s) c w
            = .value (.String s) c w)
        ∧ Stringify.apply exec (fuel + 1) (.Bool true) c w = .value (.String "True") c w
        ∧ Stringify.apply exec (fuel + 1) (.Bool false) c w = .value (.String "False") c w
        ∧ Stringify.apply exec (fuel + 1) .None c w = .value (.String "None") c w) :=
  ⟨rfl, rfl, fun _ _ _ _ _ => ⟨rfl, rfl⟩, fun _ _ _ _ => ⟨fun _ => rfl, fun _ => rfl, rfl, rfl, rfl⟩⟩

/-! ## C16: `Div` -/

theorem inNumberRange_iff (v : Int) :
    inNumberRange v = true ↔ -(2 ^ 63 : Int) ≤ v ∧ v < 2 ^ 63 := by
  simp [inNumberRange, NUMBER_BITS]

/-- The quotient of two `Number`s is a `Number`, but for the least `Number` by `-1`. -/
theorem tdiv_inNumberRange (a b : Int) (ha : inNumberRange a = true) (hb : b ≠ 0)
    (hne : ¬(a = NUMBER_MIN ∧ b = -1)) : inNumberRange (a.tdiv b) = true := by
  rw [inNumberRange_iff] at ha ⊢
  have hmin : NUMBER_MIN = -(2 ^ 63 : Int) := by simp [NUMBER_MIN, NUMBER_BITS]
  rw [hmin] at hne
  have hq := Int.natAbs_tdiv a b
  have hq2 : (a.tdiv b).natAbs = a.natAbs / b.natAbs := hq
  by_cases h1 : b = 1
  · subst h1; simpa using ha
  by_cases h2 : b = -1
  · subst h2
    have : a.tdiv (-1) = -a := by simp
    rw [this]
    have : a ≠ -(2 ^ 63 : Int) := fun h => hne ⟨h, rfl⟩
    omega
  · have hb2 : 2 ≤ b.natAbs := by omega
    have h3 : a.natAbs / b.natAbs ≤ a.natAbs / 2 := Nat.div_le_div_left hb2 (by decide)
    omega

/-- C16 fails at the least `Number` divided by `-1`: both operands are `Number`s, the
right one is not 0, and the division overflows (undefined behaviour; with the usual
instruction, a trap): the code neither returns the quotient nor fails with a runtime
error. -/
theorem C16_counterexample :
    inNumberRange NUMBER_MIN = true ∧ inNumberRange (-1) = true
    ∧ inNumberRange (Int.tdiv NUMBER_MIN (-1)) = false
    ∧ Execute 2 (.Div (.VariableValue ["x"]) (.VariableValue ["y"]))
        [("x", .Number NUMBER_MIN), ("y", .Number (-1))] ⟨[], ""⟩ = .crash := by
  refine ⟨by decide, by decide, by decide, ?_⟩
  rfl

/-- C16, amended: when both operands evaluate to `Number`s `a` and `b`, `Div::Execute`
returns the `Number` holding the quotient of `a` by `b`, rounded towards zero, if `b` is not
0 and the pair is not the least `Number` and `-1`; it fails with
`runtime_error("Div::Execute")` if `b` is 0, and whenever the operands evaluate to
anything but two `Number`s. -/
theorem C16_Div (fuel : Nat) (lhs rhs : Statement) (c c1 c2 : Closure) (w w1 w2 : World)
    (l r : ObjectHolder)
    (hl : Execute fuel lhs c w = .value l c1 w1)
    (hr : Execute fuel rhs c1 w1 = .value r c2 w2) :
    (∀ a b : Int, l = .Number a → r = .Number b → inNumberRange a = true → b ≠ 0 →
        ¬(a = NUMBER_MIN ∧ b = -1) →
        Execute (fuel + 1) (.Div lhs rhs) c w = .value (.Number (a.tdiv b)) c2 w2)
    ∧ (∀ a : Int, l = .Number a → r = .Number 0 →
        Execute (fuel + 1) (.Div lhs rhs) c w = .raised (.runtime_error "Div::Execute") c2 w2)
    ∧ ((¬∃ a b : Int, l = .Number a ∧ r = .Number b) →
        Execute (fuel + 1) (.Div lhs rhs) c w
          = .raised (.runtime_error "Div::Execute") c2 w2) := by
  have hx : Execute (fuel + 1) (.Div lhs rhs) c w = Div.apply l r c2 w2 := by
    simp [Execute, hl, hr, Outcome.bind]
  rw [hx]
  refine ⟨?_, ?_, ?_⟩
  · intro a b ha hb hra hb0 hne
    subst ha hb
    simp [Div.apply, hb0, numberResult, tdiv_inNumberRange a b hra hb0 hne]
  · intro a ha hb
    subst ha hb
    simp [Div.apply]
  · intro hno
    cases l <;> cases r <;> first | rfl | exact absurd ⟨_, _, rfl, rfl⟩ hno

theorem C16_Div_witness :
    Execute 2 (.Div (.VariableValue ["x"]) (.VariableValue ["y"]))
        [("x", .Number (-7)), ("y", .Number 2)] ⟨[], ""⟩
      = .value (.Number (-3)) [("x", .Number (-7)), ("y", .Number 2)] ⟨[], ""⟩
    ∧ Execute 2 (.Div (.VariableValue ["x"]) (.VariableValue ["y"]))
        [("x", .Number (-7)), ("y", .Number 0)] ⟨[], ""⟩
      = .raised (.runtime_error "Div::Execute") [("x", .Number (-7)), ("y", .Number 0)] ⟨[], ""⟩
    ∧ Execute 2 (.Div (.VariableValue ["x"]) (.VariableValue ["y"]))
        [("x", .Number (-7)), ("y", .String "2")] ⟨[], ""⟩
      = .raised (.runtime_error "Div::Execute")
          [("x", .Number (-7)), ("y", .String "2")] ⟨[], ""⟩ :=
  ⟨(C16_Div 1 (.VariableValue ["x"]) (.VariableValue ["y"])
      [("x", .Number (-7)), ("y", .Number 2)] _ _ ⟨[], ""⟩ _ _ _ _ rfl rfl).1
      (-7) 2 rfl rfl (by decide) (by decide) (by decide),
   (C16_Div 1 (.VariableValue ["x"]) (.VariableValue ["y"])
      [("x", .Number (-7)), ("y", .Number 0)] _ _ ⟨[], ""⟩ _ _ _ _ rfl rfl).2.1 (-7) rfl rfl,
   (C16_Div 1 (.VariableValue ["x"]) (.VariableValue ["y"])
      [("x", .Number (-7)), ("y", .String "2")] _ _ ⟨[], ""⟩ _ _ _ _ rfl rfl).2.2
      (by simp)⟩

/-! ## C17: `MethodBody` lets runtime errors through -/

/-- C17: if the body of a `MethodBody` fails with an exception other than the `return`
signal, the `MethodBody` fails with the same exception in the same state; it yields a
result only when the body completes or throws the `return` signal. -/
theorem C17_MethodBody_propagates_errors (fuel : Nat) (body : Statement) (c c1 : Closure)
    (w w1 : World) (e : Exception)
    (h : Execute fuel body c w = .raised e c1 w1) :
    Execute (fuel + 1) (.MethodBody body) c w = .raised e c1 w1 := by
  simp [Execute, h]

theorem C17_MethodBody_propagates_errors_witness :
    Execute 2 (.MethodBody (.VariableValue ["unbound"])) [] ⟨[], ""⟩
      = .raised (.runtime_error "VariableValue::Execute") [] ⟨[], ""⟩ :=
  C17_MethodBody_propagates_errors 1 (.VariableValue ["unbound"]) [] [] ⟨[], ""⟩ ⟨[], ""⟩
    (.runtime_error "VariableValue::Execute") rfl

/-! ## C22: the closure of a method call -/

theorem Closure.assign_fresh (closure : Closure) (key : String) (v : ObjectHolder)
    (h : ∀ kv ∈ closure, kv.1 ≠ key) : closure.assign key v = closure ++ [(key, v)] := by
  induction closure with
  | nil => rfl
  | cons kv rest ih =>
    obtain ⟨k, old⟩ := kv
    have hk : k ≠ key := h (k, old) (List.mem_cons_self _ _)
    simp only [Closure.assign, hk, if_false, List.cons_append]
    rw [ih fun x hx => h x (List.mem_cons_of_mem _ hx)]

theorem bindParams_fresh : ∀ (ps : List String) (as : List ObjectHolder) (closure : Closure),
    ps.length = as.length → ps.Nodup → (∀ kv ∈ closure, kv.1 ∉ ps) →
    bindParams closure ps as = closure ++ ps.zip as
  | [], [], closure, _, _, _ => by simp [bindParams]
  | [], _ :: _, _, h, _, _ => by simp at h
  | _ :: _, [], _, h, _, _ => by simp at h
  | p :: ps, a :: as, closure, hlen, hnd, hfresh => by
    have hp : ∀ kv ∈ closure, kv.1 ≠ p := fun kv hkv e =>
      hfresh kv hkv (e ▸ List.mem_cons_self _ _)
    rw [bindParams, Closure.assign_fresh closure p a hp,
      bindParams_fresh ps as _ (by simpa using hlen) (List.nodup_cons.1 hnd).2]
    · simp
    · intro kv hkv
      rcases List.mem_append.1 hkv with h | h
      · exact fun e => hfresh kv h (List.mem_cons_of_mem _ e)
      · simp only [List.mem_singleton] at h
        subst h
        exact (List.nodup_cons.1 hnd).1

theorem Closure.find_assign (closure : Closure) (key : String) (v : ObjectHolder)
    (k : String) :
    Closure.find (closure.assign key v) k = if key = k then some v else closure.find k := by
  induction closure with
  | nil => simp [Closure.assign, Closure.find]
  | cons kv rest ih =>
    obtain ⟨k0, old⟩ := kv
    by_cases h0 : k0 = key
    · subst h0
      by_cases h1 : k0 = k <;> simp [Closure.assign, Closure.find, h1]
    · by_cases h1 : k0 = k
      · subst h1
        simp [Closure.assign, Closure.find, h0, Ne.symm h0]
      · simp [Closure.assign, Closure.find, h0, h1, ih]

theorem Closure.find_eq_none (closure : Closure) (k : String) :
    closure.find k = none ↔ k ∉ closure.map Prod.fst := by
  induction closure with
  | nil => simp [Closure.find]
  | cons kv rest ih =>
    obtain ⟨k0, old⟩ := kv
    by_cases h0 : k0 = k
    · simp [Closure.find, h0]
    · simp [Closure.find, h0, ih, Ne.symm h0]

theorem Closure.assign_keys (closure : Closure) (key : String) (v : ObjectHolder) :
    (closure.assign key v).map Prod.fst
      = if key ∈ closure.map Prod.fst then closure.map Prod.fst
        else closure.map Prod.fst ++ [key] := by
  induction closure with
  | nil => simp [Closure.assign]
  | cons kv rest ih =>
    obtain ⟨k0, old⟩ := kv
    by_cases h0 : k0 = key
    · simp [Closure.assign, h0]
    · simp only [Closure.assign, h0, if_false, List.map_cons, ih, List.mem_cons, Ne.symm h0,
        false_or]
      split_ifs <;> simp

theorem Closure.assign_keys_nodup (closure : Closure) (key : String) (v : ObjectHolder)
    (h : (closure.map Prod.fst).Nodup) : ((closure.assign key v).map Prod.fst).Nodup := by
  rw [Closure.assign_keys]
  split_ifs with hk
  · exact h
  · exact List.Nodup.append h (List.nodup_singleton _) (by simpa using hk)

theorem Closure.assign_keys_mem (closure : Closure) (key : String) (v : ObjectHolder)
    (k : String) :
    k ∈ (closure.assign key v).map Prod.fst ↔ k ∈ closure.map Prod.fst ∨ k = key := by
  rw [Closure.assign_keys]
  split_ifs with hk
  · constructor
    · exact Or.inl
    · rintro (h | rfl)
      · exact h
      · exact hk
  · simp

theorem bindParams_keys_nodup : ∀ (ps : List String) (as : List ObjectHolder)
    (closure : Closure), (closure.map Prod.fst).Nodup →
    ((bindParams closure ps as).map Prod.fst).Nodup
  | [], _, closure, h => by simpa [bindParams] using h
  | _ :: _, [], closure, h => by simpa [bindParams] using h
  | p :: ps, a :: as, closure, h => by
    rw [bindParams]
    exact bindParams_keys_nodup ps as _ (Closure.assign_keys_nodup closure p a h)

theorem bindParams_keys_mem : ∀ (ps : List String) (as : List ObjectHolder)
    (closure : Closure) (k : String), ps.length = as.length →
    (k ∈ (bindParams closure ps as).map Prod.fst ↔ k ∈ closure.map Prod.fst ∨ k ∈ ps)
  | [], [], closure, k, _ => by simp [bindParams]
  | [], _ :: _, _, _, h => by simp at h
  | _ :: _, [], _, _, h => by simp at h
  | p :: ps, a :: as, closure, k, h => by
    rw [bindParams, bindParams_keys_mem ps as _ k (by simpa using h),
      Closure.assign_keys_mem, List.mem_cons, or_assoc]

theorem bindParams_find_absent : ∀ (ps : List String) (as : List ObjectHolder)
    (closure : Closure) (k : String), k ∉ ps →
    (bindParams closure ps as).find k = closure.find k
  | [], _, closure, k, _ => by simp [bindParams]
  | _ :: _, [], closure, k, _ => by simp [bindParams]
  | p :: ps, a :: as, closure, k, h => by
    have hp : p ≠ k := fun e => h (e ▸ List.mem_cons_self _ _)
    rw [bindParams, bindParams_find_absent ps as _ k fun hm => h (List.mem_cons_of_mem _ hm),
      Closure.find_assign, if_neg hp]

/-- After the loop of `Call`, a name stands for the argument at the last position at which
the name occurs among the formal parameters. -/
theorem bindParams_find_last : ∀ (ps : List String) (as : List ObjectHolder)
    (closure : Closure) (i : Nat) (p : String) (a : ObjectHolder),
    ps[i]? = some p → as[i]? = some a → (∀ j, i < j → ps[j]? ≠ some p) →
    (bindParams closure ps as).find p = some a
  | [], _, _, i, p, a, hp, _, _ => by simp at hp
  | _ :: _, [], _, i, p, a, _, ha, _ => by simp at ha
  | p0 :: ps, a0 :: as, closure, 0, p, a, hp, ha, hlast => by
    simp only [List.getElem?_cons_zero, Option.some.injEq] at hp ha
    subst hp ha
    have hnot : p0 ∉ ps := by
      intro hm
      obtain ⟨j, hj⟩ := List.getElem?_of_mem hm
      exact hlast (j + 1) (Nat.succ_pos j) (by simpa using hj)
    rw [bindParams, bindParams_find_absent ps as _ p0 hnot, Closure.find_assign, if_pos rfl]
  | p0 :: ps, a0 :: as, closure, i + 1, p, a, hp, ha, hlast => by
    simp only [List.getElem?_cons_succ] at hp ha
    rw [bindParams]
    exact bindParams_find_last ps as _ i p a hp ha fun j hj =>
      by simpa using hlast (j + 1) (Nat.succ_lt_succ hj)

/-- C22 fails for a method with a parameter named `self` and for one with a repeated
parameter name: the closure has fewer than `|formal_params| + 1` entries; in `f(self)`,
called with 7, `self` is bound to 7 and not to the receiving instance, so `return self`
gives 7; in `g(x, x)`, called with 1 and 2, `x` is bound to 2. -/
theorem C22_counterexample :
    callClosure 0 ["self"] [.Number 7] = [("self", .Number 7)]
    ∧ Call (Execute 4) 0 "f" [.Number 7] [] ⟨[⟨C22_Shadow, []⟩], ""⟩
        = .value (.Number 7) [] ⟨[⟨C22_Shadow, []⟩], ""⟩
    ∧ callClosure 0 ["x", "x"] [.Number 1, .Number 2]
        = [("self", .ClassInstance 0), ("x", .Number 2)]
    ∧ Call (Execute 4) 0 "g" [.Number 1, .Number 2] [] ⟨[⟨C22_Shadow, []⟩], ""⟩
        = .value (.Number 2) [] ⟨[⟨C22_Shadow, []⟩], ""⟩ :=
  ⟨rfl, rfl, rfl, rfl⟩

/-- C22, amended: for every call `Call(name, args)` that finds a method `q` with `|args|`
parameters, whatever their names, the body is executed under the closure that `Call` fills.
A name is bound in it to the argument at the last position at which the name stands among
the formal parameters; `self` is bound to the receiving instance if no parameter is named
`self`; no other name is bound. The closure has one entry for each distinct name among
`self` and the formal parameters: it has `|formal_params| + 1` entries if and only if the
parameter names are distinct and none of them is `self`, and then its entries are `self`,
bound to the receiving instance, and each formal parameter bound to the argument at the same
position. -/
theorem C22_call_closure (exec : Exec) (self : Nat) (name : String) (args : List ObjectHolder)
    (frame : Closure) (w : World) (inst : Instance) (q : Method)
    (hinst : w.heap[self]? = some inst) (hq : inst.cls_.GetMethod name = some q)
    (hlen : q.formal_params.length = args.length) :
    Call exec self name args frame w
      = (exec q.body (callClosure self q.formal_params args) w).inFrame frame
    ∧ (∀ (i : Nat) (p : String) (a : ObjectHolder), q.formal_params[i]? = some p →
        args[i]? = some a → (∀ j, i < j → q.formal_params[j]? ≠ some p) →
        Closure.find (callClosure self q.formal_params args) p = some a)
    ∧ ("self" ∉ q.formal_params →
        Closure.find (callClosure self q.formal_params args) "self"
          = some (.ClassInstance self))
    ∧ (∀ key : String, key ≠ "self" → key ∉ q.formal_params →
        Closure.find (callClosure self q.formal_params args) key = none)
    ∧ ((callClosure self q.formal_params args).map Prod.fst).Nodup
    ∧ (callClosure self q.formal_params args).length
        = ("self" :: q.formal_params).dedup.length
    ∧ ((callClosure self q.formal_params args).length = q.formal_params.length + 1
        ↔ ("self" :: q.formal_params).Nodup)
    ∧ (("self" :: q.formal_params).Nodup →
        callClosure self q.formal_params args
          = ("self", .ClassInstance self) :: q.formal_params.zip args) := by
  have hself : Closure.assign [] "self" (.ClassInstance self)
      = [("self", .ClassInstance self)] := rfl
  have hhas : HasMethod inst.cls_ name args.length = true :=
    (HasMethod_iff _ _ _).2 ⟨q, hq, hlen⟩
  have hnd : ((callClosure self q.formal_params args).map Prod.fst).Nodup := by
    unfold callClosure
    exact bindParams_keys_nodup _ _ _ (by simp [hself])
  have hmem : ∀ k, k ∈ (callClosure self q.formal_params args).map Prod.fst
      ↔ k ∈ "self" :: q.formal_params := by
    intro k
    unfold callClosure
    rw [bindParams_keys_mem _ _ _ k hlen, hself]
    simp
  have hcard : (callClosure self q.formal_params args).length
      = ("self" :: q.formal_params).dedup.length := by
    rw [← List.length_map (callClosure self q.formal_params args) Prod.fst,
      ← List.toFinset_card_of_nodup hnd, ← List.card_toFinset]
    congr 1
    ext k
    simp only [List.mem_toFinset]
    exact hmem k
  refine ⟨?_, ?_, ?_, ?_, hnd, hcard, ?_, ?_⟩
  · unfold Call
    rw [hinst]
    simp only [hq, hhas, if_true]
  · intro i p a hp ha hlast
    exact bindParams_find_last _ _ _ i p a hp ha hlast
  · intro hs
    unfold callClosure
    rw [bindParams_find_absent _ _ _ _ hs, hself]
    simp [Closure.find]
  · intro key hk hkp
    rw [Closure.find_eq_none, hmem]
    simp [hk, hkp]
  · rw [hcard]
    constructor
    · intro h
      have hsub : ("self" :: q.formal_params).dedup.Sublist ("self" :: q.formal_params) :=
        List.dedup_sublist _
      exact List.dedup_eq_self.1 (hsub.eq_of_length (by simpa using h))
    · intro h
      rw [List.dedup_eq_self.2 h]
      simp
  · intro h
    unfold callClosure
    rw [hself, bindParams_fresh _ _ _ hlen (List.nodup_cons.1 h).2]
    · rfl
    · intro kv hkv
      simp only [List.mem_singleton] at hkv
      subst hkv
      exact (List.nodup_cons.1 h).1

theorem C22_call_closure_witness :
    Call (Execute 4) 0 "g" [.Number 1, .Number 2] [] ⟨[⟨C22_Shadow, []⟩], ""⟩
      = (Execute 4 (.MethodBody (.Compound [.Return (.VariableValue ["x"])]))
          (callClosure 0 ["x", "x"] [.Number 1, .Number 2])
          ⟨[⟨C22_Shadow, []⟩], ""⟩).inFrame []
    ∧ Closure.find (callClosure 0 ["x", "x"] [.Number 1, .Number 2]) "x" = some (.Number 2)
    ∧ Closure.find (callClosure 0 ["x", "x"] [.Number 1, .Number 2]) "self"
        = some (.ClassInstance 0)
    ∧ (callClosure 0 ["x", "x"] [.Number 1, .Number 2]).length = 2
    ∧ Closure.find (callClosure 0 ["self"] [.Number 7]) "self" = some (.Number 7)
    ∧ callClosure 0 ["p"] [.Number 5] = [("self", .ClassInstance 0), ("p", .Number 5)] :=
  ⟨(C22_call_closure (Execute 4) 0 "g" [.Number 1, .Number 2] [] ⟨[⟨C22_Shadow, []⟩], ""⟩
      ⟨C22_Shadow, []⟩
      (.mk "g" ["x", "x"] (.MethodBody (.Compound [.Return (.VariableValue ["x"])])))
      rfl rfl rfl).1,
   (C22_call_closure (Execute 4) 0 "g" [.Number 1, .Number 2] [] ⟨[⟨C22_Shadow, []⟩], ""⟩
      ⟨C22_Shadow, []⟩
      (.mk "g" ["x", "x"] (.MethodBody (.Compound [.Return (.VariableValue ["x"])])))
      rfl rfl rfl).2.1 1 "x" (.Number 2) rfl rfl (fun j hj => by
        have : ["x", "x"][j]? = none := List.getElem?_eq_none (by simpa using hj)
        simp [Method.formal_params, this]),
   (C22_call_closure (Execute 4) 0 "g" [.Number 1, .Number 2] [] ⟨[⟨C22_Shadow, []⟩], ""⟩
      ⟨C22_Shadow, []⟩
      (.mk "g" ["x", "x"] (.MethodBody (.Compound [.Return (.VariableValue ["x"])])))
      rfl rfl rfl).2.2.1 (by decide),
   (C22_call_closure (Execute 4) 0 "g" [.Number 1, .Number 2] [] ⟨[⟨C22_Shadow, []⟩], ""⟩
      ⟨C22_Shadow, []⟩
      (.mk "g" ["x", "x"] (.MethodBody (.Compound [.Return (.VariableValue ["x"])])))
      rfl rfl rfl).2.2.2.2.2.1.trans (by decide),
   (C22_call_closure (Execute 4) 0 "f" [.Number 7] [] ⟨[⟨C22_Shadow, []⟩], ""⟩
      ⟨C22_Shadow, []⟩
      (.mk "f" ["self"] (.MethodBody (.Compound [.Return (.VariableValue ["self"])])))
      rfl rfl rfl).2.1 0 "self" (.Number 7) rfl rfl (fun j hj => by
        have : ["self"][j]? = none := List.getElem?_eq_none (by simpa using hj)
        simp [Method.formal_params, this]),
   (C22_call_closure (Execute 4) 0 "m" [.Number 5] [] ⟨[⟨C22_Box, []⟩], ""⟩ ⟨C22_Box, []⟩
      (.mk "m" ["p"] (.MethodBody (.Compound [.Return (.VariableValue ["p"])]))) rfl rfl rfl
      ).2.2.2.2.2.2.2 (by decide)⟩

/-! ## C23: the order of evaluation in a method call -/

theorem ExecuteArgs_iff (exec : Exec) : ∀ (args : List Statement) (c : Closure) (w : World)
    (vals : List ObjectHolder) (c1 : Closure) (w1 : World),
    ExecuteArgs exec args c w = .value vals c1 w1
      ↔ EvaluatedLeftToRight exec args c w vals c1 w1
  | [], c, w, vals, c1, w1 => by
    simp only [ExecuteArgs, EvaluatedLeftToRight, Outcome.value.injEq]
    constructor
    · rintro ⟨rfl, rfl, rfl⟩
      exact ⟨rfl, rfl, rfl⟩
    · rintro ⟨rfl, rfl, rfl⟩
      exact ⟨rfl, rfl, rfl⟩
  | arg :: rest, c, w, vals, c1, w1 => by
    simp only [ExecuteArgs, EvaluatedLeftToRight]
    constructor
    · intro h
      cases ha : exec arg c w with
      | value v cm wm =>
        rw [ha] at h
        simp only [Outcome.bind] at h
        cases hr : ExecuteArgs exec rest cm wm with
        | value vs c2 w2 =>
          rw [hr] at h
          simp only [Outcome.value.injEq] at h
          obtain ⟨rfl, rfl, rfl⟩ := h
          exact ⟨v, vs, cm, wm, rfl, rfl, (ExecuteArgs_iff exec rest cm wm vs _ _).1 hr⟩
        | returned _ _ _ => rw [hr] at h; simp at h
        | raised _ _ _ => rw [hr] at h; simp at h
        | crash => rw [hr] at h; simp at h
        | outOfFuel => rw [hr] at h; simp at h
      | returned _ _ _ => rw [ha] at h; simp [Outcome.bind] at h
      | raised _ _ _ => rw [ha] at h; simp [Outcome.bind] at h
      | crash => rw [ha] at h; simp [Outcome.bind] at h
      | outOfFuel => rw [ha] at h; simp [Outcome.bind] at h
    · rintro ⟨v, vs, cm, wm, ha, rfl, hr⟩
      rw [ha]
      simp only [Outcome.bind]
      rw [(ExecuteArgs_iff exec rest cm wm vs c1 w1).2 hr]

theorem ExecuteArgs_raised (exec : Exec) (bad : Statement) (post : List Statement)
    (e : Exception) (c2 : Closure) (w2 : World) :
    ∀ (pre : List Statement) (c : Closure) (w : World) (vals : List ObjectHolder)
      (c1 : Closure) (w1 : World),
    EvaluatedLeftToRight exec pre c w vals c1 w1 → exec bad c1 w1 = .raised e c2 w2 →
    ExecuteArgs exec (pre ++ bad :: post) c w = .raised e c2 w2
  | [], c, w, vals, c1, w1, hpre, hbad => by
    obtain ⟨-, rfl, rfl⟩ := hpre
    simp [ExecuteArgs, hbad, Outcome.bind]
  | arg :: rest, c, w, vals, c1, w1, hpre, hbad => by
    obtain ⟨v, vs, cm, wm, ha, -, hr⟩ := hpre
    have hrest := ExecuteArgs_raised exec bad post e c2 w2 rest cm wm vs c1 w1 hr hbad
    rw [List.cons_append, ExecuteArgs, ha]
    simp only [Outcome.bind, hrest]

/-- C23 fails: the arguments are evaluated before the receiver. With `n = 1`, the call
`n.m(seen = n)` fails for its receiver only after the argument has assigned `seen`; and in
`(t = obj).m(t = one)` the receiver is evaluated last, so `t` ends as the instance and not
as 1. -/
theorem C23_counterexample :
    Execute 3 (.MethodCall (.VariableValue ["n"]) "m" [.Assignment "seen" (.VariableValue ["n"])])
        [("n", .Number 1)] ⟨[], ""⟩
      = .raised (.runtime_error "MethodCall::Execute") [("n", .Number 1), ("seen", .Number 1)]
          ⟨[], ""⟩
    ∧ Execute 5 (.MethodCall (.Assignment "t" (.VariableValue ["obj"])) "m"
          [.Assignment "t" (.VariableValue ["one"])])
        [("obj", .ClassInstance 0), ("one", .Number 1)] ⟨[⟨C23_Box, []⟩], ""⟩
      = .value (.Number 1)
          [("obj", .ClassInstance 0), ("one", .Number 1), ("t", .ClassInstance 0)]
          ⟨[⟨C23_Box, []⟩], ""⟩
    ∧ Execute 4 (.MethodCall (.Print [.VariableValue ["r"]]) "m" [.Print [.VariableValue ["a"]]])
        [("r", .String "receiver"), ("a", .String "argument")] ⟨[], ""⟩
      = .raised (.runtime_error "MethodCall::Execute")
          [("r", .String "receiver"), ("a", .String "argument")] ⟨[], "argument\nreceiver\n"⟩ :=
  ⟨rfl, rfl, rfl⟩

/-- C23, amended: `MethodCall::Execute` evaluates the arguments from left to right first,
each in the state that the one before it left, then the receiver expression, in the state
that the last argument left, and only then checks that the receiver is a `ClassInstance`. So
a receiver that is not an instance makes the call fail with
`runtime_error("MethodCall::Execute")` after every argument has been evaluated, and an
argument that fails makes the call fail in the state that the arguments to its left and the
failing one produced, whatever the arguments to its right and the receiver are: they are
not evaluated. The loop `ExecuteArgs` of the code ends normally exactly when the arguments
are evaluated from left to right in this sense. -/
theorem C23_arguments_before_receiver (fuel : Nat) (object : Statement) (method : String)
    (args : List Statement) (c : Closure) (w : World) :
    (∀ (vals : List ObjectHolder) (c1 : Closure) (w1 : World),
      EvaluatedLeftToRight (Execute fuel) args c w vals c1 w1 →
      (∀ (obj : ObjectHolder) (c2 : Closure) (w2 : World),
        Execute fuel object c1 w1 = .value obj c2 w2 →
        (∀ addr : Nat, obj = .ClassInstance addr →
          Execute (fuel + 1) (.MethodCall object method args) c w
            = Call (Execute fuel) addr method vals c2 w2)
        ∧ ((∀ addr : Nat, obj ≠ .ClassInstance addr) →
          Execute (fuel + 1) (.MethodCall object method args) c w
            = .raised (.runtime_error "MethodCall::Execute") c2 w2))
      ∧ (∀ (e : Exception) (c2 : Closure) (w2 : World),
        Execute fuel object c1 w1 = .raised e c2 w2 →
        Execute (fuel + 1) (.MethodCall object method args) c w = .raised e c2 w2))
    ∧ (∀ (pre : List Statement) (bad : Statement) (post : List Statement)
        (vals : List ObjectHolder) (c1 : Closure) (w1 : World) (e : Exception) (c2 : Closure)
        (w2 : World),
      args = pre ++ bad :: post →
      EvaluatedLeftToRight (Execute fuel) pre c w vals c1 w1 →
      Execute fuel bad c1 w1 = .raised e c2 w2 →
      ∀ object1 : Statement,
        Execute (fuel + 1) (.MethodCall object1 method args) c w = .raised e c2 w2)
    ∧ (∀ (vals : List ObjectHolder) (c1 : Closure) (w1 : World),
      ExecuteArgs (Execute fuel) args c w = .value vals c1 w1
        ↔ EvaluatedLeftToRight (Execute fuel) args c w vals c1 w1) := by
  refine ⟨fun vals c1 w1 hargs => ?_, ?_, fun vals c1 w1 => ExecuteArgs_iff _ _ _ _ _ _ _⟩
  · have ha := (ExecuteArgs_iff (Execute fuel) args c w vals c1 w1).2 hargs
    refine ⟨fun obj c2 w2 ho => ⟨?_, ?_⟩, fun e c2 w2 ho => ?_⟩
    · rintro addr rfl
      simp [Execute, ha, ho, Outcome.bind]
    · intro hno
      cases obj <;> first
        | exact absurd rfl (hno _)
        | simp [Execute, ha, ho, Outcome.bind]
    · simp [Execute, ha, ho, Outcome.bind]
  · rintro pre bad post vals c1 w1 e c2 w2 rfl hpre hbad object1
    have ha := ExecuteArgs_raised (Execute fuel) bad post e c2 w2 pre c w vals c1 w1 hpre hbad
    simp [Execute, ha, Outcome.bind]

theorem C23_arguments_before_receiver_witness :
    Execute 4 (.MethodCall (.Print [.VariableValue ["r"]]) "m"
        [.Print [.VariableValue ["a"]], .Print [.VariableValue ["b"]]])
        [("r", .String "receiver"), ("a", .String "first"), ("b", .String "second")] ⟨[], ""⟩
      = .raised (.runtime_error "MethodCall::Execute")
          [("r", .String "receiver"), ("a", .String "first"), ("b", .String "second")]
          ⟨[], "first\nsecond\nreceiver\n"⟩
    ∧ (∀ object1 : Statement,
        Execute 3 (.MethodCall object1 "m"
            [.Assignment "x" (.VariableValue ["one"]), .VariableValue ["unbound"],
             .Assignment "y" (.VariableValue ["one"])])
          [("one", .Number 1)] ⟨[], ""⟩
          = .raised (.runtime_error "VariableValue::Execute")
              [("one", .Number 1), ("x", .Number 1)] ⟨[], ""⟩) :=
  ⟨(((C23_arguments_before_receiver 3 (.Print [.VariableValue ["r"]]) "m"
        [.Print [.VariableValue ["a"]], .Print [.VariableValue ["b"]]]
        [("r", .String "receiver"), ("a", .String "first"), ("b", .String "second")]
        ⟨[], ""⟩).1 [.None, .None]
        [("r", .String "receiver"), ("a", .String "first"), ("b", .String "second")]
        ⟨[], "first\nsecond\n"⟩
        ⟨.None, [.None], _, ⟨[], "first\n"⟩, rfl, rfl, .None, [], _, _, rfl, rfl, rfl, rfl,
          rfl⟩).1 .None _ _ rfl).2 (fun _ h => by cases h),
   (C23_arguments_before_receiver 2 (.VariableValue ["n"]) "m"
      [.Assignment "x" (.VariableValue ["one"]), .VariableValue ["unbound"],
       .Assignment "y" (.VariableValue ["one"])]
      [("one", .Number 1)] ⟨[], ""⟩).2.1 [.Assignment "x" (.VariableValue ["one"])]
      (.VariableValue ["unbound"]) [.Assignment "y" (.VariableValue ["one"])] [.Number 1]
      [("one", .Number 1), ("x", .Number 1)] ⟨[], ""⟩
      (.runtime_error "VariableValue::Execute") _ _ rfl
      ⟨.Number 1, [], _, _, rfl, rfl, rfl, rfl, rfl⟩ rfl⟩

/-! ## C24: trichotomy of the comparisons on values -/

/-- C24: on two `Number`s, two `String`s or two `Bool`s, `Less`, `Equal` and `Greater`
succeed without a change of state, whatever the evaluator; `Less` is the order of the
integers, the lexicographic order of the strings, and `false < true`; `Greater(a, b)` is
`Less(b, a)`; and exactly one of `Less(a, b)`, `Equal(a, b)` and `Greater(a, b)` is true. -/
theorem C24_trichotomy (exec : Exec) (c : Closure) (w : World) :
    (∀ x y : Int,
      Less exec (.Number x) (.Number y) c w = .value (decide (x < y)) c w
      ∧ Equal exec (.Number x) (.Number y) c w = .value (decide (x = y)) c w
      ∧ Greater exec (.Number x) (.Number y) c w = .value (decide (y < x)) c w
      ∧ Less exec (.Number y) (.Number x) c w = .value (decide (y < x)) c w
      ∧ ((x < y ∧ ¬x = y ∧ ¬y < x) ∨ (¬x < y ∧ x = y ∧ ¬y < x) ∨ (¬x < y ∧ ¬x = y ∧ y < x)))
    ∧ (∀ x y : String,
      Less exec (.String x) (.String y) c w = .value (decide (x.toList < y.toList)) c w
      ∧ Equal exec (.String x) (.String y) c w = .value (decide (x = y)) c w
      ∧ Greater exec (.String x) (.String y) c w = .value (decide (y.toList < x.toList)) c w
      ∧ Less exec (.String y) (.String x) c w = .value (decide (y.toList < x.toList)) c w
      ∧ ((x.toList < y.toList ∧ ¬x = y ∧ ¬y.toList < x.toList)
        ∨ (¬x.toList < y.toList ∧ x = y ∧ ¬y.toList < x.toList)
        ∨ (¬x.toList < y.toList ∧ ¬x = y ∧ y.toList < x.toList)))
    ∧ (∀ x y : Bool,
      Less exec (.Bool x) (.Bool y) c w = .value (!x && y) c w
      ∧ Equal exec (.Bool x) (.Bool y) c w = .value (decide (x = y)) c w
      ∧ Greater exec (.Bool x) (.Bool y) c w = .value (!y && x) c w
      ∧ Less exec (.Bool y) (.Bool x) c w = .value (!y && x) c w
      ∧ (((!x && y) = true ∧ ¬x = y ∧ ¬(!y && x) = true)
        ∨ (¬(!x && y) = true ∧ x = y ∧ ¬(!y && x) = true)
        ∨ (¬(!x && y) = true ∧ ¬x = y ∧ (!y && x) = true))) := by
  have hG : ∀ (a b : ObjectHolder) (l e : Bool), Less exec a b c w = .value l c w →
      Equal exec a b c w = .value e c w → Greater exec a b c w = .value (!l && !e) c w := by
    intro a b l e hl he
    cases l <;> simp [Greater, hl, he, Outcome.bind]
  refine ⟨fun x y => ?_, fun x y => ?_, fun x y => ?_⟩
  · have hL : ∀ a b : Int,
        Less exec (.Number a) (.Number b) c w = .value (decide (a < b)) c w := fun _ _ => rfl
    have hE : Equal exec (.Number x) (.Number y) c w = .value (decide (x = y)) c w := rfl
    have htri : (x < y ∧ ¬x = y ∧ ¬y < x) ∨ (¬x < y ∧ x = y ∧ ¬y < x)
        ∨ (¬x < y ∧ ¬x = y ∧ y < x) := by omega
    refine ⟨hL x y, hE, ?_, hL y x, htri⟩
    rw [hG _ _ _ _ (hL x y) hE]
    congr 1
    rcases htri with ⟨h1, h2, h3⟩ | ⟨h1, h2, h3⟩ | ⟨h1, h2, h3⟩
    · rw [decide_eq_true h1, decide_eq_false h2, decide_eq_false h3]; rfl
    · rw [decide_eq_false h1, decide_eq_true h2, decide_eq_false h3]; rfl
    · rw [decide_eq_false h1, decide_eq_false h2, decide_eq_true h3]; rfl
  · have hlt : ∀ a b : String, a < b ↔ a.toList < b.toList := fun a b => String.lt_iff_toList_lt
    have hL : ∀ a b : String,
        Less exec (.String a) (.String b) c w = .value (decide (a.toList < b.toList)) c w := by
      intro a b
      have : Less exec (.String a) (.String b) c w = .value (decide (a < b)) c w := rfl
      rw [this]
      congr 1
      exact decide_eq_decide.2 (hlt a b)
    have hE : Equal exec (.String x) (.String y) c w = .value (decide (x = y)) c w := rfl
    have htri : (x.toList < y.toList ∧ ¬x = y ∧ ¬y.toList < x.toList)
        ∨ (¬x.toList < y.toList ∧ x = y ∧ ¬y.toList < x.toList)
        ∨ (¬x.toList < y.toList ∧ ¬x = y ∧ y.toList < x.toList) := by
      rcases lt_trichotomy x.toList y.toList with h | h | h
      · exact Or.inl ⟨h, fun e => by rw [e] at h; exact lt_irrefl _ h, not_lt.2 h.le⟩
      · exact Or.inr (Or.inl ⟨h ▸ lt_irrefl _, String.ext h, h ▸ lt_irrefl _⟩)
      · exact Or.inr (Or.inr ⟨not_lt.2 h.le, fun e => by rw [e] at h; exact lt_irrefl _ h, h⟩)
    refine ⟨hL x y, hE, ?_, hL y x, htri⟩
    rw [hG _ _ _ _ (hL x y) hE]
    congr 1
    rcases htri with ⟨h1, h2, h3⟩ | ⟨h1, h2, h3⟩ | ⟨h1, h2, h3⟩
    · rw [decide_eq_true h1, decide_eq_false h2, decide_eq_false h3]; rfl
    · rw [decide_eq_false h1, decide_eq_true h2, decide_eq_false h3]; rfl
    · rw [decide_eq_false h1, decide_eq_false h2, decide_eq_true h3]; rfl
  · have hL : ∀ a b : Bool,
        Less exec (.Bool a) (.Bool b) c w = .value (!a && b) c w := fun _ _ => rfl
    have hE : Equal exec (.Bool x) (.Bool y) c w = .value (decide (x = y)) c w := by
      cases x <;> cases y <;> rfl
    refine ⟨hL x y, hE, ?_, hL y x, ?_⟩
    · rw [hG _ _ _ _ (hL x y) hE]
      cases x <;> cases y <;> rfl
    · cases x <;> cases y <;> simp

/-! ## C25: `NewInstance` without a matching `__init__` -/

/-- The method that `GetMethod` finds is declared, under that name, by a class of the
chain. -/
theorem GetMethod_mem (C : Class) (m : String) (q : Method) (h : C.GetMethod m = some q) :
    ∃ K ∈ C.chain, q ∈ K.methods_ ∧ q.name = m := by
  rw [GetMethod_eq_lookupAlongChain, lookupAlongChain] at h
  cases hk : C.chain.find? fun k => k.declares m with
  | none => rw [hk] at h; cases h
  | some K =>
    rw [hk] at h
    simp only [Option.bind] at h
    refine ⟨K, List.mem_of_find?_eq_some hk, List.mem_of_find?_eq_some h, ?_⟩
    simpa using List.find?_some h

/-- C25: when no class of the chain declares an `__init__` whose number of parameters is
the number of argument expressions (also when an `__init__` with another number of
parameters is declared), `HasMethod` is false; and whenever `HasMethod("__init__", |args|)`
is false, `NewInstance::Execute` returns a fresh instance of the class, with no fields, in
the closure and with the output it found: no argument expression is evaluated and nothing
is raised, with any fuel. -/
theorem C25_NewInstance_without_init (fuel : Nat) (class_ : Class) (args : List Statement)
    (c : Closure) (w : World) :
    ((∀ K ∈ class_.chain, ∀ q ∈ K.methods_, q.name = INIT_METHOD →
        q.formal_params.length ≠ args.length) →
      HasMethod class_ INIT_METHOD args.length = false)
    ∧ (HasMethod class_ INIT_METHOD args.length = false →
      Execute (fuel + 1) (.NewInstance class_ args) c w
        = .value (.ClassInstance w.heap.length) c ⟨w.heap ++ [⟨class_, []⟩], w.output⟩) := by
  refine ⟨fun h => ?_, fun h => ?_⟩
  · cases hh : HasMethod class_ INIT_METHOD args.length with
    | false => rfl
    | true =>
      obtain ⟨q, hq, hlen⟩ := (HasMethod_iff _ _ _).1 hh
      obtain ⟨K, hK, hmem, hname⟩ := GetMethod_mem _ _ _ hq
      exact absurd hlen (h K hK q hmem hname)
  · simp [Execute, h]

theorem C25_NewInstance_without_init_witness :
    Execute 1 (.NewInstance C25_Child [.VariableValue ["unbound"]]) [] ⟨[], ""⟩
      = .value (.ClassInstance 0) [] ⟨[⟨C25_Child, []⟩], ""⟩
    ∧ HasMethod C25_Parent INIT_METHOD 2 = false :=
  ⟨(C25_NewInstance_without_init 0 C25_Child [.VariableValue ["unbound"]] [] ⟨[], ""⟩).2 rfl,
   (C25_NewInstance_without_init 0 C25_Parent [.VariableValue ["a"], .VariableValue ["b"]] []
      ⟨[], ""⟩).1 (by decide)⟩

/-! ## Lemmas on the lexer -/

namespace parse

theorem readSpacesBuf_spaces_cons (m : Nat) (c : Char) (rest : List Char) (hc : c ≠ ' ') :
    readSpacesBuf (List.replicate m ' ' ++ c :: rest) = (m, some c, ⟨rest, false, false⟩) := by
  induction m with
  | zero => simp [readSpacesBuf, hc]
  | succ n ih => simp [List.replicate_succ, readSpacesBuf, ih]

theorem readSpacesBuf_spaces (m : Nat) :
    readSpacesBuf (List.replicate m ' ') = (m, none, ⟨[], true, true⟩) := by
  induction m with
  | zero => simp [readSpacesBuf]
  | succ n ih => simp [List.replicate_succ, readSpacesBuf, ih]

theorem spaces_decomp (buf : List Char) :
    ∃ m, buf = List.replicate m ' ' ∨
      ∃ c rest, c ≠ ' ' ∧ buf = List.replicate m ' ' ++ c :: rest := by
  induction buf with
  | nil => exact ⟨0, Or.inl rfl⟩
  | cons x xs ih =>
    by_cases hx : x = ' '
    · obtain ⟨m, h | ⟨c, rest, hc, h⟩⟩ := ih
      · exact ⟨m + 1, Or.inl (by simp [List.replicate_succ, hx, h])⟩
      · exact ⟨m + 1, Or.inr ⟨c, rest, hc, by simp [List.replicate_succ, hx, h]⟩⟩
    · exact ⟨0, Or.inr ⟨x, xs, hx, by simp⟩⟩

/-- Every stream is not good, or good with only spaces left, or good with a first
character that is not a space. -/
theorem IStream.shape (s : IStream) :
    s.good = false ∨ (∃ m, s = ⟨List.replicate m ' ', false, false⟩) ∨
      ∃ m c rest, c ≠ ' ' ∧ s = ⟨List.replicate m ' ' ++ c :: rest, false, false⟩ := by
  obtain ⟨buf, e, f⟩ := s
  cases e
  · cases f
    · obtain ⟨m, h | ⟨c, rest, hc, h⟩⟩ := spaces_decomp buf
      · exact Or.inr (Or.inl ⟨m, by rw [h]⟩)
      · exact Or.inr (Or.inr ⟨m, c, rest, hc, by rw [h]⟩)
    · exact Or.inl rfl
  · exact Or.inl rfl

theorem putbackAll_failed (temp : List (Option Char)) (s : IStream) (hs : s.failbit = true)
    (ht : temp ≠ []) : putbackAll temp s = { s with eofbit := false } := by
  have key : ∀ (l : List (Option Char)) (t : IStream), t.failbit = true → l ≠ [] →
      l.foldl IStream.putback t = { t with eofbit := false } := by
    intro l
    induction l with
    | nil => intro t _ h; exact absurd rfl h
    | cons x xs ih =>
      intro t ht _
      simp only [List.foldl_cons]
      have h1 : t.putback x = { t with eofbit := false } := by simp [IStream.putback, ht]
      rw [h1]
      by_cases hxs : xs = []
      · subst hxs; rfl
      · exact ih _ ht hxs
  unfold putbackAll
  exact key _ s hs (by simpa using ht)

theorem putbackAll_good (m : Nat) (c : Char) (rest : List Char) :
    putbackAll (List.replicate m (some ' ') ++ [some c]) ⟨rest, false, false⟩
      = ⟨List.replicate m ' ' ++ c :: rest, false, false⟩ := by
  unfold putbackAll
  simp only [List.reverse_append, List.reverse_cons, List.reverse_nil, List.nil_append,
    List.reverse_replicate, List.singleton_append, List.foldl_cons]
  have key : ∀ (k : Nat) (buf : List Char),
      (List.replicate k (some ' ')).foldl IStream.putback ⟨buf, false, false⟩
        = ⟨List.replicate k ' ' ++ buf, false, false⟩ := by
    intro k
    induction k with
    | zero => intro buf; rfl
    | succ n ih =>
      intro buf
      simp only [List.replicate_succ, List.foldl_cons]
      have : IStream.putback ⟨buf, false, false⟩ (some ' ') = ⟨' ' :: buf, false, false⟩ := rfl
      rw [this, ih]
      congr 1
      rw [← List.replicate_succ, List.replicate_succ', List.append_assoc]
      rfl
  have h1 : IStream.putback ⟨rest, false, false⟩ (some c) = ⟨c :: rest, false, false⟩ := rfl
  rw [h1, key]

theorem CheckEmptyLine_not_good (s : IStream) (h : s.good = false) :
    CheckEmptyLine s = (false, ⟨s.buf, false, true⟩) := by
  unfold CheckEmptyLine readSpaces
  simp only [h, Bool.false_eq_true, if_false, reduceCtorEq, or_self, List.replicate_zero,
    List.nil_append]
  rw [putbackAll_failed _ _ rfl (by simp)]

theorem CheckEmptyLine_spaces (m : Nat) :
    CheckEmptyLine ⟨List.replicate m ' ', false, false⟩ = (false, ⟨[], false, true⟩) := by
  unfold CheckEmptyLine readSpaces
  simp only [IStream.good, Bool.not_false, Bool.and_self, if_true, readSpacesBuf_spaces,
    reduceCtorEq, or_self, if_false]
  rw [putbackAll_failed _ _ rfl (by simp)]

theorem CheckEmptyLine_blank (m : Nat) (c : Char) (rest : List Char)
    (hc : c = '\n' ∨ c = '#') :
    CheckEmptyLine ⟨List.replicate m ' ' ++ c :: rest, false, false⟩
      = (true, ⟨c :: rest, false, false⟩) := by
  have hsp : c ≠ ' ' := by rcases hc with rfl | rfl <;> decide
  unfold CheckEmptyLine readSpaces
  simp only [IStream.good, Bool.not_false, Bool.and_self, if_true,
    readSpacesBuf_spaces_cons m c rest hsp, Option.some.injEq, hc]
  rfl

theorem CheckEmptyLine_content (m : Nat) (c : Char) (rest : List Char)
    (hsp : c ≠ ' ') (hnl : c ≠ '\n') (hcm : c ≠ '#') :
    CheckEmptyLine ⟨List.replicate m ' ' ++ c :: rest, false, false⟩
      = (false, ⟨List.replicate m ' ' ++ c :: rest, false, false⟩) := by
  unfold CheckEmptyLine readSpaces
  simp only [IStream.good, Bool.not_false, Bool.and_self, if_true,
    readSpacesBuf_spaces_cons m c rest hsp, Option.some.injEq, hnl, hcm, or_self, if_false]
  rw [putbackAll_good]

/-- What the loop counting leading spaces does on `m` more spaces followed by `c`: it stops
with an `Indent` at the first count that is even and above `offset_`, if there is one among
the `m + 1` spaces, and else ends at `c` with all of them counted. -/
theorem countSpacesBuf_spec (o : Int) (m : Nat) (c : Char) (rest : List Char) (hc : c ≠ ' ') :
    ∀ co : Int,
    (∃ k, k ≤ m ∧
      countSpacesBuf o co (List.replicate m ' ' ++ c :: rest)
        = .indent (co + (m - k) + 1) ⟨List.replicate k ' ' ++ c :: rest, false, false⟩ ∧
      co + (m - k) + 1 > o ∧ (co + (m - k) + 1) % 2 = 0 ∧
      ∀ j : Int, 1 ≤ j → j < (m - k) + 1 → ¬(co + j > o ∧ (co + j) % 2 = 0))
    ∨ (countSpacesBuf o co (List.replicate m ' ' ++ c :: rest)
        = .done (some c) (co + m + 1) ⟨rest, false, false⟩ ∧
      ∀ j : Int, 1 ≤ j → j ≤ m + 1 → ¬(co + j > o ∧ (co + j) % 2 = 0)) := by
  induction m with
  | zero =>
    intro co
    by_cases h : co + 1 > o ∧ (co + 1) % 2 = 0
    · left
      refine ⟨0, le_refl _, ?_, ?_, ?_, ?_⟩
      · simp [countSpacesBuf, h]
      · simpa using h.1
      · simpa using h.2
      · intro j h1 h2; simp at h2; omega
    · right
      refine ⟨?_, ?_⟩
      · simp only [List.replicate_zero, List.nil_append, countSpacesBuf, h, if_false, hc]
        simp
      · intro j h1 h2
        have : j = 1 := by simp at h2; omega
        subst this
        exact h
  | succ n ih =>
    intro co
    by_cases h : co + 1 > o ∧ (co + 1) % 2 = 0
    · left
      refine ⟨n + 1, le_refl _, ?_, ?_, ?_, ?_⟩
      · simp [List.replicate_succ, countSpacesBuf, h]
      · simpa using h.1
      · simpa using h.2
      · intro j h1 h2; simp at h2; omega
    · have hstep : countSpacesBuf o co (List.replicate (n + 1) ' ' ++ c :: rest)
          = countSpacesBuf o (co + 1) (List.replicate n ' ' ++ c :: rest) := by
        simp only [List.replicate_succ, List.cons_append, countSpacesBuf, h, if_false, if_true]
        rfl
      rcases ih (co + 1) with ⟨k, hk, heq, h1, h2, h3⟩ | ⟨heq, h3⟩
      · left
        refine ⟨k, Nat.le_succ_of_le hk, ?_, ?_, ?_, ?_⟩
        · rw [hstep, heq]
          congr 1
          push_cast
          ring
        · push_cast; linarith
        · push_cast
          have : co + (↑n + 1 - ↑k) + 1 = co + 1 + (↑n - ↑k) + 1 := by ring
          rw [this]; exact h2
        · intro j hj1 hj2
          by_cases hj : j = 1
          · subst hj; exact h
          · have := h3 (j - 1) (by omega) (by push_cast at hj2; omega)
            have e : co + 1 + (j - 1) = co + j := by ring
            rwa [e] at this
      · right
        refine ⟨?_, ?_⟩
        · rw [hstep, heq]
          congr 1
          push_cast
          ring
        · intro j hj1 hj2
          by_cases hj : j = 1
          · subst hj; exact h
          · have := h3 (j - 1) (by omega) (by push_cast at hj2; omega)
            have e : co + 1 + (j - 1) = co + j := by ring
            rwa [e] at this

/-! ### The first part of `Load`, by the shape of the input -/

theorem scan_inline_not_good (s : Lexer) (hn : s.new_line_ = false)
    (hg : s.input_.good = false) :
    scan s = .char none { s with input_ := { s.input_ with failbit := true } } := by
  simp [scan, hn, readSpaces, hg]

theorem scan_inline_spaces (s : Lexer) (m : Nat) (hn : s.new_line_ = false)
    (hi : s.input_ = ⟨List.replicate m ' ', false, false⟩) :
    scan s = .char none { s with input_ := ⟨[], true, true⟩ } := by
  simp [scan, hn, readSpaces, hi, IStream.good, readSpacesBuf_spaces]

theorem scan_inline_char (s : Lexer) (m : Nat) (c : Char) (rest : List Char) (hc : c ≠ ' ')
    (hn : s.new_line_ = false)
    (hi : s.input_ = ⟨List.replicate m ' ' ++ c :: rest, false, false⟩) :
    scan s = .char (some c) { s with input_ := ⟨rest, false, false⟩ } := by
  simp [scan, hn, readSpaces, hi, IStream.good, readSpacesBuf_spaces_cons m c rest hc]

theorem scan_newline_not_good (s : Lexer) (hn : s.new_line_ = true)
    (hg : s.input_.good = false) :
    scan s =
      if s.offset_ > s.current_offset_ then
        .token { s with input_ := ⟨s.input_.buf, false, true⟩, offset_ := s.offset_ - 2,
                        token_ := .Dedent }
      else .char none { s with input_ := ⟨s.input_.buf, false, true⟩ } := by
  simp [scan, hn, CheckEmptyLine_not_good _ hg, IStream.get, IStream.good, IStream.putback]

theorem scan_newline_spaces (s : Lexer) (m : Nat) (hn : s.new_line_ = true)
    (hi : s.input_ = ⟨List.replicate m ' ', false, false⟩) :
    scan s =
      if s.offset_ > s.current_offset_ then
        .token { s with input_ := ⟨[], false, true⟩, offset_ := s.offset_ - 2,
                        token_ := .Dedent }
      else .char none { s with input_ := ⟨[], false, true⟩ } := by
  simp [scan, hn, hi, CheckEmptyLine_spaces, IStream.get, IStream.good, IStream.putback]

theorem scan_newline_blank (s : Lexer) (m : Nat) (c : Char) (rest : List Char)
    (hc : c = '\n' ∨ c = '#') (hn : s.new_line_ = true)
    (hi : s.input_ = ⟨List.replicate m ' ' ++ c :: rest, false, false⟩) :
    scan s = .char (some c) { s with input_ := ⟨rest, false, false⟩ } := by
  simp [scan, hn, hi, CheckEmptyLine_blank m c rest hc, IStream.get, IStream.good]

theorem scan_newline_content_zero (s : Lexer) (c : Char) (rest : List Char)
    (hsp : c ≠ ' ') (hnl : c ≠ '\n') (hcm : c ≠ '#') (hn : s.new_line_ = true)
    (hi : s.input_ = ⟨c :: rest, false, false⟩) :
    scan s =
      if s.offset_ > s.current_offset_ then
        .token { s with input_ := ⟨c :: rest, false, false⟩, offset_ := s.offset_ - 2,
                        token_ := .Dedent }
      else .char (some c) { s with input_ := ⟨rest, false, false⟩ } := by
  have h := CheckEmptyLine_content 0 c rest hsp hnl hcm
  simp only [List.replicate_zero, List.nil_append] at h
  simp [scan, hn, hi, h, IStream.get, IStream.good, IStream.putback, hsp]

theorem scan_newline_content_succ (s : Lexer) (m : Nat) (c : Char) (rest : List Char)
    (hsp : c ≠ ' ') (hnl : c ≠ '\n') (hcm : c ≠ '#') (hn : s.new_line_ = true)
    (hi : s.input_ = ⟨List.replicate (m + 1) ' ' ++ c :: rest, false, false⟩) :
    scan s =
      match countSpacesBuf s.offset_ s.current_offset_ (List.replicate m ' ' ++ c :: rest) with
      | .indent co input =>
        .token { s with input_ := input, current_offset_ := co, token_ := .Indent }
      | .done c1 co input =>
        if co < s.offset_ then
          .token { s with input_ := input.putback c1, current_offset_ := co,
                          offset_ := s.offset_ - 2, token_ := .Dedent }
        else .char c1 { s with input_ := input, current_offset_ := co } := by
  have h := CheckEmptyLine_content (m + 1) c rest hsp hnl hcm
  unfold scan
  rw [hi]
  simp only [hn, h]
  simp [IStream.get, IStream.good, List.replicate_succ, countSpaces]

theorem replicate_append_suffix (k n : Nat) (h : k ≤ n) (l : List Char) :
    List.replicate k ' ' ++ l <:+ List.replicate n ' ' ++ l := by
  obtain ⟨d, rfl⟩ := Nat.exists_eq_add_of_le h
  refine ⟨List.replicate d ' ', ?_⟩
  rw [← List.append_assoc, ← List.replicate_add, Nat.add_comm]

/-- The first part of `Load` only consumes input: what it leaves is a suffix of what it
found; a character it hands on is not a space and was the next one; `token_` and
`new_line_` change only when it returns an `Indent` or a `Dedent`. -/
theorem scan_spec (s : Lexer) :
    match scan s with
    | .token s1 =>
      s.new_line_ = true ∧ s1.new_line_ = true ∧ (s1.token_ = .Indent ∨ s1.token_ = .Dedent) ∧
        s1.input_.buf <:+ s.input_.buf
    | .char none s1 =>
      s1.input_.good = false ∧ s1.token_ = s.token_ ∧ s1.new_line_ = s.new_line_ ∧
        s1.input_.buf <:+ s.input_.buf
    | .char (some c) s1 =>
      c ≠ ' ' ∧ c :: s1.input_.buf <:+ s.input_.buf ∧ s1.token_ = s.token_ ∧
        s1.new_line_ = s.new_line_ := by
  cases hn : s.new_line_
  · rcases IStream.shape s.input_ with hg | ⟨m, hi⟩ | ⟨m, c, rest, hc, hi⟩
    · rw [scan_inline_not_good s hn hg]
      simp [IStream.good, hn]
    · rw [scan_inline_spaces s m hn hi]
      simp [IStream.good, hn]
    · rw [scan_inline_char s m c rest hc hn hi]
      simp [hc, hn, hi]
  · rcases IStream.shape s.input_ with hg | ⟨m, hi⟩ | ⟨m, c, rest, hc, hi⟩
    · rw [scan_newline_not_good s hn hg]
      split_ifs <;> simp [IStream.good, hn]
    · rw [scan_newline_spaces s m hn hi]
      split_ifs <;> simp [IStream.good, hn]
    · by_cases hb : c = '\n' ∨ c = '#'
      · rw [scan_newline_blank s m c rest hb hn hi]
        simp [hc, hn, hi]
      · have hnl : c ≠ '\n' := fun h => hb (Or.inl h)
        have hcm : c ≠ '#' := fun h => hb (Or.inr h)
        cases m with
        | zero =>
          simp only [List.replicate_zero, List.nil_append] at hi
          rw [scan_newline_content_zero s c rest hc hnl hcm hn hi]
          split_ifs <;> simp [hc, hn, hi]
        | succ k =>
          rw [scan_newline_content_succ s k c rest hc hnl hcm hn hi]
          rcases countSpacesBuf_spec s.offset_ k c rest hc s.current_offset_ with
            ⟨j, hj, heq, -⟩ | ⟨heq, -⟩
          · rw [heq]
            simp only [hn, hi, true_and, reduceCtorEq, false_or, or_true, or_false]
            exact replicate_append_suffix j (k + 1) (by omega) (c :: rest)
          · rw [heq]
            by_cases ho : s.current_offset_ + ↑k + 1 < s.offset_
            · simp [ho, hn, hi, IStream.putback]
            · simp only [ho, hc, hn, hi, if_false, ne_eq, not_false_eq_true, true_and, and_true]
              exact List.suffix_append _ _

/-! ### Fuel -/

theorem skipComment_suffix (s : IStream) : (skipComment s).buf <:+ s.buf := by
  unfold skipComment
  split_ifs
  · have h := List.dropWhile_suffix (fun c => decide (c ≠ '\n')) (l := s.buf)
    split
    · exact List.nil_suffix
    · exact h
  · exact List.suffix_refl _

/-- The byte 0xFF is none of the characters the `switch` has a case for. -/
theorem eofByte_unrecognised : recognised (Char.ofNat 255) = false := by decide

theorem ne_eofByte_of_recognised (c : Char) (h : recognised c = true) : c ≠ Char.ofNat 255 := by
  intro e
  rw [e] at h
  exact absurd h (by decide)

theorem dispatch_none (load : Lexer → Option Lexer) (s : Lexer) :
    dispatch load none s =
      if s.token_ ≠ .Newline ∧ s.new_line_ = false then
        LoadNewline load { s with input_ := s.input_.putback none }
      else some { s with token_ := .Eof } := by
  simp [dispatch, isEOF]

theorem dispatch_eofByte (load : Lexer → Option Lexer) (s : Lexer) :
    dispatch load (some (Char.ofNat 255)) s =
      if s.token_ ≠ .Newline ∧ s.new_line_ = false then
        LoadNewline load { s with input_ := s.input_.putback (some (Char.ofNat 255)) }
      else some { s with token_ := .Eof } := by
  simp [dispatch, isEOF]

theorem dispatch_some (load : Lexer → Option Lexer) (ch : Char) (s : Lexer)
    (h : ch ≠ Char.ofNat 255) : dispatch load (some ch) s = switchChar load ch s := by
  simp [dispatch, isEOF, h]

theorem dispatch_newline (load : Lexer → Option Lexer) (s : Lexer) :
    dispatch load (some '\n') s = LoadNewline load s := by
  rw [dispatch_some _ _ _ (by decide)]
  simp [switchChar]

theorem dispatch_comment (load : Lexer → Option Lexer) (s : Lexer) :
    dispatch load (some '#') s = LoadComment load s := by
  rw [dispatch_some _ _ _ (by decide)]
  have h1 : isOperatorChar '#' = false := by decide
  have h2 : ¬('#' = Char.ofNat 39 ∨ '#' = '"') := by decide
  have h3 : ¬('#' = '\n') := by decide
  simp only [switchChar, h1, h2, h3, if_false, Bool.false_eq_true, if_true]

/-- When `c == EOF`, the second part of `Load` does not call `Load`. -/
theorem dispatch_isEOF (load : Lexer → Option Lexer) (c : Option Char) (s : Lexer)
    (h : isEOF c = true) :
    dispatch load c s =
      if s.token_ ≠ .Newline ∧ s.new_line_ = false then
        some { s with input_ := s.input_.putback c, new_line_ := true,
                      offset_ := s.current_offset_, current_offset_ := 0, token_ := .Newline }
      else some { s with token_ := .Eof } := by
  cases c with
  | none =>
    rw [dispatch_none]
    split_ifs with hc
    · simp [LoadNewline, hc.2]
    · rfl
  | some ch =>
    have e : ch = Char.ofNat 255 := by simpa [isEOF] using h
    subst e
    rw [dispatch_eofByte]
    split_ifs with hc
    · simp [LoadNewline, hc.2]
    · rfl

theorem dispatch_isEOF_isSome (load : Lexer → Option Lexer) (c : Option Char) (s : Lexer)
    (h : isEOF c = true) : (dispatch load c s).isSome = true := by
  rw [dispatch_isEOF load c s h]
  split_ifs <;> rfl

theorem dispatch_none_isSome (load : Lexer → Option Lexer) (s : Lexer) :
    (dispatch load none s).isSome = true :=
  dispatch_isEOF_isSome load none s rfl

theorem dispatch_some_isSome (load : Lexer → Option Lexer) (c : Char) (s : Lexer)
    (h : ∀ x : Lexer, x.input_.buf.length ≤ s.input_.buf.length → (load x).isSome = true) :
    (dispatch load (some c) s).isSome = true := by
  by_cases he : c = Char.ofNat 255
  · exact dispatch_isEOF_isSome load (some c) s (by simp [isEOF, he])
  rw [dispatch_some load c s he]
  unfold switchChar
  split_ifs
  · unfold LoadNewline
    split_ifs
    · rfl
    · exact h s (le_refl _)
  · rfl
  · rfl
  · exact h _ (skipComment_suffix s.input_).length_le
  · rfl
  · rfl
  · rfl

theorem Load_isSome : ∀ (fuel : Nat) (s : Lexer), s.input_.buf.length < fuel →
    (Load fuel s).isSome = true
  | 0, _, h => absurd h (Nat.not_lt_zero _)
  | fuel + 1, s, h => by
    unfold Load
    have hs := scan_spec s
    cases hsc : scan s with
    | token s1 => rfl
    | char c s1 =>
      rw [hsc] at hs
      cases c with
      | none => exact dispatch_none_isSome _ _
      | some ch =>
        simp only at hs ⊢
        apply dispatch_some_isSome
        intro x hx
        apply Load_isSome fuel x
        have := hs.2.1.length_le
        simp only [List.length_cons] at this
        omega

theorem dispatch_mono (load load1 : Lexer → Option Lexer)
    (h : ∀ x r, load x = some r → load1 x = some r) (c : Option Char) (s r : Lexer)
    (hd : dispatch load c s = some r) : dispatch load1 c s = some r := by
  by_cases he : isEOF c = true
  · rw [dispatch_isEOF load c s he] at hd
    rw [dispatch_isEOF load1 c s he]
    exact hd
  · cases c with
    | none => exact absurd rfl he
    | some ch =>
      have hne : ch ≠ Char.ofNat 255 := by simpa [isEOF] using he
      rw [dispatch_some load ch s hne] at hd
      rw [dispatch_some load1 ch s hne]
      unfold switchChar at hd ⊢
      split_ifs at hd ⊢
      · unfold LoadNewline at hd ⊢
        split_ifs at hd ⊢
        · exact hd
        · exact h _ _ hd
      · exact hd
      · exact hd
      · exact h _ _ hd
      · exact hd
      · exact hd
      · exact hd

theorem Load_succ : ∀ (fuel : Nat) (s r : Lexer), Load fuel s = some r →
    Load (fuel + 1) s = some r
  | 0, _, _, h => by simp [Load] at h
  | fuel + 1, s, r, h => by
    rw [Load] at h ⊢
    cases hsc : scan s with
    | token s1 => rw [hsc] at h; exact h
    | char c s1 =>
      rw [hsc] at h
      exact dispatch_mono (Load fuel) (Load (fuel + 1)) (Load_succ fuel) c s1 r h

theorem Load_mono (fuel fuel1 : Nat) (hle : fuel ≤ fuel1) (s r : Lexer)
    (h : Load fuel s = some r) : Load fuel1 s = some r := by
  induction hle with
  | refl => exact h
  | step _ ih => exact Load_succ _ _ _ ih

/-- `NextToken` is what `Load` gives with any fuel that is enough. -/
theorem NextToken_eq_of_Load (fuel : Nat) (s r : Lexer) (h : Load fuel s = some r) :
    NextToken s = r := by
  have h1 := Load_isSome (s.input_.buf.length + 1) s (Nat.lt_succ_self _)
  obtain ⟨r1, hr1⟩ := Option.isSome_iff_exists.1 h1
  have e1 := Load_mono _ (max fuel (s.input_.buf.length + 1)) (le_max_left _ _) s r h
  have e2 := Load_mono _ (max fuel (s.input_.buf.length + 1)) (le_max_right _ _) s r1 hr1
  rw [e1] at e2
  injection e2 with e2
  unfold NextToken
  rw [hr1, e2]
  rfl

/-- `NextToken` never runs out of fuel. -/
theorem Load_NextToken (s : Lexer) : Load (s.input_.buf.length + 1) s = some (NextToken s) := by
  have h1 := Load_isSome (s.input_.buf.length + 1) s (Nat.lt_succ_self _)
  obtain ⟨r1, hr1⟩ := Option.isSome_iff_exists.1 h1
  rw [hr1, NextToken_eq_of_Load _ _ _ hr1]

/-! ### The functions that load a token -/

theorem IStream.get_buf_suffix (s : IStream) : s.get.2.buf <:+ s.buf := by
  unfold IStream.get
  split_ifs
  · split
    · exact List.suffix_refl _
    · next c rest heq => simp only [heq]; exact List.suffix_cons _ _
  · exact List.suffix_refl _

theorem IStream.peek_buf (s : IStream) : s.peek.2.buf = s.buf := by
  unfold IStream.peek
  split_ifs
  · split <;> rfl
  · rfl

theorem LoadChar_spec (c : Char) (s : Lexer) :
    (LoadChar c s).token_.isContent = true ∧ (LoadChar c s).new_line_ = false ∧
      (LoadChar c s).offset_ = s.offset_ ∧
      (LoadChar c s).current_offset_ = s.current_offset_ ∧
      (LoadChar c s).input_.buf <:+ s.input_.buf := by
  have hget : s.input_.peek.2.get.2.buf <:+ s.input_.buf := by
    have h := IStream.get_buf_suffix s.input_.peek.2
    rwa [IStream.peek_buf] at h
  have hpeek : s.input_.peek.2.buf <:+ s.input_.buf := by
    rw [IStream.peek_buf]
  by_cases h1 : c = '!' ∨ c = '=' ∨ c = '>' ∨ c = '<'
  · by_cases h2 : s.input_.peek.1 = some '='
    · simp only [LoadChar, h1, h2, if_true]
      refine ⟨?_, ?_, ?_, ?_, hget⟩ <;> first | trivial | (split_ifs <;> rfl)
    · simp only [LoadChar, h1, h2, if_true, if_false]
      refine ⟨?_, ?_, ?_, ?_, hpeek⟩ <;> trivial
  · simp only [LoadChar, h1, if_false]
    refine ⟨?_, ?_, ?_, ?_, List.suffix_refl _⟩ <;> trivial

theorem LoadStringBuf_suffix (first : Char) :
    ∀ (n : Nat) (buf result : List Char), buf.length ≤ n →
      (LoadStringBuf first buf result).2.buf <:+ buf := by
  intro n
  induction n with
  | zero =>
    intro buf result h
    have : buf = [] := List.length_eq_zero.1 (Nat.le_zero.1 h)
    subst this
    simp [LoadStringBuf]
  | succ k ih =>
    intro buf result h
    match buf, h with
    | [], _ => simp [LoadStringBuf]
    | [c], _ =>
      simp only [LoadStringBuf]
      split_ifs <;> simp
    | c :: d :: rest, h =>
      simp only [List.length_cons] at h
      simp only [LoadStringBuf]
      split_ifs
      · exact List.suffix_cons _ _
      · exact ((ih rest _ (by omega)).trans (List.suffix_cons _ _)).trans (List.suffix_cons _ _)
      · exact ((ih rest _ (by omega)).trans (List.suffix_cons _ _)).trans (List.suffix_cons _ _)
      · exact ((ih rest _ (by omega)).trans (List.suffix_cons _ _)).trans (List.suffix_cons _ _)
      · exact (ih (d :: rest) _ (by simp; omega)).trans (List.suffix_cons _ _)
      · exact (ih (d :: rest) _ (by simp; omega)).trans (List.suffix_cons _ _)

theorem LoadString_spec (c : Char) (s : Lexer) :
    (LoadString c s).token_.isContent = true ∧ (LoadString c s).new_line_ = false ∧
      (LoadString c s).offset_ = s.offset_ ∧
      (LoadString c s).current_offset_ = s.current_offset_ ∧
      (LoadString c s).input_.buf <:+ s.input_.buf := by
  unfold LoadString
  simp only [Token.isContent, true_and]
  split_ifs
  · exact LoadStringBuf_suffix c _ _ _ (le_refl _)
  · exact List.suffix_refl _

theorem takeWhilePeek_suffix (p : Char → Bool) (peeks : Nat) (s : IStream) :
    (takeWhilePeek p peeks s).2.buf <:+ s.buf := by
  unfold takeWhilePeek
  split_ifs
  · have h := List.dropWhile_suffix p (l := s.buf)
    simp only
    split
    · exact List.nil_suffix
    · exact h
  · exact List.suffix_refl _

/-- After `putback(c)` of a character that the loop takes, the loop leaves a suffix of
what the stream held before the `putback`. -/
theorem takeWhilePeek_putback_suffix (p : Char → Bool) (peeks : Nat) (s : IStream) (c : Char)
    (hp : p c = true) : (takeWhilePeek p peeks (s.putback (some c))).2.buf <:+ s.buf := by
  by_cases hf : s.failbit = true
  · have h := takeWhilePeek_suffix p peeks (s.putback (some c))
    simpa [IStream.putback, hf] using h
  · have e : s.putback (some c) = ⟨c :: s.buf, false, false⟩ := by
      simp [IStream.putback, hf]
    rw [e]
    unfold takeWhilePeek
    simp only [IStream.good, Bool.not_false, Bool.and_self, if_true, List.dropWhile_cons, hp]
    have h := List.dropWhile_suffix p (l := s.buf)
    split
    · exact List.nil_suffix
    · exact h

theorem tokens_lookup_isContent (word : String) (t : Token) (h : tokens.lookup word = some t) :
    t.isContent = true := by
  obtain ⟨l1, l2, hl, -⟩ := List.lookup_eq_some_iff.1 h
  have hm : (word, t) ∈ tokens := by rw [hl]; simp
  simp only [tokens, List.mem_cons, Prod.mk.injEq, List.mem_singleton, List.not_mem_nil,
    or_false] at hm
  rcases hm with h | h | h | h | h | h | h | h | h | h | h | h <;> (rw [h.2]; rfl)

theorem isIdStart_isIdChar (c : Char) (h : isIdStart c = true) : isIdChar c = true := by
  unfold isIdStart at h
  unfold isIdChar
  simp only [Bool.or_eq_true, decide_eq_true_eq] at h ⊢
  rcases h with h | h
  · left
    simp only [Char.isAlphanum, Bool.or_eq_true]
    exact Or.inl h
  · exact Or.inr h

theorem LoadId_spec (c : Char) (s : Lexer) (hc : isIdStart c = true) :
    let r := LoadId { s with input_ := s.input_.putback (some c) }
    r.token_.isContent = true ∧ r.new_line_ = false ∧ r.offset_ = s.offset_ ∧
      r.current_offset_ = s.current_offset_ ∧ r.input_.buf <:+ s.input_.buf := by
  have hsuf := takeWhilePeek_putback_suffix isIdChar 2 s.input_ c (isIdStart_isIdChar c hc)
  simp only [LoadId, GetString]
  split
  · next t ht => exact ⟨tokens_lookup_isContent _ _ ht, rfl, rfl, rfl, hsuf⟩
  · exact ⟨rfl, rfl, rfl, rfl, hsuf⟩

theorem LoadNumber_spec (c : Char) (s : Lexer) (hc : c.isDigit = true) :
    let r := LoadNumber { s with input_ := s.input_.putback (some c) }
    r.token_.isContent = true ∧ r.new_line_ = false ∧ r.offset_ = s.offset_ ∧
      r.current_offset_ = s.current_offset_ ∧ r.input_.buf <:+ s.input_.buf := by
  have hsuf := takeWhilePeek_putback_suffix Char.isDigit 1 s.input_ c hc
  exact ⟨rfl, rfl, rfl, rfl, hsuf⟩

/-! ### The `switch` of `Load` -/

theorem char_cases (c : Char) :
    c = ' ' ∨ c = '\n' ∨ c = '#' ∨ startsToken c = true ∨ recognised c = false := by
  by_cases h : recognised c = true
  · simp only [recognised, Bool.or_eq_true, decide_eq_true_eq] at h
    tauto
  · exact Or.inr (Or.inr (Or.inr (Or.inr (by simpa using h))))

theorem switchChar_newline (load : Lexer → Option Lexer) (s : Lexer) :
    switchChar load '\n' s = LoadNewline load s := by
  simp [switchChar]

theorem switchChar_comment (load : Lexer → Option Lexer) (s : Lexer) :
    switchChar load '#' s = LoadComment load s := by
  have h1 : isOperatorChar '#' = false := by decide
  have h2 : ¬('#' = Char.ofNat 39 ∨ '#' = '"') := by decide
  have h3 : ¬('#' = '\n') := by decide
  simp only [switchChar, h1, h2, h3, if_false, Bool.false_eq_true, if_true]

theorem switchChar_unrecognised (load : Lexer → Option Lexer) (c : Char) (s : Lexer)
    (h : recognised c = false) : switchChar load c s = some s := by
  simp only [recognised, startsToken, Bool.or_eq_false_iff, decide_eq_false_iff_not] at h
  obtain ⟨⟨⟨-, hnl⟩, hcm⟩, ⟨⟨⟨hop, hq1⟩, hq2⟩, hid⟩, hdg⟩ := h
  simp [switchChar, hnl, hcm, hop, hq1, hq2, hid, hdg]

theorem switchChar_startsToken (load : Lexer → Option Lexer) (c : Char) (s : Lexer)
    (h : startsToken c = true) :
    ∃ r, switchChar load c s = some r ∧ r.token_.isContent = true ∧ r.new_line_ = false ∧
      r.offset_ = s.offset_ ∧ r.current_offset_ = s.current_offset_ ∧
      r.input_.buf <:+ s.input_.buf := by
  have hnl : c ≠ '\n' := by
    intro e; rw [e] at h; exact absurd h (by decide)
  have hcm : c ≠ '#' := by
    intro e; rw [e] at h; exact absurd h (by decide)
  unfold switchChar
  simp only [hnl, hcm, if_false]
  split_ifs with h1 h2 h3 h4
  · exact ⟨_, rfl, LoadChar_spec c s⟩
  · exact ⟨_, rfl, LoadString_spec c s⟩
  · exact ⟨_, rfl, LoadId_spec c s h3⟩
  · exact ⟨_, rfl, LoadNumber_spec c s h4⟩
  · exfalso
    simp only [startsToken, Bool.or_eq_true, decide_eq_true_eq] at h
    simp only [not_or] at h2
    rcases h with (((h | h) | h) | h) | h
    · exact h1 h
    · exact h2.1 h
    · exact h2.2 h
    · exact h3 h
    · exact h4 h

/-! ### Induction over the calls of `Load` -/

/-- To show that `Load` takes every lexer in `I` to a lexer related to it by `Q`, it is
enough to show it for the first part of `Load` and for what follows it, given that the inner
calls of `Load` do. -/
theorem Load_induction (I : Lexer → Prop) (Q : Lexer → Lexer → Prop)
    (htoken : ∀ s r, I s → scan s = .token r → Q s r)
    (hchar : ∀ s c s1, I s → scan s = .char c s1 →
      ∀ (load : Lexer → Option Lexer) (r : Lexer),
        (∀ x y, I x → load x = some y → Q x y) → dispatch load c s1 = some r → Q s r) :
    ∀ (fuel : Nat) (s r : Lexer), I s → Load fuel s = some r → Q s r
  | 0, _, _, _, h => by simp [Load] at h
  | fuel + 1, s, r, hI, h => by
    rw [Load] at h
    cases hsc : scan s with
    | token s1 =>
      rw [hsc] at h
      injection h with h
      subst h
      exact htoken s s1 hI hsc
    | char c s1 =>
      rw [hsc] at h
      exact hchar s c s1 hI hsc (Load fuel) r
        (fun x y hx hxy => Load_induction I Q htoken hchar fuel x y hx hxy) h

/-- The ways in which the second part of `Load` ends. -/
theorem dispatch_cases (load : Lexer → Option Lexer) (c : Option Char) (s r : Lexer)
    (hd : dispatch load c s = some r) :
    (isEOF c = true ∧ s.token_ ≠ .Newline ∧ s.new_line_ = false ∧
      r = { s with input_ := s.input_.putback c, new_line_ := true,
                   offset_ := s.current_offset_, current_offset_ := 0, token_ := .Newline })
    ∨ (isEOF c = true ∧ ¬(s.token_ ≠ .Newline ∧ s.new_line_ = false) ∧
      r = { s with token_ := .Eof })
    ∨ (c = some '\n' ∧ s.new_line_ = false ∧
      r = { s with new_line_ := true, offset_ := s.current_offset_, current_offset_ := 0,
                   token_ := .Newline })
    ∨ (c = some '\n' ∧ s.new_line_ = true ∧ load s = some r)
    ∨ (c = some '#' ∧ load { s with input_ := skipComment s.input_ } = some r)
    ∨ (∃ ch, c = some ch ∧ startsToken ch = true ∧ r.token_.isContent = true ∧
        r.new_line_ = false ∧ r.offset_ = s.offset_ ∧ r.current_offset_ = s.current_offset_ ∧
        r.input_.buf <:+ s.input_.buf)
    ∨ (∃ ch, c = some ch ∧ recognised ch = false ∧ ch ≠ Char.ofNat 255 ∧ r = s)
    ∨ (c = some ' ' ∧ r = s) := by
  by_cases he : isEOF c = true
  · rw [dispatch_isEOF load c s he] at hd
    split_ifs at hd with h
    · left
      injection hd with hd
      exact ⟨he, h.1, h.2, hd.symm⟩
    · right; left
      injection hd with hd
      exact ⟨he, h, hd.symm⟩
  cases c with
  | none => exact absurd rfl he
  | some ch =>
    have hne : ch ≠ Char.ofNat 255 := by simpa [isEOF] using he
    rw [dispatch_some load ch s hne] at hd
    rcases char_cases ch with rfl | rfl | rfl | h | h
    · right; right; right; right; right; right; right
      have : switchChar load ' ' s = some s := by
        have h1 : isOperatorChar ' ' = false := by decide
        have h2 : ¬(' ' = Char.ofNat 39 ∨ ' ' = '"') := by decide
        have h3 : ¬(' ' = '\n') := by decide
        have h4 : ¬(' ' = '#') := by decide
        have h5 : isIdStart ' ' = false := by decide
        have h6 : Char.isDigit ' ' = false := by decide
        simp only [switchChar, h1, h2, h3, h4, h5, h6, if_false, Bool.false_eq_true]
      rw [this] at hd
      injection hd with hd
      exact ⟨rfl, hd.symm⟩
    · rw [switchChar_newline] at hd
      cases hn : s.new_line_
      · right; right; left
        simp only [LoadNewline, hn, Bool.not_false, if_true, Option.some.injEq] at hd
        exact ⟨rfl, rfl, hd.symm⟩
      · right; right; right; left
        simp only [LoadNewline, hn, Bool.not_true, Bool.false_eq_true, if_false] at hd
        exact ⟨rfl, rfl, hd⟩
    · right; right; right; right; left
      rw [switchChar_comment] at hd
      exact ⟨rfl, hd⟩
    · right; right; right; right; right; left
      obtain ⟨r1, hr1, hspec⟩ := switchChar_startsToken load ch s h
      rw [hr1] at hd
      injection hd with hd
      subst hd
      exact ⟨ch, rfl, h, hspec⟩
    · right; right; right; right; right; right; left
      rw [switchChar_unrecognised load ch s h] at hd
      injection hd with hd
      exact ⟨ch, rfl, h, hne, hd.symm⟩

/-- What `putback(c)` leaves in the stream is, for a `c` read from it, what was there before
`c` was read, or what is there now (when the stream has failed). -/
theorem IStream.putback_buf (s : IStream) (c : Option Char) :
    (s.putback c).buf = s.buf ∨ ∃ ch, c = some ch ∧ (s.putback c).buf = ch :: s.buf := by
  unfold IStream.putback
  split_ifs
  · exact Or.inl rfl
  · cases c with
    | none => exact Or.inl rfl
    | some ch => exact Or.inr ⟨ch, rfl, rfl⟩

theorem IStream.putback_none_buf (s : IStream) : (s.putback none).buf = s.buf := by
  unfold IStream.putback
  split_ifs <;> rfl

/-- `Load` only consumes input. -/
theorem Load_buf_suffix (fuel : Nat) (s r : Lexer) (h : Load fuel s = some r) :
    r.input_.buf <:+ s.input_.buf := by
  refine Load_induction (fun _ => True) (fun s r => r.input_.buf <:+ s.input_.buf)
    ?_ ?_ fuel s r trivial h
  · intro s r _ hsc
    have hs := scan_spec s
    rw [hsc] at hs
    exact hs.2.2.2
  · intro s c s1 _ hsc load r hload hd
    have hs := scan_spec s
    rw [hsc] at hs
    have hs1 : s1.input_.buf <:+ s.input_.buf := by
      cases c with
      | none => exact hs.2.2.2
      | some ch => exact (List.suffix_cons _ _).trans hs.2.1
    rcases dispatch_cases load c s1 r hd with
      ⟨-, -, -, rfl⟩ | ⟨-, -, rfl⟩ | ⟨-, -, rfl⟩ | ⟨-, -, hl⟩ | ⟨-, hl⟩ |
      ⟨ch, -, -, -, -, -, -, hsuf⟩ | ⟨ch, -, -, -, rfl⟩ | ⟨-, rfl⟩
    · rcases IStream.putback_buf s1.input_ c with e | ⟨ch, rfl, e⟩
      · simpa [e] using hs1
      · simpa [e] using hs.2.1
    · exact hs1
    · exact hs1
    · exact (hload _ _ trivial hl).trans hs1
    · exact ((hload _ _ trivial hl).trans (skipComment_suffix _)).trans hs1
    · exact hsuf.trans hs1
    · exact hs1
    · exact hs1

/-! ### The `Indent` and `Dedent` tokens of a line, from the start of the line -/

theorem countSpacesBuf_indent (o co : Int) (m : Nat) (c : Char) (rest : List Char)
    (hc : c ≠ ' ') (J : Nat) (h1 : 1 ≤ J) (h2 : J ≤ m + 1)
    (hcond : co + J > o ∧ (co + J) % 2 = 0)
    (hmin : ∀ j : Int, 1 ≤ j → j < J → ¬(co + j > o ∧ (co + j) % 2 = 0)) :
    countSpacesBuf o co (List.replicate m ' ' ++ c :: rest)
      = .indent (co + J) ⟨List.replicate (m + 1 - J) ' ' ++ c :: rest, false, false⟩ := by
  rcases countSpacesBuf_spec o m c rest hc co with ⟨k, hk, heq, hc1, hc2, hlt⟩ | ⟨-, hno⟩
  · have hJ : (J : Int) = (m : Int) - k + 1 := by
      by_contra hne
      rcases lt_or_gt_of_ne hne with hl | hg
      · exact hlt J (by omega) hl hcond
      · have := hmin ((m : Int) - k + 1) (by omega) hg
        apply this
        refine ⟨?_, ?_⟩
        · have e : co + ((m : Int) - k + 1) = co + (m - k) + 1 := by ring
          rw [e]; exact hc1
        · have e : co + ((m : Int) - k + 1) = co + (m - k) + 1 := by ring
          rw [e]; exact hc2
    have hk2 : m + 1 - J = k := by omega
    rw [heq, hk2]
    congr 1
    rw [hJ]; ring
  · exact absurd hcond (hno J (by omega) (by exact_mod_cast h2))

theorem countSpacesBuf_done (o co : Int) (m : Nat) (c : Char) (rest : List Char)
    (hc : c ≠ ' ')
    (hno : ∀ j : Int, 1 ≤ j → j ≤ m + 1 → ¬(co + j > o ∧ (co + j) % 2 = 0)) :
    countSpacesBuf o co (List.replicate m ' ' ++ c :: rest)
      = .done (some c) (co + m + 1) ⟨rest, false, false⟩ := by
  rcases countSpacesBuf_spec o m c rest hc co with ⟨k, hk, -, hc1, hc2, -⟩ | ⟨heq, -⟩
  · exfalso
    apply hno ((m : Int) - k + 1) (by omega) (by omega)
    have e : co + ((m : Int) - k + 1) = co + (m - k) + 1 := by ring
    rw [e]
    exact ⟨hc1, hc2⟩
  · exact heq

theorem startsToken_ne (c : Char) (h : startsToken c = true) :
    c ≠ ' ' ∧ c ≠ '\n' ∧ c ≠ '#' := by
  refine ⟨?_, ?_, ?_⟩ <;> (intro e; rw [e] at h; exact absurd h (by decide))

theorem startsToken_ne_eofByte (c : Char) (h : startsToken c = true) :
    c ≠ Char.ofNat 255 := by
  intro e; rw [e] at h; exact absurd h (by decide)

theorem dispatch_startsToken (load : Lexer → Option Lexer) (c : Char) (s : Lexer)
    (h : startsToken c = true) : dispatch load (some c) s = switchChar load c s :=
  dispatch_some load c s (startsToken_ne_eofByte c h)

/-- On a new line that starts with a token, `Load` with `offset_` not above
`current_offset_` goes to the `switch`. -/
theorem Load_content_zero_switch (fuel : Nat) (s : Lexer) (c : Char) (rest : List Char)
    (hc : startsToken c = true) (hn : s.new_line_ = true)
    (hi : s.input_ = ⟨c :: rest, false, false⟩) (ho : ¬ s.offset_ > s.current_offset_) :
    Load (fuel + 1) s = switchChar (Load fuel) c { s with input_ := ⟨rest, false, false⟩ } := by
  obtain ⟨h1, h2, h3⟩ := startsToken_ne c hc
  rw [Load, scan_newline_content_zero s c rest h1 h2 h3 hn hi]
  simp only [ho, if_false, dispatch_startsToken _ c _ hc]

/-- On a new line that starts with a token, `Load` with `offset_` above `current_offset_`
returns a `Dedent` and reads nothing. -/
theorem Load_content_zero_dedent (fuel : Nat) (s : Lexer) (c : Char) (rest : List Char)
    (hc : startsToken c = true) (hn : s.new_line_ = true)
    (hi : s.input_ = ⟨c :: rest, false, false⟩) (ho : s.offset_ > s.current_offset_) :
    Load (fuel + 1) s = some { s with offset_ := s.offset_ - 2, token_ := .Dedent } := by
  obtain ⟨h1, h2, h3⟩ := startsToken_ne c hc
  rw [Load, scan_newline_content_zero s c rest h1 h2 h3 hn hi]
  simp only [ho, if_true]
  rw [← hi]

/-- The result of the `switch` on a character that starts a token does not depend on the
`Load` it is given. -/
theorem switchChar_startsToken_load (load load1 : Lexer → Option Lexer) (c : Char) (s : Lexer)
    (hc : startsToken c = true) : switchChar load c s = switchChar load1 c s := by
  obtain ⟨-, h2, h3⟩ := startsToken_ne c hc
  unfold switchChar
  simp only [h2, h3, if_false]

theorem leadingSpaces_spaces_cons (m : Nat) (c : Char) (rest : List Char) (hc : c ≠ ' ') :
    leadingSpaces (List.replicate m ' ' ++ c :: rest) = m := by
  induction m with
  | zero => simp [leadingSpaces, hc]
  | succ n ih => simp [List.replicate_succ, leadingSpaces, ih]

theorem leadingSpaces_spaces (m : Nat) : leadingSpaces (List.replicate m ' ') = m := by
  induction m with
  | zero => simp [leadingSpaces]
  | succ n ih => simp [List.replicate_succ, leadingSpaces, ih]

theorem blankOrComment_spaces_cons (m : Nat) (c : Char) (rest : List Char) (hc : c ≠ ' ') :
    blankOrComment (List.replicate m ' ' ++ c :: rest) = (decide (c = '\n') || decide (c = '#')) := by
  unfold blankOrComment
  rw [leadingSpaces_spaces_cons m c rest hc]
  simp

theorem blankOrComment_spaces (m : Nat) : blankOrComment (List.replicate m ' ') = true := by
  unfold blankOrComment
  rw [leadingSpaces_spaces]
  simp

theorem skipped_line_shape (line : List Char) (hb : blankOrComment line = true)
    (hnl : '\n' ∉ line) :
    (∃ m, line = List.replicate m ' ') ∨
      ∃ m cm, line = List.replicate m ' ' ++ '#' :: cm ∧ '\n' ∉ cm := by
  obtain ⟨m, h | ⟨c, rest, hc, h⟩⟩ := spaces_decomp line
  · exact Or.inl ⟨m, h⟩
  · right
    subst h
    rw [blankOrComment_spaces_cons m c rest hc] at hb
    simp only [Bool.or_eq_true, decide_eq_true_eq] at hb
    rcases hb with rfl | rfl
    · exact absurd (by simp) hnl
    · exact ⟨m, rest, rfl, fun h => hnl (by simp [h])⟩

theorem skipComment_to_newline (cm text : List Char) (h : '\n' ∉ cm) :
    skipComment ⟨cm ++ '\n' :: text, false, false⟩ = ⟨'\n' :: text, false, false⟩ := by
  have hd : List.dropWhile (fun c => decide (c ≠ '\n')) (cm ++ '\n' :: text) = '\n' :: text := by
    induction cm with
    | nil => simp
    | cons x xs ih =>
      have hx : x ≠ '\n' := fun e => h (by simp [e])
      have hxs : '\n' ∉ xs := fun e => h (by simp [e])
      have := ih hxs
      simp only [List.cons_append, List.dropWhile_cons, hx, ne_eq, not_false_eq_true,
        decide_True, if_true]
      exact this
  simp only [skipComment, IStream.good, Bool.not_false, Bool.and_self, if_true, hd]

theorem Load_skip_blank (fuel : Nat) (m : Nat) (text : List Char) (tok : Token) (o : Int) :
    Load (fuel + 1) (atLineStart (List.replicate m ' ' ++ '\n' :: text) tok o)
      = Load fuel (atLineStart text tok o) := by
  rw [Load, scan_newline_blank _ m '\n' text (Or.inl rfl) rfl rfl]
  simp only [dispatch_newline, LoadNewline]
  rfl

theorem Load_skip_comment (fuel : Nat) (m : Nat) (cm text : List Char) (h : '\n' ∉ cm)
    (tok : Token) (o : Int) :
    Load (fuel + 2) (atLineStart (List.replicate m ' ' ++ '#' :: (cm ++ '\n' :: text)) tok o)
      = Load fuel (atLineStart text tok o) := by
  rw [Load, scan_newline_blank _ m '#' (cm ++ '\n' :: text) (Or.inr rfl) rfl rfl]
  simp only [dispatch_comment, LoadComment, skipComment_to_newline cm text h]
  exact Load_skip_blank fuel 0 text tok o

/-- `Load` passes over blank lines and comment lines without a token and without a change
to its offsets. -/
theorem Load_skips (skipped : List (List Char))
    (hskip : ∀ line ∈ skipped, blankOrComment line = true ∧ '\n' ∉ line)
    (tail : List Char) (tok : Token) (o : Int) (fuel : Nat) (r : Lexer)
    (h : Load fuel (atLineStart tail tok o) = some r) :
    ∃ fuel1, Load fuel1 (atLineStart (skippedText skipped ++ tail) tok o) = some r := by
  induction skipped with
  | nil => exact ⟨fuel, h⟩
  | cons line more ih =>
    obtain ⟨f1, hf1⟩ := ih (fun l hl => hskip l (List.mem_cons_of_mem _ hl))
    obtain ⟨hb, hnl⟩ := hskip line (List.mem_cons_self _ _)
    rcases skipped_line_shape line hb hnl with ⟨m, rfl⟩ | ⟨m, cm, rfl, hcm⟩
    · refine ⟨f1 + 1, ?_⟩
      simp only [skippedText, List.append_assoc, List.cons_append]
      rw [Load_skip_blank]
      exact hf1
    · refine ⟨f1 + 2, ?_⟩
      simp only [skippedText, List.append_assoc, List.cons_append]
      rw [Load_skip_comment _ _ _ _ hcm]
      exact hf1

theorem NextToken_skips (skipped : List (List Char))
    (hskip : ∀ line ∈ skipped, blankOrComment line = true ∧ '\n' ∉ line)
    (tail : List Char) (tok : Token) (o : Int) :
    NextToken (atLineStart (skippedText skipped ++ tail) tok o)
      = NextToken (atLineStart tail tok o) := by
  obtain ⟨f1, hf1⟩ := Load_skips skipped hskip tail tok o _ _ (Load_NextToken _)
  exact NextToken_eq_of_Load _ _ _ hf1

/-- On a new line with `n` spaces before the token character `c`: if `J` is the first count
at which `current_offset_` is even and above `offset_`, `Load` reads `J` spaces and returns
an `Indent`. -/
theorem Load_line_indent (fuel n : Nat) (c : Char) (rest : List Char) (t : Token) (o co : Int)
    (hc : startsToken c = true) (J : Nat) (h1 : 1 ≤ J) (h2 : J ≤ n)
    (hcond : co + J > o ∧ (co + J) % 2 = 0)
    (hmin : ∀ j : Int, 1 ≤ j → j < J → ¬(co + j > o ∧ (co + j) % 2 = 0)) :
    Load (fuel + 1) ⟨⟨List.replicate n ' ' ++ c :: rest, false, false⟩, t, true, o, co⟩
      = some ⟨⟨List.replicate (n - J) ' ' ++ c :: rest, false, false⟩, .Indent, true, o,
          co + J⟩ := by
  obtain ⟨hsp, hnl, hcm⟩ := startsToken_ne c hc
  obtain ⟨m, rfl⟩ : ∃ m, n = m + 1 := ⟨n - 1, by omega⟩
  rw [Load, scan_newline_content_succ _ m c rest hsp hnl hcm rfl rfl]
  simp only
  rw [countSpacesBuf_indent o co m c rest hsp J h1 h2 hcond hmin]

/-- On a new line with `n` spaces before the token character `c`: if no count is even and
above `offset_` and the line is indented less than `offset_`, `Load` returns a `Dedent`,
takes 2 off `offset_` and leaves `c` to be read again. -/
theorem Load_line_dedent (fuel n : Nat) (c : Char) (rest : List Char) (t : Token) (o co : Int)
    (hc : startsToken c = true)
    (hno : ∀ j : Int, 1 ≤ j → j ≤ n → ¬(co + j > o ∧ (co + j) % 2 = 0))
    (hlt : co + n < o) :
    Load (fuel + 1) ⟨⟨List.replicate n ' ' ++ c :: rest, false, false⟩, t, true, o, co⟩
      = some ⟨⟨c :: rest, false, false⟩, .Dedent, true, o - 2, co + n⟩ := by
  obtain ⟨hsp, hnl, hcm⟩ := startsToken_ne c hc
  cases n with
  | zero =>
    have ho : o > co := by simpa using hlt
    rw [Load_content_zero_dedent fuel _ c rest hc rfl rfl ho]
    simp
  | succ m =>
    rw [Load, scan_newline_content_succ _ m c rest hsp hnl hcm rfl rfl]
    simp only
    rw [countSpacesBuf_done o co m c rest hsp (by exact_mod_cast hno)]
    have hlt1 : co + (m : Int) + 1 < o := by push_cast at hlt; linarith
    simp only [hlt1, if_true, IStream.putback, Bool.false_eq_true, if_false]
    congr 2
    push_cast; ring

/-- On a new line with `n` spaces before the token character `c`: if no count is even and
above `offset_` and the line is not indented less than `offset_`, `Load` goes to the
`switch` with `c`, all `n` spaces counted. -/
theorem Load_line_switch (fuel n : Nat) (c : Char) (rest : List Char) (t : Token) (o co : Int)
    (hc : startsToken c = true)
    (hno : ∀ j : Int, 1 ≤ j → j ≤ n → ¬(co + j > o ∧ (co + j) % 2 = 0))
    (hge : ¬ co + n < o) :
    Load (fuel + 1) ⟨⟨List.replicate n ' ' ++ c :: rest, false, false⟩, t, true, o, co⟩
      = switchChar (Load fuel) c ⟨⟨rest, false, false⟩, t, true, o, co + n⟩ := by
  obtain ⟨hsp, hnl, hcm⟩ := startsToken_ne c hc
  cases n with
  | zero =>
    have ho : ¬ o > co := by simpa using hge
    rw [Load_content_zero_switch fuel _ c rest hc rfl rfl ho]
    simp
  | succ m =>
    rw [Load, scan_newline_content_succ _ m c rest hsp hnl hcm rfl rfl]
    simp only
    rw [countSpacesBuf_done o co m c rest hsp (by exact_mod_cast hno)]
    have hge1 : ¬ co + (m : Int) + 1 < o := by push_cast at hge; linarith
    simp only [hge1, if_false, dispatch_startsToken _ c _ hc]
    congr 2
    push_cast; ring

/-- From a line indented `2a` to a line indented `2b > 2a`: call `i + 1` of `NextToken`,
for `i < b - a`, returns an `Indent` and has read `2a + 2(i + 1)` spaces. -/
theorem indent_chain (a b : Nat) (c : Char) (rest : List Char) (tok : Token)
    (hc : startsToken c = true) :
    ∀ i, i < b - a →
      NextToken^[i + 1] (atLineStart (List.replicate (2 * b) ' ' ++ c :: rest) tok (2 * a))
        = ⟨⟨List.replicate (2 * (b - a - (i + 1))) ' ' ++ c :: rest, false, false⟩, .Indent,
            true, 2 * a, 2 * a + 2 * ((i : Int) + 1)⟩ := by
  intro i
  induction i with
  | zero =>
    intro hi
    simp only [Function.iterate_succ, Function.iterate_zero, Function.comp_apply, id_eq]
    apply NextToken_eq_of_Load 1
    have h := Load_line_indent 0 (2 * b) c rest tok (2 * a) 0 hc (2 * a + 2) (by omega)
      (by omega) (by push_cast; omega) (by intro j h1 h2; push_cast at h2; omega)
    unfold atLineStart
    rw [h]
    have e1 : 2 * b - (2 * a + 2) = 2 * (b - a - (0 + 1)) := by omega
    have e2 : (0 : Int) + ((2 * a + 2 : Nat) : Int) = 2 * a + 2 * (((0 : Nat) : Int) + 1) := by
      push_cast; ring
    rw [e1, e2]
  | succ k ih =>
    intro hi
    rw [Function.iterate_succ_apply', ih (by omega)]
    apply NextToken_eq_of_Load 1
    have h := Load_line_indent 0 (2 * (b - a - (k + 1))) c rest .Indent (2 * a)
      (2 * a + 2 * ((k : Int) + 1)) hc 2 (by omega) (by omega) (by push_cast; omega)
      (by intro j h1 h2; push_cast at h2; omega)
    rw [h]
    have e1 : 2 * (b - a - (k + 1)) - 2 = 2 * (b - a - (k + 1 + 1)) := by omega
    have e2 : (2 : Int) * a + 2 * ((k : Int) + 1) + ((2 : Nat) : Int)
        = 2 * a + 2 * (((k + 1 : Nat) : Int) + 1) := by
      push_cast; ring
    rw [e1, e2]

/-- From a line indented `2a` to a line indented `2b < 2a`: call `i + 1` of `NextToken`,
for `i < a - b`, returns a `Dedent` and has lowered `offset_` to `2a - 2(i + 1)`. -/
theorem dedent_chain (a b : Nat) (c : Char) (rest : List Char) (tok : Token)
    (hc : startsToken c = true) :
    ∀ i, i < a - b →
      NextToken^[i + 1] (atLineStart (List.replicate (2 * b) ' ' ++ c :: rest) tok (2 * a))
        = ⟨⟨c :: rest, false, false⟩, .Dedent, true, 2 * a - 2 * ((i : Int) + 1), 2 * b⟩ := by
  intro i
  induction i with
  | zero =>
    intro hi
    simp only [Function.iterate_succ, Function.iterate_zero, Function.comp_apply, id_eq]
    apply NextToken_eq_of_Load 1
    have h := Load_line_dedent 0 (2 * b) c rest tok (2 * a) 0 hc
      (by intro j h1 h2; push_cast at h2; omega) (by push_cast; omega)
    unfold atLineStart
    rw [h]
    have e1 : (2 : Int) * a - 2 = 2 * a - 2 * (((0 : Nat) : Int) + 1) := by push_cast; ring
    have e2 : (0 : Int) + ((2 * b : Nat) : Int) = 2 * b := by push_cast; ring
    rw [e1, e2]
  | succ k ih =>
    intro hi
    rw [Function.iterate_succ_apply', ih (by omega)]
    apply NextToken_eq_of_Load 1
    have h := Load_line_dedent 0 0 c rest .Dedent (2 * a - 2 * ((k : Int) + 1)) (2 * b) hc
      (by intro j h1 h2; simp at h2; omega) (by push_cast; omega)
    simp only [List.replicate_zero, List.nil_append] at h
    rw [h]
    have e1 : (2 : Int) * a - 2 * ((k : Int) + 1) - 2 = 2 * a - 2 * (((k + 1 : Nat) : Int) + 1) := by
      push_cast; ring
    have e2 : (2 : Int) * b + ((0 : Nat) : Int) = 2 * b := by simp
    rw [e1, e2]

theorem iterate_NextToken_skips (skipped : List (List Char))
    (hskip : ∀ line ∈ skipped, blankOrComment line = true ∧ '\n' ∉ line)
    (tail : List Char) (tok : Token) (o : Int) (n : Nat) :
    NextToken^[n + 1] (atLineStart (skippedText skipped ++ tail) tok o)
      = NextToken^[n + 1] (atLineStart tail tok o) := by
  rw [Function.iterate_succ_apply, Function.iterate_succ_apply,
    NextToken_skips skipped hskip tail tok o]

/-- After the `Indent`s or `Dedent`s of a line, the next call of `NextToken` goes straight
to the `switch` with the first character of the line. -/
theorem first_token_call (a b : Nat) (c : Char) (rest : List Char) (tok : Token)
    (hc : startsToken c = true) :
    switchChar (fun _ => none) c
        ⟨⟨rest, false, false⟩, if a < b then .Indent else if b < a then .Dedent else tok, true,
          2 * (min a b : Nat), 2 * b⟩
      = some (NextToken^[(b - a) + (a - b) + 1]
          (atLineStart (List.replicate (2 * b) ' ' ++ c :: rest) tok (2 * a))) := by
  rcases Nat.lt_trichotomy a b with hab | hab | hab
  · have hK : b - a + (a - b) = (b - a - 1) + 1 := by omega
    rw [hK, Function.iterate_succ_apply', indent_chain a b c rest tok hc (b - a - 1) (by omega)]
    obtain ⟨r, hr, -⟩ := switchChar_startsToken (Load 0) c
      ⟨⟨rest, false, false⟩, .Indent, true, 2 * a, 2 * a + 2 * (((b - a - 1 : Nat) : Int) + 1) +
        ((0 : Nat) : Int)⟩ hc
    have h := Load_line_switch 0 0 c rest .Indent (2 * a)
      (2 * a + 2 * (((b - a - 1 : Nat) : Int) + 1)) hc
      (by intro j h1 h2; simp at h2; omega) (by push_cast; omega)
    rw [hr] at h
    have e0 : 2 * (b - a - (b - a - 1 + 1)) = 0 := by omega
    rw [e0, NextToken_eq_of_Load 1 _ r h, ← hr,
      switchChar_startsToken_load (fun _ => none) (Load 0) c _ hc]
    have e1 : (2 : Int) * a + 2 * (((b - a - 1 : Nat) : Int) + 1) + ((0 : Nat) : Int) = 2 * b := by
      push_cast [Nat.sub_sub]; omega
    have e2 : ((min a b : Nat) : Int) = a := by simp [Nat.min_eq_left hab.le]
    simp only [hab, if_true, e1, e2]
  · subst hab
    have hK : a - a + (a - a) = 0 := by omega
    rw [hK]
    simp only [Function.iterate_succ, Function.iterate_zero, Function.comp_apply, id_eq]
    obtain ⟨r, hr, -⟩ := switchChar_startsToken (Load 0) c
      ⟨⟨rest, false, false⟩, tok, true, 2 * a, 0 + ((2 * a : Nat) : Int)⟩ hc
    have h := Load_line_switch 0 (2 * a) c rest tok (2 * a) 0 hc
      (by intro j h1 h2; push_cast at h2; omega) (by push_cast; omega)
    rw [hr] at h
    unfold atLineStart
    rw [NextToken_eq_of_Load 1 _ r h, ← hr,
      switchChar_startsToken_load (fun _ => none) (Load 0) c _ hc]
    have e1 : (0 : Int) + ((2 * a : Nat) : Int) = 2 * a := by push_cast; ring
    simp only [lt_self_iff_false, if_false, e1, min_self]
  · have hK : b - a + (a - b) = (a - b - 1) + 1 := by omega
    rw [hK, Function.iterate_succ_apply', dedent_chain a b c rest tok hc (a - b - 1) (by omega)]
    obtain ⟨r, hr, -⟩ := switchChar_startsToken (Load 0) c
      ⟨⟨rest, false, false⟩, .Dedent, true, 2 * a - 2 * (((a - b - 1 : Nat) : Int) + 1),
        2 * b + ((0 : Nat) : Int)⟩ hc
    have h := Load_line_switch 0 0 c rest .Dedent (2 * a - 2 * (((a - b - 1 : Nat) : Int) + 1))
      (2 * b) hc (by intro j h1 h2; simp at h2; omega) (by push_cast [Nat.sub_sub]; omega)
    simp only [List.replicate_zero, List.nil_append] at h
    rw [hr] at h
    rw [NextToken_eq_of_Load 1 _ r h, ← hr,
      switchChar_startsToken_load (fun _ => none) (Load 0) c _ hc]
    have e1 : (2 : Int) * a - 2 * (((a - b - 1 : Nat) : Int) + 1) = 2 * b := by
      push_cast [Nat.sub_sub]; omega
    have e2 : ((min a b : Nat) : Int) = b := by simp [Nat.min_eq_right hab.le]
    have e3 : (2 : Int) * b + ((0 : Nat) : Int) = 2 * b := by simp
    have hnab : ¬ a < b := by omega
    simp only [hnab, hab, if_true, if_false, e1, e2, e3]

/-- From the lexer that has returned the `Newline` of a line indented `2a` spaces
(`offset_ = 2a`, `current_offset_ = 0`, `new_line_` set). What is left to read are lines that are blank or
comments (`skipped`), then a line of `2b` spaces and a character `c` that starts a token.
Then the first `b - a` calls of `NextToken` return `Indent` if `b > a`, the first `a - b`
calls return `Dedent` if `a > b`, one token a call; the call after them (the first call if
`a = b`) runs the `switch` on `c` with all `2b` spaces counted, and returns a token that is
none of `Indent`, `Dedent`, `Newline`, `Eof`: the first token of the line. It leaves
`current_offset_ = 2b`, which `LoadNewline` makes the `offset_` of the next line. -/
theorem indent_dedent_from_line_start (a b : Nat) (skipped : List (List Char)) (c : Char)
    (rest : List Char) (tok : Token)
    (hskip : ∀ line ∈ skipped, blankOrComment line = true ∧ '\n' ∉ line)
    (hc : startsToken c = true) :
    (∀ i, i < b - a →
      (NextToken^[i + 1] (atLineStart
        (skippedText skipped ++ (List.replicate (2 * b) ' ' ++ c :: rest)) tok (2 * a))).token_
        = .Indent)
    ∧ (∀ i, i < a - b →
      (NextToken^[i + 1] (atLineStart
        (skippedText skipped ++ (List.replicate (2 * b) ' ' ++ c :: rest)) tok (2 * a))).token_
        = .Dedent)
    ∧ switchChar (fun _ => none) c
        ⟨⟨rest, false, false⟩, if a < b then .Indent else if b < a then .Dedent else tok, true,
          2 * (min a b : Nat), 2 * b⟩
      = some (NextToken^[(b - a) + (a - b) + 1] (atLineStart
          (skippedText skipped ++ (List.replicate (2 * b) ' ' ++ c :: rest)) tok (2 * a)))
    ∧ (NextToken^[(b - a) + (a - b) + 1] (atLineStart
        (skippedText skipped ++ (List.replicate (2 * b) ' ' ++ c :: rest)) tok
          (2 * a))).token_.isContent = true
    ∧ (NextToken^[(b - a) + (a - b) + 1] (atLineStart
        (skippedText skipped ++ (List.replicate (2 * b) ' ' ++ c :: rest)) tok
          (2 * a))).current_offset_ = 2 * b := by
  have hfirst := first_token_call a b c rest tok hc
  refine ⟨?_, ?_, ?_, ?_, ?_⟩
  · intro i hi
    rw [iterate_NextToken_skips skipped hskip, indent_chain a b c rest tok hc i hi]
  · intro i hi
    rw [iterate_NextToken_skips skipped hskip, dedent_chain a b c rest tok hc i hi]
  · rw [iterate_NextToken_skips skipped hskip]
    exact hfirst
  · rw [iterate_NextToken_skips skipped hskip]
    obtain ⟨r, hr, hcont, -⟩ := switchChar_startsToken (fun _ => none) c
      ⟨⟨rest, false, false⟩, if a < b then .Indent else if b < a then .Dedent else tok, true,
        2 * (min a b : Nat), 2 * b⟩ hc
    rw [hr] at hfirst
    injection hfirst with hfirst
    rw [← hfirst]
    exact hcont
  · rw [iterate_NextToken_skips skipped hskip]
    obtain ⟨r, hr, -, -, -, hco, -⟩ := switchChar_startsToken (fun _ => none) c
      ⟨⟨rest, false, false⟩, if a < b then .Indent else if b < a then .Dedent else tok, true,
        2 * (min a b : Nat), 2 * b⟩ hc
    rw [hr] at hfirst
    injection hfirst with hfirst
    rw [← hfirst]
    exact hco

theorem noDoubleNewline_cons_cons (a b : Token) (l : List Token) :
    noDoubleNewline (a :: b :: l)
      = (!(decide (a = .Newline) && decide (b = .Newline)) && noDoubleNewline (b :: l)) := by
  cases a <;> cases b <;> simp [noDoubleNewline]

/-! ### Leading spaces of a line and the balance of a list of tokens -/

theorem spaces_cons_unique (m m1 : Nat) (c c1 : Char) (rest rest1 : List Char)
    (hc : c ≠ ' ') (hc1 : c1 ≠ ' ')
    (h : List.replicate m ' ' ++ c :: rest = List.replicate m1 ' ' ++ c1 :: rest1) :
    m = m1 ∧ c = c1 ∧ rest = rest1 := by
  have hm : m = m1 := by
    have := congrArg leadingSpaces h
    rwa [leadingSpaces_spaces_cons m c rest hc, leadingSpaces_spaces_cons m1 c1 rest1 hc1] at this
  subst hm
  have := List.append_cancel_left h
  injection this with h1 h2
  exact ⟨rfl, h1, h2⟩

theorem spaces_ne_spaces_cons (m m1 : Nat) (c : Char) (rest : List Char) (hc : c ≠ ' ') :
    List.replicate m ' ' ≠ List.replicate m1 ' ' ++ c :: rest := by
  intro h
  have hmem : c ∈ List.replicate m ' ' := by rw [h]; simp
  exact hc (List.eq_of_mem_replicate hmem)

theorem evenLead_newline_cons (rest : List Char) : evenLead ('\n' :: rest) = true := by
  simp [evenLead, blankOrComment, leadingSpaces]

theorem evenLead_content (m : Nat) (c : Char) (rest : List Char)
    (hsp : c ≠ ' ') (hnl : c ≠ '\n') (hcm : c ≠ '#') :
    evenLead (List.replicate m ' ' ++ c :: rest) = decide (m % 2 = 0) := by
  unfold evenLead
  rw [blankOrComment_spaces_cons m c rest hsp, leadingSpaces_spaces_cons m c rest hsp]
  simp [hnl, hcm]

theorem startsToken_of_recognised (c : Char) (h : recognised c = true)
    (hsp : c ≠ ' ') (hnl : c ≠ '\n') (hcm : c ≠ '#') : startsToken c = true := by
  simp only [recognised, Bool.or_eq_true, decide_eq_true_eq] at h
  rcases h with ((h | h) | h) | h
  · exact absurd h hsp
  · exact absurd h hnl
  · exact absurd h hcm
  · exact h

theorem balance_eq_count (ts : List Token) :
    balance ts = (ts.count .Indent : Int) - (ts.count .Dedent : Int) := by
  induction ts with
  | nil => rfl
  | cons t rest ih =>
    cases t <;> simp [balance, ih, List.count_cons] <;> ring

theorem balance_content (t : Token) (h : t.isContent = true) : balance [t] = 0 := by
  cases t <;> simp [balance, Token.isContent] at h ⊢

theorem dropWhile_head_false (p : Char → Bool) (l : List Char) (x : Char) (xs : List Char)
    (h : l.dropWhile p = x :: xs) : p x = false := by
  induction l with
  | nil => simp at h
  | cons a rest ih =>
    rw [List.dropWhile_cons] at h
    split_ifs at h with hp
    · exact ih h
    · injection h with h1 h2
      rw [← h1]
      simpa using hp

theorem skipComment_good (s : IStream) (h : (skipComment s).good = true) :
    ∃ rest, (skipComment s).buf = '\n' :: rest := by
  unfold skipComment at h ⊢
  by_cases hg : s.good = true
  · simp only [hg, if_true] at h ⊢
    cases hd : List.dropWhile (fun c => decide (c ≠ '\n')) s.buf with
    | nil => rw [hd] at h; simp [IStream.good] at h
    | cons x xs =>
      have hx := dropWhile_head_false _ _ _ _ hd
      simp only [ne_eq, decide_not, Bool.not_eq_false', decide_eq_true_eq] at hx
      exact ⟨xs, by rw [hx]⟩
  · simp only [hg, Bool.false_eq_true, if_false] at h
    simp [IStream.good] at h

theorem IStream.putback_none_not_good (s : IStream) :
    (s.putback none).good = false := by
  unfold IStream.putback
  split_ifs with hf
  · simp [IStream.good, hf]
  · simp [IStream.good]

/-! ### The token stream reaches `Eof` -/

theorem scan_token_measure (s r : Lexer) (hsc : scan s = .token r) :
    r.input_.buf.length < s.input_.buf.length ∨
      (r.input_.buf.length = s.input_.buf.length ∧ r.new_line_ = s.new_line_ ∧
        (r.offset_ - r.current_offset_).toNat < (s.offset_ - s.current_offset_).toNat) := by
  have hn : s.new_line_ = true := by
    have := scan_spec s
    rw [hsc] at this
    exact this.1
  rcases IStream.shape s.input_ with hg | ⟨m, hi⟩ | ⟨m, c, rest, hsp, hi⟩
  · rw [scan_newline_not_good s hn hg] at hsc
    split_ifs at hsc with ho
    injection hsc with hsc
    subst hsc
    right
    refine ⟨rfl, rfl, ?_⟩
    show (s.offset_ - 2 - s.current_offset_).toNat < _
    omega
  · rw [scan_newline_spaces s m hn hi] at hsc
    split_ifs at hsc with ho
    injection hsc with hsc
    subst hsc
    cases m with
    | zero =>
      right
      refine ⟨by rw [hi]; rfl, rfl, ?_⟩
      show (s.offset_ - 2 - s.current_offset_).toNat < _
      omega
    | succ k => left; rw [hi]; simp
  · by_cases hb : c = '\n' ∨ c = '#'
    · rw [scan_newline_blank s m c rest hb hn hi] at hsc
      cases hsc
    · have hnl : c ≠ '\n' := fun h => hb (Or.inl h)
      have hcm : c ≠ '#' := fun h => hb (Or.inr h)
      cases m with
      | zero =>
        simp only [List.replicate_zero, List.nil_append] at hi
        rw [scan_newline_content_zero s c rest hsp hnl hcm hn hi] at hsc
        split_ifs at hsc with ho
        injection hsc with hsc
        subst hsc
        right
        refine ⟨by rw [hi], rfl, ?_⟩
        show (s.offset_ - 2 - s.current_offset_).toNat < _
        omega
      | succ k =>
        left
        rw [scan_newline_content_succ s k c rest hsp hnl hcm hn hi] at hsc
        rcases countSpacesBuf_spec s.offset_ k c rest hsp s.current_offset_ with
          ⟨j, hj, heq, -⟩ | ⟨heq, -⟩
        · rw [heq] at hsc
          simp only at hsc
          injection hsc with hsc
          subst hsc
          rw [hi]
          simp only [List.length_append, List.length_replicate, List.length_cons]
          omega
        · rw [heq] at hsc
          simp only at hsc
          split_ifs at hsc with ho
          injection hsc with hsc
          subst hsc
          rw [hi]
          simp [IStream.putback]

/-- A call of `NextToken` returns `Eof`, or reads input, or leaves a line, or lowers
`offset_` towards `current_offset_`. -/
theorem NextToken_measure (s : Lexer) :
    (NextToken s).token_ = .Eof ∨
    (NextToken s).input_.buf.length < s.input_.buf.length ∨
    ((NextToken s).input_.buf.length = s.input_.buf.length ∧
      s.new_line_ = false ∧ (NextToken s).new_line_ = true) ∨
    ((NextToken s).input_.buf.length = s.input_.buf.length ∧
      (NextToken s).new_line_ = s.new_line_ ∧
      ((NextToken s).offset_ - (NextToken s).current_offset_).toNat
        < (s.offset_ - s.current_offset_).toNat) := by
  have h := Load_NextToken s
  generalize NextToken s = r at h ⊢
  rw [Load] at h
  have hs := scan_spec s
  cases hsc : scan s with
  | token s1 =>
    rw [hsc] at h
    injection h with h
    subst h
    rcases scan_token_measure s s1 hsc with hlt | ⟨h1, h2, h3⟩
    · exact Or.inr (Or.inl hlt)
    · exact Or.inr (Or.inr (Or.inr ⟨h1, h2, h3⟩))
  | char c s1 =>
    rw [hsc] at h hs
    simp only at h
    cases c with
    | none =>
      simp only at hs
      obtain ⟨-, -, hnl, hsuf⟩ := hs
      rcases dispatch_cases _ none s1 r h with
        ⟨-, -, hn1, rfl⟩ | ⟨-, -, rfl⟩ | ⟨hc, -⟩ | ⟨hc, -⟩ | ⟨hc, -⟩ |
        ⟨ch, hc, -⟩ | ⟨ch, hc, -⟩ | ⟨hc, -⟩
      · have hle := hsuf.length_le
        rcases Nat.lt_or_eq_of_le hle with hlt | heq
        · right; left
          simpa [IStream.putback_none_buf] using hlt
        · right; right; left
          refine ⟨by simpa [IStream.putback_none_buf] using heq, ?_, rfl⟩
          rw [← hnl]; exact hn1
      · left; rfl
      all_goals cases hc
    | some ch0 =>
      simp only at hs
      obtain ⟨-, hcons, -, hnl⟩ := hs
      have hlen : s1.input_.buf.length < s.input_.buf.length := by
        have := hcons.length_le
        simp only [List.length_cons] at this
        omega
      rcases dispatch_cases _ (some ch0) s1 r h with
        ⟨-, -, hn1, rfl⟩ | ⟨-, -, rfl⟩ | ⟨-, -, rfl⟩ | ⟨-, -, hl⟩ | ⟨-, hl⟩ |
        ⟨ch, -, -, -, -, -, -, hsuf1⟩ | ⟨ch, -, -, -, rfl⟩ | ⟨-, rfl⟩
      · have hle : (s1.input_.putback (some ch0)).buf.length ≤ s.input_.buf.length := by
          rcases IStream.putback_buf s1.input_ (some ch0) with e | ⟨ch, hch, e⟩
          · rw [e]; exact hlen.le
          · have e1 : ch0 = ch := Option.some.inj hch
            rw [e, ← e1]
            exact hcons.length_le
        rcases Nat.lt_or_eq_of_le hle with hlt | heq
        · right; left
          exact hlt
        · right; right; left
          exact ⟨heq, by rw [← hnl]; exact hn1, rfl⟩
      · left; rfl
      all_goals right; left
      · exact hlen
      · exact lt_of_le_of_lt (Load_buf_suffix _ _ _ hl).length_le hlen
      · exact lt_of_le_of_lt
          ((Load_buf_suffix _ _ _ hl).trans (skipComment_suffix _)).length_le hlen
      · exact lt_of_le_of_lt hsuf1.length_le hlen
      · exact hlen
      · exact hlen

/-- From every lexer the token stream reaches `Eof`. -/
theorem tokenStream_reaches_Eof (s : Lexer) :
    ∃ n, (tokenStream n s).getLast? = some .Eof := by
  by_cases he : s.token_ = .Eof
  · exact ⟨1, by simp [tokenStream, he]⟩
  · by_cases he1 : (NextToken s).token_ = .Eof
    · exact ⟨2, by simp [tokenStream, he, he1]⟩
    · have hm := NextToken_measure s
      obtain ⟨n, hn⟩ := tokenStream_reaches_Eof (NextToken s)
      cases n with
      | zero => simp [tokenStream] at hn
      | succ k =>
        refine ⟨k + 2, ?_⟩
        have hsplit : tokenStream (k + 1) (NextToken s)
            = (NextToken s).token_ :: (tokenStream (k + 1) (NextToken s)).tail := by
          rw [tokenStream]; rfl
        rw [tokenStream]
        simp only [he, if_false]
        rw [hsplit, List.getLast?_cons_cons, ← hsplit]
        exact hn
termination_by (s.input_.buf.length, (if s.new_line_ then 0 else 1 : Nat),
  (s.offset_ - s.current_offset_).toNat)
decreasing_by
  rcases hm with h | h | ⟨h1, h2, h3⟩ | ⟨h1, h2, h3⟩
  · exact absurd h he1
  · exact Prod.Lex.left _ _ h
  · rw [h1]
    apply Prod.Lex.right
    rw [h2, h3]
    exact Prod.Lex.left _ _ (by decide)
  · rw [h1, h2]
    apply Prod.Lex.right
    exact Prod.Lex.right _ h3

/-! ## C18: escapes in string literals -/

theorem LoadStringBuf_closed (first : Char) (hq : first = '"' ∨ first = Char.ofNat 39)
    (rest : List Char) :
    ∀ (n : Nat) (body : List Char), body.length ≤ n → isLiteralBody first body = true →
      ∀ result : List Char,
        LoadStringBuf first (body ++ first :: rest) result
          = (result ++ decodeEscapes body, ⟨rest, false, false⟩) := by
  have hfb : first ≠ '\\' := by rcases hq with rfl | rfl <;> decide
  have h0 : ∀ result : List Char,
      LoadStringBuf first (first :: rest) result = (result, ⟨rest, false, false⟩) := by
    intro result
    cases rest with
    | nil => simp [LoadStringBuf]
    | cons d r => simp [LoadStringBuf]
  intro n
  induction n with
  | zero =>
    intro body hlen _ result
    have : body = [] := List.length_eq_zero.1 (Nat.le_zero.1 hlen)
    subst this
    simp [h0, decodeEscapes]
  | succ n ih =>
    intro body hlen hb result
    match body, hlen, hb with
    | [], _, _ => simp [h0, decodeEscapes]
    | [c], _, hb =>
      simp only [isLiteralBody, Bool.and_eq_true, bne_iff_ne, ne_eq] at hb
      simp only [List.singleton_append, LoadStringBuf, hb.1, hb.2, if_false, h0, decodeEscapes]
    | c :: d :: more, hlen, hb =>
      simp only [List.length_cons] at hlen
      by_cases hc : c = '\\'
      · subst hc
        have hne : '\\' ≠ first := fun h => hfb h.symm
        by_cases hd : d = '"' ∨ d = Char.ofNat 39
        · have hd4 : d = '"' ∨ d = Char.ofNat 39 ∨ d = 'n' ∨ d = 't' := by
            rcases hd with h | h
            · exact Or.inl h
            · exact Or.inr (Or.inl h)
          simp only [isLiteralBody, if_true, hd4] at hb
          simp only [List.cons_append, LoadStringBuf, hne, if_false, if_true, hd, decodeEscapes]
          simp only [List.append_eq]
          rw [ih more (by omega) hb]
          simp
        · by_cases hn : d = 'n'
          · subst hn
            simp only [isLiteralBody, if_true, or_true, true_or] at hb
            simp only [List.cons_append, LoadStringBuf, hne, if_false, if_true, hd,
              decodeEscapes]
            simp only [List.append_eq]
            rw [ih more (by omega) hb]
            simp
          · by_cases ht : d = 't'
            · subst ht
              simp only [isLiteralBody, if_true, or_true] at hb
              simp only [List.cons_append, LoadStringBuf, hne, if_false, if_true, hd, hn,
                decodeEscapes]
              simp only [List.append_eq]
              rw [ih more (by omega) hb]
              simp
            · have hd4 : ¬(d = '"' ∨ d = Char.ofNat 39 ∨ d = 'n' ∨ d = 't') := by
                rintro (h | h | h | h)
                · exact hd (Or.inl h)
                · exact hd (Or.inr h)
                · exact hn h
                · exact ht h
              simp only [isLiteralBody, if_true, hd4, if_false] at hb
              simp only [List.cons_append, LoadStringBuf, hne, if_false, if_true, hd, hn, ht,
                decodeEscapes]
              have := ih (d :: more) (by simp; omega) hb (result ++ ['\\'])
              simp only [List.cons_append] at this
              simp only [List.append_eq]
              rw [this]
              simp
      · simp only [isLiteralBody, hc, if_false, Bool.and_eq_true, bne_iff_ne, ne_eq] at hb
        simp only [List.cons_append, LoadStringBuf, hb.1, hc, if_false, decodeEscapes]
        have := ih (d :: more) (by simp; omega) hb.2 (result ++ [c])
        simp only [List.cons_append] at this
        simp only [List.append_eq]
        rw [this]
        simp

theorem switchChar_quote (load : Lexer → Option Lexer) (first : Char)
    (hq : first = '"' ∨ first = Char.ofNat 39) (s : Lexer) :
    switchChar load first s = some (LoadString first s) := by
  rcases hq with rfl | rfl <;> simp [switchChar, isOperatorChar]

/-- C18 fails: in the literal `'a\qb'` the backslash stands before a `q`; the payload of
the `String` token keeps the backslash and the `q` (four characters), where the
specification has the `q` only (three characters). -/
theorem C18_counterexample :
    (∀ nl : Bool,
      (Lexer.new [Char.ofNat 39, 'a', '\\', 'q', 'b', Char.ofNat 39] nl).token_
        = .String "a\\qb")
    ∧ String.mk (decodeAsSpecified ['a', '\\', 'q', 'b']) = "aqb" := by
  decide

/-- C18, amended: for every string literal that is closed by its opening quote character,
the payload of the `String` token is the body of the literal decoded from left to right by
`decodeEscapes`: `\"` and `\'` give the quote, `\n` a line feed and `\t` a tab; a backslash
that is followed by any other character is copied, and decoding goes on at that character,
which is not skipped (it is copied, or, if it is a backslash, it can start an escape); every
other character is copied. This holds of `LoadString` wherever it is called, and so of
`NextToken` for a literal inside a line after any number of spaces; the lexer is left right
after the closing quote. -/
theorem C18_string_payload (first : Char) (hq : first = '"' ∨ first = Char.ofNat 39)
    (body rest : List Char) (hb : isLiteralBody first body = true) (s : Lexer) :
    (s.input_ = ⟨body ++ first :: rest, false, false⟩ →
      LoadString first s
        = ⟨⟨rest, false, false⟩, .String (String.mk (decodeEscapes body)), false, s.offset_,
            s.current_offset_⟩)
    ∧ (∀ m : Nat, s.new_line_ = false →
      s.input_ = ⟨List.replicate m ' ' ++ first :: (body ++ first :: rest), false, false⟩ →
      NextToken s
        = ⟨⟨rest, false, false⟩, .String (String.mk (decodeEscapes body)), false, s.offset_,
            s.current_offset_⟩) := by
  have hload : ∀ t : Lexer, t.input_ = ⟨body ++ first :: rest, false, false⟩ →
      LoadString first t
        = ⟨⟨rest, false, false⟩, .String (String.mk (decodeEscapes body)), false, t.offset_,
            t.current_offset_⟩ := by
    intro t ht
    unfold LoadString
    rw [ht]
    simp only [IStream.good, Bool.not_false, Bool.and_self, if_true,
      LoadStringBuf_closed first hq rest body.length body (le_refl _) hb, List.nil_append]
  refine ⟨hload s, ?_⟩
  intro m hn hi
  have hsp : first ≠ ' ' := by rcases hq with rfl | rfl <;> decide
  apply NextToken_eq_of_Load 1
  have hne : first ≠ Char.ofNat 255 := by rcases hq with rfl | rfl <;> decide
  rw [Load, scan_inline_char s m first _ hsp hn hi]
  simp only [dispatch_some _ first _ hne]
  rw [switchChar_quote _ first hq, hload _ rfl]

theorem C18_string_payload_witness :
    NextToken ⟨⟨[' ', '"', 'a', '\\', 'q', '\\', 'n', '\\', '"', Char.ofNat 39, '"', ' ', 'x'],
        false, false⟩, .Print, false, 0, 0⟩
      = ⟨⟨[' ', 'x'], false, false⟩, .String "a\\q\n\"\x27", false, 0, 0⟩
    ∧ NextToken ⟨⟨['"', 'a', '\\', '\\', 'n', 'b', '"', '\n'], false, false⟩, .Print, false,
        0, 0⟩
      = ⟨⟨['\n'], false, false⟩, .String "a\\\nb", false, 0, 0⟩ :=
  ⟨(C18_string_payload '"' (Or.inl rfl) ['a', '\\', 'q', '\\', 'n', '\\', '"', Char.ofNat 39]
      [' ', 'x'] (by decide)
      ⟨⟨[' ', '"', 'a', '\\', 'q', '\\', 'n', '\\', '"', Char.ofNat 39, '"', ' ', 'x'],
          false, false⟩, .Print, false, 0, 0⟩).2 1 rfl rfl,
   (C18_string_payload '"' (Or.inl rfl) ['a', '\\', '\\', 'n', 'b'] ['\n'] (by decide)
      ⟨⟨['"', 'a', '\\', '\\', 'n', 'b', '"', '\n'], false, false⟩, .Print, false, 0,
        0⟩).2 0 rfl rfl⟩

/-! ## Reading a text does not depend on what follows its line -/

theorem Where.step_code (c : Char) (h1 : c ≠ '"') (h2 : c ≠ Char.ofNat 39) (h3 : c ≠ '#') :
    Where.step .code c = .code := by
  simp [Where.step, h1, h2, h3]

theorem foldl_step_code (p : Char → Bool)
    (hp : ∀ c, p c = true → c ≠ '"' ∧ c ≠ Char.ofNat 39 ∧ c ≠ '#') (l : List Char)
    (hl : ∀ c ∈ l, p c = true) : l.foldl Where.step .code = .code := by
  induction l with
  | nil => rfl
  | cons x xs ih =>
    obtain ⟨h1, h2, h3⟩ := hp x (hl x (List.mem_cons_self _ _))
    rw [List.foldl_cons, Where.step_code x h1 h2 h3]
    exact ih fun c hc => hl c (List.mem_cons_of_mem _ hc)

theorem foldl_step_spaces (m : Nat) : (List.replicate m ' ').foldl Where.step .code = .code :=
  foldl_step_code (fun c => c = ' ') (by intro c hc; simp at hc; subst hc; decide) _
    (by intro c hc; simp [(List.mem_replicate.1 hc).2])

theorem foldl_step_comment (l : List Char) :
    l.foldl Where.step .comment
      = (l.dropWhile fun c => decide (c ≠ '\n')).foldl Where.step .comment := by
  induction l with
  | nil => rfl
  | cons x xs ih =>
    by_cases hx : x = '\n'
    · subst hx; simp
    · simp only [List.foldl_cons, Where.step, hx, if_false, List.dropWhile_cons, ne_eq,
        not_false_eq_true, decide_True, if_true]
      exact ih

theorem isIdChar_plain (c : Char) (h : isIdChar c = true) :
    c ≠ '"' ∧ c ≠ Char.ofNat 39 ∧ c ≠ '#' := by
  refine ⟨?_, ?_, ?_⟩ <;> (intro e; subst e; exact absurd h (by decide))

theorem isDigit_plain (c : Char) (h : c.isDigit = true) :
    c ≠ '"' ∧ c ≠ Char.ofNat 39 ∧ c ≠ '#' := by
  refine ⟨?_, ?_, ?_⟩ <;> (intro e; subst e; exact absurd h (by decide))

theorem isOperatorChar_plain (c : Char) (h : isOperatorChar c = true) :
    c ≠ '"' ∧ c ≠ Char.ofNat 39 ∧ c ≠ '#' := by
  refine ⟨?_, ?_, ?_⟩ <;> (intro e; subst e; exact absurd h (by decide))

/-- A literal that the reading leaves has a body and a closing quote. -/
theorem string_closed_decomp (first : Char) (hq : first = '"' ∨ first = Char.ofNat 39) :
    ∀ (n : Nat) (text : List Char), text.length ≤ n →
      (text.foldl Where.step (.string first)).outsideString = true →
      ∃ body rest, text = body ++ first :: rest ∧ isLiteralBody first body = true ∧
        text.foldl Where.step (.string first) = rest.foldl Where.step .code := by
  have hfb : first ≠ '\\' := by rcases hq with rfl | rfl <;> decide
  have hesc : first = '"' ∨ first = Char.ofNat 39 ∨ first = 'n' ∨ first = 't' := by
    rcases hq with h | h
    · exact Or.inl h
    · exact Or.inr (Or.inl h)
  intro n
  induction n with
  | zero =>
    intro text hlen h
    have : text = [] := List.length_eq_zero.1 (Nat.le_zero.1 hlen)
    subst this
    simp [Where.outsideString] at h
  | succ n ih =>
    intro text hlen h
    match text, hlen, h with
    | [], _, h => simp [Where.outsideString] at h
    | c :: r, hlen, h =>
      simp only [List.length_cons] at hlen
      by_cases hc : c = first
      · subst hc
        exact ⟨[], r, rfl, rfl, by simp [Where.step]⟩
      by_cases hb : c = '\\'
      · subst hb
        have hst : Where.step (.string first) '\\' = .escape first := by
          simp [Where.step, hc]
        rw [List.foldl_cons, hst] at h ⊢
        match r, hlen, h with
        | [], _, h => simp [Where.outsideString] at h
        | d :: r1, hlen, h =>
          simp only [List.length_cons] at hlen
          by_cases hd : d = '"' ∨ d = Char.ofNat 39 ∨ d = 'n' ∨ d = 't'
          · have hst2 : Where.step (.escape first) d = .string first := by
              simp [Where.step, hd]
            rw [List.foldl_cons, hst2] at h ⊢
            obtain ⟨body, rest, hr, hbody, hw⟩ := ih r1 (by omega) h
            refine ⟨'\\' :: d :: body, rest, by rw [hr]; rfl, ?_, hw⟩
            simp [isLiteralBody, hd, hbody]
          · have hst2 : Where.step (.escape first) d = Where.step (.string first) d := by
              simp [Where.step, hd]
            rw [List.foldl_cons, hst2, ← List.foldl_cons] at h ⊢
            obtain ⟨body, rest, hr, hbody, hw⟩ := ih (d :: r1) (by simp; omega) h
            have hdf : d ≠ first := fun e => hd (e ▸ hesc)
            match body, hr, hbody with
            | [], hr, _ =>
              simp only [List.nil_append, List.cons.injEq] at hr
              exact absurd hr.1 hdf
            | b :: body1, hr, hbody =>
              simp only [List.cons_append, List.cons.injEq] at hr
              obtain ⟨rfl, hr⟩ := hr
              refine ⟨'\\' :: d :: body1, rest, by rw [hr]; rfl, ?_, hw⟩
              simp [isLiteralBody, hd, hbody]
      · have hst : Where.step (.string first) c = .string first := by
          simp [Where.step, hc, hb]
        rw [List.foldl_cons, hst] at h ⊢
        obtain ⟨body, rest, hr, hbody, hw⟩ := ih r (by omega) h
        refine ⟨c :: body, rest, by rw [hr]; rfl, ?_, hw⟩
        match body, hbody with
        | [], _ => simp [isLiteralBody, hc, hb]
        | b :: body1, hbody => simp [isLiteralBody, hc, hb, hbody]

theorem IStream.LeftWith.eq_of_cons {i : IStream} {c : Char} {text tail : List Char}
    (h : i.LeftWith (c :: text) tail) : i = ⟨c :: (text ++ tail), false, false⟩ := by
  obtain ⟨buf, e, f⟩ := i
  obtain ⟨hb, hg | ⟨hq, -⟩⟩ := h
  · simp only [IStream.good, Bool.and_eq_true, Bool.not_eq_true'] at hg
    simp only at hb
    rw [hb, hg.1, hg.2]
    rfl
  · exact absurd hq (by simp)

theorem IStream.LeftWith.of_good (text tail : List Char) :
    (⟨text ++ tail, false, false⟩ : IStream).LeftWith text tail :=
  ⟨rfl, Or.inl rfl⟩

theorem LineEnd.head_ne {tail : List Char} (h : LineEnd tail) (c : Char) (hc : c ≠ '\n') :
    tail.head? ≠ some c := by
  rcases h with rfl | ⟨more, rfl⟩
  · simp
  · simp only [List.head?_cons, ne_eq, Option.some.injEq]
    exact fun e => hc e.symm

theorem takeWhile_append_lineEnd (p : Char → Bool) (hp : p '\n' = false) (l tail : List Char)
    (hT : LineEnd tail) :
    (l ++ tail).takeWhile p = l.takeWhile p ∧
      (l ++ tail).dropWhile p = l.dropWhile p ++ tail := by
  induction l with
  | nil =>
    rcases hT with rfl | ⟨more, rfl⟩
    · simp
    · simp [hp]
  | cons x xs ih =>
    by_cases hx : p x = true
    · simp [List.takeWhile_cons, List.dropWhile_cons, hx, ih]
    · simp [List.takeWhile_cons, List.dropWhile_cons, hx]

theorem takeWhilePeek_LeftWith (p : Char → Bool) (hp : p '\n' = false) (peeks : Nat)
    (l tail : List Char) (hT : LineEnd tail) :
    ∃ i, takeWhilePeek p peeks ⟨l ++ tail, false, false⟩ = (l.takeWhile p, i) ∧
      i.LeftWith (l.dropWhile p) tail := by
  obtain ⟨h1, h2⟩ := takeWhile_append_lineEnd p hp l tail hT
  simp only [takeWhilePeek, IStream.good, Bool.not_false, Bool.and_self, if_true, h1, h2]
  refine ⟨_, rfl, ?_⟩
  split
  · next hd => exact ⟨hd.symm, Or.inr (List.append_eq_nil.1 hd)⟩
  · exact IStream.LeftWith.of_good _ _

theorem skipComment_LeftWith (l tail : List Char) (hT : LineEnd tail) :
    (skipComment ⟨l ++ tail, false, false⟩).LeftWith
      (l.dropWhile fun c => decide (c ≠ '\n')) tail := by
  obtain ⟨-, h2⟩ := takeWhile_append_lineEnd (fun c => decide (c ≠ '\n')) (by simp) l tail hT
  simp only [skipComment, IStream.good, Bool.not_false, Bool.and_self, if_true, h2]
  split
  · next hd => exact ⟨hd.symm, Or.inr (List.append_eq_nil.1 hd)⟩
  · exact IStream.LeftWith.of_good _ _

theorem peek_LeftWith (rest tail : List Char) (hT : LineEnd tail) :
    ∃ i, (⟨rest ++ tail, false, false⟩ : IStream).peek = ((rest ++ tail).head?, i) ∧
      i.LeftWith rest tail ∧
      ((rest ++ tail).head? = some '=' ↔ rest.head? = some '=') := by
  cases rest with
  | nil =>
    rcases hT with rfl | ⟨more, rfl⟩
    · exact ⟨⟨[], true, false⟩, rfl, ⟨rfl, Or.inr ⟨rfl, rfl⟩⟩, by simp⟩
    · exact ⟨⟨'\n' :: more, false, false⟩, rfl, ⟨rfl, Or.inl rfl⟩, by simp⟩
  | cons d r =>
    exact ⟨⟨d :: r ++ tail, false, false⟩, rfl, ⟨rfl, Or.inl rfl⟩, by simp⟩

/-- `LoadChar` reads the operator, and the `=` after it if there is one, whatever follows
the line. -/
theorem LoadChar_local (c : Char) (rest : List Char) :
    ∃ Q tok, Q.foldl Where.step .code = rest.foldl Where.step .code ∧
      Q.length ≤ rest.length ∧
      ∀ (tail : List Char) (t : Token) (nl : Bool) (o co : Int), LineEnd tail →
        ∃ i, LoadChar c ⟨⟨rest ++ tail, false, false⟩, t, nl, o, co⟩ = ⟨i, tok, false, o, co⟩ ∧
          i.LeftWith Q tail := by
  by_cases h1 : c = '!' ∨ c = '=' ∨ c = '>' ∨ c = '<'
  · by_cases h2 : rest.head? = some '='
    · obtain ⟨r, rfl⟩ : ∃ r, rest = '=' :: r := by
        cases rest with
        | nil => simp at h2
        | cons d r => simp at h2; exact ⟨r, by rw [h2]⟩
      refine ⟨r, if c = '!' then .NotEq else if c = '=' then .Eq
          else if c = '>' then .GreaterOrEq else .LessOrEq, by simp [Where.step], by simp, ?_⟩
      intro tail t nl o co _
      refine ⟨⟨r ++ tail, false, false⟩, ?_, IStream.LeftWith.of_good _ _⟩
      simp only [LoadChar, h1, if_true, IStream.peek, IStream.good, Bool.not_false,
        Bool.and_self, List.cons_append, IStream.get]
    · refine ⟨rest, .Char c, rfl, le_refl _, ?_⟩
      intro tail t nl o co hT
      obtain ⟨i, hp, hi, hiff⟩ := peek_LeftWith rest tail hT
      refine ⟨i, ?_, hi⟩
      have hne : ¬((rest ++ tail).head? = some '=') := fun e => h2 (hiff.1 e)
      simp only [LoadChar, h1, if_true, hp, hne, if_false]
  · refine ⟨rest, .Char c, rfl, le_refl _, ?_⟩
    intro tail t nl o co _
    exact ⟨_, by simp only [LoadChar, h1, if_false], IStream.LeftWith.of_good _ _⟩

/-- `LoadString` reads a literal that is closed in the line text, whatever follows. -/
theorem LoadString_local (first : Char) (hq : first = '"' ∨ first = Char.ofNat 39)
    (rest : List Char)
    (h : (rest.foldl Where.step (.string first)).outsideString = true) :
    ∃ Q tok, Q.foldl Where.step .code = rest.foldl Where.step (.string first) ∧
      Q.length ≤ rest.length ∧
      ∀ (tail : List Char) (t : Token) (nl : Bool) (o co : Int),
        ∃ i, LoadString first ⟨⟨rest ++ tail, false, false⟩, t, nl, o, co⟩
            = ⟨i, tok, false, o, co⟩ ∧ i.LeftWith Q tail := by
  obtain ⟨body, rest1, hr, hbody, hw⟩ := string_closed_decomp first hq _ rest (le_refl _) h
  refine ⟨rest1, .String (String.mk (decodeEscapes body)), hw.symm, ?_, ?_⟩
  · rw [hr]; simp; omega
  · intro tail t nl o co
    refine ⟨⟨rest1 ++ tail, false, false⟩, ?_, IStream.LeftWith.of_good _ _⟩
    have hb : rest ++ tail = body ++ first :: (rest1 ++ tail) := by rw [hr]; simp
    simp only [LoadString, IStream.good, Bool.not_false, Bool.and_self, if_true, hb,
      LoadStringBuf_closed first hq (rest1 ++ tail) body.length body (le_refl _) hbody,
      List.nil_append]

theorem dropWhile_foldl_code (p : Char → Bool)
    (hp : ∀ c, p c = true → c ≠ '"' ∧ c ≠ Char.ofNat 39 ∧ c ≠ '#') (l : List Char) :
    (l.dropWhile p).foldl Where.step .code = l.foldl Where.step .code := by
  conv_rhs => rw [← List.takeWhile_append_dropWhile p l]
  rw [List.foldl_append, foldl_step_code p hp _ fun c hc => (List.mem_takeWhile_imp hc)]

/-- `LoadId` reads the word, whatever follows the line. -/
theorem LoadId_local (c : Char) (rest : List Char) :
    ∃ tok, ∀ (tail : List Char) (t : Token) (nl : Bool) (o co : Int), LineEnd tail →
      ∃ i, LoadId ⟨(⟨rest ++ tail, false, false⟩ : IStream).putback (some c), t, nl, o, co⟩
          = ⟨i, tok, false, o, co⟩ ∧ i.LeftWith ((c :: rest).dropWhile isIdChar) tail := by
  refine ⟨match tokens.lookup (String.mk ((c :: rest).takeWhile isIdChar)) with
    | some t => t
    | none => .Id (String.mk ((c :: rest).takeWhile isIdChar)), ?_⟩
  intro tail t nl o co hT
  obtain ⟨i, hi, hl⟩ := takeWhilePeek_LeftWith isIdChar (by decide) 2 (c :: rest) tail hT
  refine ⟨i, ?_, hl⟩
  have hpb : (⟨rest ++ tail, false, false⟩ : IStream).putback (some c)
      = ⟨(c :: rest) ++ tail, false, false⟩ := rfl
  cases hlk : List.lookup (String.mk ((c :: rest).takeWhile isIdChar)) tokens <;>
    simp only [LoadId, GetString, hpb, hi, hlk]

/-- `LoadNumber` reads the digits, whatever follows the line. -/
theorem LoadNumber_local (c : Char) (rest : List Char) :
    ∃ tok, ∀ (tail : List Char) (t : Token) (nl : Bool) (o co : Int), LineEnd tail →
      ∃ i, LoadNumber ⟨(⟨rest ++ tail, false, false⟩ : IStream).putback (some c), t, nl, o, co⟩
          = ⟨i, tok, false, o, co⟩ ∧ i.LeftWith ((c :: rest).dropWhile Char.isDigit) tail := by
  refine ⟨.Number (atoi ((c :: rest).takeWhile Char.isDigit)), ?_⟩
  intro tail t nl o co hT
  obtain ⟨i, hi, hl⟩ := takeWhilePeek_LeftWith Char.isDigit (by decide) 1 (c :: rest) tail hT
  refine ⟨i, ?_, hl⟩
  have hpb : (⟨rest ++ tail, false, false⟩ : IStream).putback (some c)
      = ⟨(c :: rest) ++ tail, false, false⟩ := rfl
  simp only [LoadNumber, hpb, hi]

theorem countSpacesBuf_local (o : Int) (m : Nat) (c : Char) (hc : c ≠ ' ') :
    ∀ co : Int,
    (∃ k co1, k ≤ m ∧ ∀ rest, countSpacesBuf o co (List.replicate m ' ' ++ c :: rest)
        = .indent co1 ⟨List.replicate k ' ' ++ c :: rest, false, false⟩)
    ∨ (∃ co1, ∀ rest, countSpacesBuf o co (List.replicate m ' ' ++ c :: rest)
        = .done (some c) co1 ⟨rest, false, false⟩) := by
  induction m with
  | zero =>
    intro co
    by_cases h : co + 1 > o ∧ (co + 1) % 2 = 0
    · exact Or.inl ⟨0, co + 1, le_refl _, fun rest => by simp [countSpacesBuf, h]⟩
    · refine Or.inr ⟨co + 1, fun rest => ?_⟩
      simp only [List.replicate_zero, List.nil_append, countSpacesBuf, h, if_false, hc]
  | succ n ih =>
    intro co
    by_cases h : co + 1 > o ∧ (co + 1) % 2 = 0
    · exact Or.inl ⟨n + 1, co + 1, le_refl _, fun rest => by
        simp [List.replicate_succ, countSpacesBuf, h]⟩
    · have hstep : ∀ rest, countSpacesBuf o co (List.replicate (n + 1) ' ' ++ c :: rest)
          = countSpacesBuf o (co + 1) (List.replicate n ' ' ++ c :: rest) := by
        intro rest
        simp only [List.replicate_succ, List.cons_append, countSpacesBuf, h, if_false, if_true]
        rfl
      rcases ih (co + 1) with ⟨k, co1, hk, heq⟩ | ⟨co1, heq⟩
      · exact Or.inl ⟨k, co1, Nat.le_succ_of_le hk, fun rest => by rw [hstep, heq]⟩
      · exact Or.inr ⟨co1, fun rest => by rw [hstep, heq]⟩

/-- The first part of `Load` looks at the leading spaces of a line and at the character after
them only. -/
theorem scan_local (tok : Token) (nl : Bool) (o co : Int) (m : Nat) (c : Char)
    (hc : c ≠ ' ') :
    (∃ j tok1 o1 co1, j ≤ m ∧ ∀ rest,
        scan ⟨⟨List.replicate m ' ' ++ c :: rest, false, false⟩, tok, nl, o, co⟩
          = .token ⟨⟨List.replicate j ' ' ++ c :: rest, false, false⟩, tok1, true, o1, co1⟩)
    ∨ (∃ co1, (c = '\n' ∨ c = '#' → co1 = co) ∧ ∀ rest,
        scan ⟨⟨List.replicate m ' ' ++ c :: rest, false, false⟩, tok, nl, o, co⟩
          = .char (some c) ⟨⟨rest, false, false⟩, tok, nl, o, co1⟩) := by
  cases nl with
  | false =>
    exact Or.inr ⟨co, fun _ => rfl, fun rest => scan_inline_char _ m c rest hc rfl rfl⟩
  | true =>
    by_cases hb : c = '\n' ∨ c = '#'
    · exact Or.inr ⟨co, fun _ => rfl, fun rest => scan_newline_blank _ m c rest hb rfl rfl⟩
    · have hnl : c ≠ '\n' := fun h => hb (Or.inl h)
      have hcm : c ≠ '#' := fun h => hb (Or.inr h)
      cases m with
      | zero =>
        by_cases ho : o > co
        · refine Or.inl ⟨0, .Dedent, o - 2, co, le_refl _, fun rest => ?_⟩
          rw [scan_newline_content_zero _ c rest hc hnl hcm rfl rfl]
          simp [ho]
        · refine Or.inr ⟨co, fun _ => rfl, fun rest => ?_⟩
          rw [scan_newline_content_zero _ c rest hc hnl hcm rfl rfl]
          simp [ho]
      | succ k =>
        rcases countSpacesBuf_local o k c hc co with ⟨j, co1, hj, heq⟩ | ⟨co1, heq⟩
        · refine Or.inl ⟨j, .Indent, o, co1, Nat.le_succ_of_le hj, fun rest => ?_⟩
          rw [scan_newline_content_succ _ k c rest hc hnl hcm rfl rfl]
          simp only [heq]
        · by_cases ho : co1 < o
          · refine Or.inl ⟨0, .Dedent, o - 2, co1, Nat.zero_le _, fun rest => ?_⟩
            rw [scan_newline_content_succ _ k c rest hc hnl hcm rfl rfl]
            simp [heq, ho, IStream.putback]
          · refine Or.inr ⟨co1, fun h => absurd h hb, fun rest => ?_⟩
            rw [scan_newline_content_succ _ k c rest hc hnl hcm rfl rfl]
            simp [heq, ho]

theorem NextToken_of_scan_token (s r : Lexer) (h : scan s = .token r) : NextToken s = r :=
  NextToken_eq_of_Load 1 s r (by rw [Load, h])

theorem NextToken_of_dispatch (s s1 r : Lexer) (c : Option Char) (h : scan s = .char c s1)
    (hd : dispatch (Load 0) c s1 = some r) : NextToken s = r :=
  NextToken_eq_of_Load 1 s r (by rw [Load, h]; exact hd)

theorem NextToken_of_reload (s s1 s2 : Lexer) (c : Option Char) (h : scan s = .char c s1)
    (hd : ∀ load, dispatch load c s1 = load s2) : NextToken s = NextToken s2 :=
  NextToken_eq_of_Load (s2.input_.buf.length + 1 + 1) s _
    (by rw [Load, h]; simp only; rw [hd]; exact Load_NextToken s2)

theorem IStream.LeftWith.eq_of_ne_nil {i : IStream} {text tail : List Char}
    (h : i.LeftWith text tail) (hne : text ≠ []) : i = ⟨text ++ tail, false, false⟩ := by
  cases text with
  | nil => exact absurd rfl hne
  | cons c r => exact h.eq_of_cons

theorem whereAfter_spaces_cons (m : Nat) (c : Char) (rest : List Char) :
    whereAfter (List.replicate m ' ' ++ c :: rest) = rest.foldl Where.step (Where.step .code c) := by
  rw [whereAfter, List.foldl_append, foldl_step_spaces, List.foldl_cons]

theorem comment_rest_outside (l : List Char)
    (h : (l.foldl Where.step .comment).outsideString = true) :
    (whereAfter (l.dropWhile fun c => decide (c ≠ '\n'))).outsideString = true := by
  rw [foldl_step_comment] at h
  cases hd : l.dropWhile fun c => decide (c ≠ '\n') with
  | nil => rfl
  | cons x xs =>
    rw [hd] at h
    have hx := dropWhile_head_false _ l x xs hd
    simp only [ne_eq, decide_not, Bool.not_eq_false', decide_eq_true_eq] at hx
    subst hx
    simpa [whereAfter, Where.step] using h

/-- One call of `NextToken` on a text followed by the end of the input or by a line feed
and anything: either it ends inside the text, in a state and with a text left that do not
depend on what follows; or it comes to the end of the text with only spaces left to read,
its members unchanged. -/
theorem NextToken_local : ∀ (n : Nat) (Q : List Char), Q.length ≤ n →
    (whereAfter Q).outsideString = true → ∀ (tok : Token) (nl : Bool) (o co : Int),
    (∃ Q1 tok1 nl1 o1 co1, (whereAfter Q1).outsideString = true ∧
      ∀ (tail : List Char) (i : IStream), LineEnd tail → i.LeftWith Q tail →
        ∃ i1, i1.LeftWith Q1 tail ∧
          NextToken ⟨i, tok, nl, o, co⟩ = ⟨i1, tok1, nl1, o1, co1⟩)
    ∨ (∃ m, ∀ (tail : List Char) (i : IStream), LineEnd tail → i.LeftWith Q tail →
        ∃ i1, i1.LeftWith (List.replicate m ' ') tail ∧
          NextToken ⟨i, tok, nl, o, co⟩ = NextToken ⟨i1, tok, nl, o, co⟩) := by
  intro n
  induction n with
  | zero =>
    intro Q hlen _ tok nl o co
    have : Q = [] := List.length_eq_zero.1 (Nat.le_zero.1 hlen)
    subst this
    exact Or.inr ⟨0, fun tail i _ hi => ⟨i, hi, rfl⟩⟩
  | succ n ih =>
    intro Q hlen hcl tok nl o co
    obtain ⟨m, hQ | ⟨c, rest, hc, hQ⟩⟩ := spaces_decomp Q
    · subst hQ
      exact Or.inr ⟨m, fun tail i _ hi => ⟨i, hi, rfl⟩⟩
    subst hQ
    rw [whereAfter_spaces_cons] at hcl
    have hrest : rest.length ≤ n := by
      simp only [List.length_append, List.length_replicate, List.length_cons] at hlen
      omega
    have hi0 : ∀ (tail : List Char) (i : IStream),
        i.LeftWith (List.replicate m ' ' ++ c :: rest) tail →
        i = ⟨List.replicate m ' ' ++ c :: (rest ++ tail), false, false⟩ := by
      intro tail i hi
      rw [hi.eq_of_ne_nil (by simp)]
      simp
    -- what the inner call of `Load` gives is what this call gives
    have hreload : ∀ (Q2 : List Char), Q2.length ≤ n → (whereAfter Q2).outsideString = true →
        (∀ (tail : List Char) (i : IStream), LineEnd tail →
          i.LeftWith (List.replicate m ' ' ++ c :: rest) tail →
          ∃ i2, i2.LeftWith Q2 tail ∧
            NextToken ⟨i, tok, nl, o, co⟩ = NextToken ⟨i2, tok, nl, o, co⟩) →
        (∃ Q1 tok1 nl1 o1 co1, (whereAfter Q1).outsideString = true ∧
          ∀ (tail : List Char) (i : IStream), LineEnd tail →
            i.LeftWith (List.replicate m ' ' ++ c :: rest) tail →
            ∃ i1, i1.LeftWith Q1 tail ∧
              NextToken ⟨i, tok, nl, o, co⟩ = ⟨i1, tok1, nl1, o1, co1⟩)
        ∨ (∃ m1, ∀ (tail : List Char) (i : IStream), LineEnd tail →
            i.LeftWith (List.replicate m ' ' ++ c :: rest) tail →
            ∃ i1, i1.LeftWith (List.replicate m1 ' ') tail ∧
              NextToken ⟨i, tok, nl, o, co⟩ = NextToken ⟨i1, tok, nl, o, co⟩) := by
      intro Q2 hlen2 hcl2 hstep
      rcases ih Q2 hlen2 hcl2 tok nl o co with ⟨Q1, tok1, nl1, o1, co1, hcl1, h1⟩ | ⟨m1, h1⟩
      · refine Or.inl ⟨Q1, tok1, nl1, o1, co1, hcl1, fun tail i hT hi => ?_⟩
        obtain ⟨i2, hi2, he⟩ := hstep tail i hT hi
        obtain ⟨i1, hi1, he1⟩ := h1 tail i2 hT hi2
        exact ⟨i1, hi1, he.trans he1⟩
      · refine Or.inr ⟨m1, fun tail i hT hi => ?_⟩
        obtain ⟨i2, hi2, he⟩ := hstep tail i hT hi
        obtain ⟨i1, hi1, he1⟩ := h1 tail i2 hT hi2
        exact ⟨i1, hi1, he.trans he1⟩
    rcases scan_local tok nl o co m c hc with ⟨j, tok1, o1, co1, hj, hsc⟩ | ⟨co1, hco, hsc⟩
    · -- an `Indent` or a `Dedent`
      refine Or.inl ⟨List.replicate j ' ' ++ c :: rest, tok1, true, o1, co1, ?_, ?_⟩
      · rw [whereAfter_spaces_cons]; exact hcl
      · intro tail i _ hi
        refine ⟨⟨List.replicate j ' ' ++ c :: (rest ++ tail), false, false⟩, ?_, ?_⟩
        · have := IStream.LeftWith.of_good (List.replicate j ' ' ++ c :: rest) tail
          simpa using this
        · rw [hi0 tail i hi]
          exact NextToken_of_scan_token _ _ (hsc _)
    · -- the character `c` goes to the `switch`
      by_cases hnl : c = '\n'
      · subst hnl
        have hco1 : co1 = co := hco (Or.inl rfl)
        subst hco1
        have hcl1 : (whereAfter rest).outsideString = true := by
          simpa [whereAfter, Where.step] using hcl
        cases nl with
        | false =>
          refine Or.inl ⟨rest, .Newline, true, co1, 0, hcl1, fun tail i _ hi => ?_⟩
          refine ⟨⟨rest ++ tail, false, false⟩, IStream.LeftWith.of_good _ _, ?_⟩
          rw [hi0 tail i hi]
          exact NextToken_of_dispatch _ _ _ _ (hsc _) (by
            simp [dispatch_newline, LoadNewline])
        | true =>
          refine hreload rest hrest hcl1 fun tail i _ hi => ?_
          refine ⟨⟨rest ++ tail, false, false⟩, IStream.LeftWith.of_good _ _, ?_⟩
          rw [hi0 tail i hi]
          exact NextToken_of_reload _ _ _ _ (hsc _) (fun load => by
            simp [dispatch_newline, LoadNewline])
      by_cases hff : c = Char.ofNat 255
      · -- the byte 0xFF is taken for the end of the input
        subst hff
        have hcl1 : (whereAfter rest).outsideString = true := by
          simpa [whereAfter, Where.step] using hcl
        by_cases hsyn : tok ≠ .Newline ∧ nl = false
        · refine Or.inl ⟨Char.ofNat 255 :: rest, .Newline, true, co1, 0, ?_,
            fun tail i _ hi => ?_⟩
          · simpa [whereAfter, Where.step] using hcl
          · refine ⟨⟨Char.ofNat 255 :: (rest ++ tail), false, false⟩,
              IStream.LeftWith.of_good (Char.ofNat 255 :: rest) tail, ?_⟩
            rw [hi0 tail i hi]
            exact NextToken_of_dispatch _ _ _ _ (hsc _) (by
              rw [dispatch_eofByte]
              simp [hsyn.1, hsyn.2, LoadNewline, IStream.putback])
        · refine Or.inl ⟨rest, .Eof, nl, o, co1, hcl1, fun tail i _ hi => ?_⟩
          refine ⟨⟨rest ++ tail, false, false⟩, IStream.LeftWith.of_good _ _, ?_⟩
          rw [hi0 tail i hi]
          exact NextToken_of_dispatch _ _ _ _ (hsc _) (by
            rw [dispatch_eofByte]
            simp only [hsyn, if_false])
      by_cases hop : isOperatorChar c = true
      · obtain ⟨Q1, tok1, hw, -, h1⟩ := LoadChar_local c rest
        have hst : Where.step .code c = .code := by
          obtain ⟨a, b, d⟩ := isOperatorChar_plain c hop
          exact Where.step_code c a b d
        refine Or.inl ⟨Q1, tok1, false, o, co1, ?_, fun tail i hT hi => ?_⟩
        · rw [whereAfter, hw, ← hst]; exact hcl
        · obtain ⟨i1, he, hl⟩ := h1 tail tok nl o co1 hT
          refine ⟨i1, hl, ?_⟩
          rw [hi0 tail i hi]
          exact NextToken_of_dispatch _ _ _ _ (hsc _) (by
            simp only [dispatch_some _ c _ hff, switchChar, hnl, hop, if_false, if_true, he])
      by_cases hqu : c = Char.ofNat 39 ∨ c = '"'
      · have hq : c = '"' ∨ c = Char.ofNat 39 := hqu.symm
        have hst : Where.step .code c = .string c := by simp [Where.step, hq]
        rw [hst] at hcl
        obtain ⟨Q1, tok1, hw, -, h1⟩ := LoadString_local c hq rest hcl
        refine Or.inl ⟨Q1, tok1, false, o, co1, ?_, fun tail i _ hi => ?_⟩
        · rw [whereAfter, hw]; exact hcl
        · obtain ⟨i1, he, hl⟩ := h1 tail tok nl o co1
          refine ⟨i1, hl, ?_⟩
          rw [hi0 tail i hi]
          exact NextToken_of_dispatch _ _ _ _ (hsc _) (by
            simp only [dispatch_some _ c _ hff, switchChar, hnl, hop, hqu, if_false, if_true,
              he, Bool.false_eq_true])
      by_cases hcm : c = '#'
      · subst hcm
        have hco1 : co1 = co := hco (Or.inr rfl)
        subst hco1
        have hst : Where.step .code '#' = .comment := by simp [Where.step]
        rw [hst] at hcl
        refine hreload (rest.dropWhile fun c => decide (c ≠ '\n'))
          ((List.dropWhile_suffix _).length_le.trans hrest) (comment_rest_outside rest hcl)
          fun tail i hT hi => ?_
        refine ⟨skipComment ⟨rest ++ tail, false, false⟩, skipComment_LeftWith rest tail hT, ?_⟩
        rw [hi0 tail i hi]
        exact NextToken_of_reload _ _ _ _ (hsc _) (fun load => by
          simp [dispatch_comment, LoadComment])
      have hplain : Where.step .code c = .code := by
        have h1 : c ≠ '"' := fun e => hqu (Or.inr e)
        have h2 : c ≠ Char.ofNat 39 := fun e => hqu (Or.inl e)
        exact Where.step_code c h1 h2 hcm
      rw [hplain] at hcl
      by_cases hid : isIdStart c = true
      · obtain ⟨tok1, h1⟩ := LoadId_local c rest
        refine Or.inl ⟨(c :: rest).dropWhile isIdChar, tok1, false, o, co1, ?_,
          fun tail i hT hi => ?_⟩
        · rw [whereAfter, dropWhile_foldl_code isIdChar isIdChar_plain, List.foldl_cons, hplain]
          exact hcl
        · obtain ⟨i1, he, hl⟩ := h1 tail tok nl o co1 hT
          refine ⟨i1, hl, ?_⟩
          rw [hi0 tail i hi]
          exact NextToken_of_dispatch _ _ _ _ (hsc _) (by
            simp only [dispatch_some _ c _ hff, switchChar, hnl, hop, hqu, hcm, hid, if_false,
              if_true, he, Bool.false_eq_true])
      by_cases hdg : c.isDigit = true
      · obtain ⟨tok1, h1⟩ := LoadNumber_local c rest
        refine Or.inl ⟨(c :: rest).dropWhile Char.isDigit, tok1, false, o, co1, ?_,
          fun tail i hT hi => ?_⟩
        · rw [whereAfter, dropWhile_foldl_code Char.isDigit isDigit_plain, List.foldl_cons,
            hplain]
          exact hcl
        · obtain ⟨i1, he, hl⟩ := h1 tail tok nl o co1 hT
          refine ⟨i1, hl, ?_⟩
          rw [hi0 tail i hi]
          exact NextToken_of_dispatch _ _ _ _ (hsc _) (by
            simp only [dispatch_some _ c _ hff, switchChar, hnl, hop, hqu, hcm, hid, hdg,
              if_false, if_true, he, Bool.false_eq_true])
      · refine Or.inl ⟨rest, tok, nl, o, co1, hcl, fun tail i _ hi => ?_⟩
        refine ⟨⟨rest ++ tail, false, false⟩, IStream.LeftWith.of_good _ _, ?_⟩
        rw [hi0 tail i hi]
        exact NextToken_of_dispatch _ _ _ _ (hsc _) (by
          simp only [dispatch_some _ c _ hff, switchChar, hnl, hop, hqu, hcm, hid, hdg,
            if_false, Bool.false_eq_true])

/-! ## The end of the input -/

/-- Inside a line `Load` returns another token of the line or a `Newline`, and the current
token stays one of the line as long as the lexer stays inside it. -/
theorem Load_InLine (fuel : Nat) (s r : Lexer) (hI : s.InLine) (h : Load fuel s = some r) :
    r.InLine ∧ (s.new_line_ = false → r.token_ = .Newline ∨ r.token_.isContent = true) := by
  refine Load_induction Lexer.InLine
    (fun s r => r.InLine ∧ (s.new_line_ = false → r.token_ = .Newline ∨ r.token_.isContent = true))
    ?_ ?_ fuel s r hI h
  · intro s r _ hsc
    have hs := scan_spec s
    rw [hsc] at hs
    obtain ⟨hn, hnl, -, -⟩ := hs
    exact ⟨fun e => by rw [hnl] at e; exact absurd e (by decide),
      fun e => by rw [hn] at e; exact absurd e (by decide)⟩
  · intro s c s1 hI hsc load r hload hd
    have hs := scan_spec s
    rw [hsc] at hs
    have htok : s1.token_ = s.token_ := by
      cases c with
      | none => exact hs.2.1
      | some ch => exact hs.2.2.1
    have hnl : s1.new_line_ = s.new_line_ := by
      cases c with
      | none => exact hs.2.2.1
      | some ch => exact hs.2.2.2
    have hI1 : s1.InLine := fun e => by rw [htok]; exact hI (hnl ▸ e)
    rcases dispatch_cases load c s1 r hd with
      ⟨-, -, -, rfl⟩ | ⟨-, hno, rfl⟩ | ⟨-, -, rfl⟩ | ⟨-, hn1, hl⟩ | ⟨-, hl⟩ |
      ⟨ch, -, -, hcont, -, -, -, -⟩ | ⟨ch, -, -, -, rfl⟩ | ⟨-, rfl⟩
    · exact ⟨fun e => absurd e (by simp), fun _ => Or.inl rfl⟩
    · have hn1 : s1.new_line_ = true := by
        by_contra hf
        have hf : s1.new_line_ = false := by simpa using hf
        have hc := hI1 hf
        exact hno ⟨fun e => by rw [e] at hc; exact absurd hc (by decide), hf⟩
      exact ⟨fun e => by rw [hn1] at e; exact absurd e (by decide),
        fun e => by rw [← hnl, hn1] at e; exact absurd e (by decide)⟩
    · exact ⟨fun e => absurd e (by simp), fun _ => Or.inl rfl⟩
    · exact ⟨(hload _ _ hI1 hl).1, fun e => by rw [← hnl, hn1] at e; exact absurd e (by decide)⟩
    · have := hload { s1 with input_ := skipComment s1.input_ } r hI1 hl
      exact ⟨this.1, fun e => this.2 (hnl.trans e)⟩
    · exact ⟨fun _ => hcont, fun _ => Or.inr hcont⟩
    · exact ⟨hI1, fun e => Or.inr (by rw [htok]; exact hI e)⟩
    · exact ⟨hI1, fun e => Or.inr (by rw [htok]; exact hI e)⟩

theorem NextToken_InLine (s : Lexer) (hI : s.InLine) :
    (NextToken s).InLine ∧
      (s.new_line_ = false →
        (NextToken s).token_ = .Newline ∨ (NextToken s).token_.isContent = true) :=
  Load_InLine _ s _ hI (Load_NextToken s)

/-- With nothing but spaces left to read, `NextToken` returns a `Newline` inside a line, and
on a new line a `Dedent` as long as `offset_` is above `current_offset_`, and then `Eof`. -/
theorem NextToken_at_end (i : IStream) (hi : i.AtEnd) (tok : Token) (nl : Bool) (o co : Int)
    (hI : nl = false → tok.isContent = true) :
    ∃ i1, i1.AtEnd ∧
      NextToken ⟨i, tok, nl, o, co⟩
        = ⟨i1, if nl = false then .Newline else if o > co then .Dedent else .Eof, true,
            if nl = false then co else if o > co then o - 2 else o,
            if nl = false then 0 else co⟩ := by
  have hend : ∀ b : List Char, b = [] → (⟨b, false, true⟩ : IStream).AtEnd :=
    fun b hb => Or.inr ⟨rfl, hb⟩
  cases nl with
  | false =>
    have htok : tok ≠ .Newline := by
      intro e
      have := hI rfl
      rw [e] at this
      exact absurd this (by decide)
    rcases hi with ⟨m, rfl⟩ | ⟨hg, hb⟩
    · refine ⟨⟨[], false, true⟩, hend _ rfl, ?_⟩
      exact NextToken_of_dispatch _ _ _ _ (scan_inline_spaces _ m rfl rfl) (by
        simp [dispatch_none, htok, LoadNewline, IStream.putback])
    · refine ⟨⟨i.buf, false, true⟩, hend _ hb, ?_⟩
      exact NextToken_of_dispatch _ _ _ _ (scan_inline_not_good _ rfl hg) (by
        simp [dispatch_none, htok, LoadNewline, IStream.putback])
  | true =>
    rcases hi with ⟨m, rfl⟩ | ⟨hg, hb⟩
    · refine ⟨⟨[], false, true⟩, hend _ rfl, ?_⟩
      by_cases ho : o > co
      · simp only [ho, if_true, Bool.true_eq_false, if_false]
        exact NextToken_of_scan_token _ _ (by
          rw [scan_newline_spaces _ m rfl rfl]; simp [ho])
      · simp only [ho, if_false, Bool.true_eq_false]
        exact NextToken_of_dispatch _ ⟨⟨[], false, true⟩, tok, true, o, co⟩ _ none
          (by rw [scan_newline_spaces _ m rfl rfl]; simp only [ho, if_false]) (by
            simp [dispatch])
    · refine ⟨⟨i.buf, false, true⟩, hend _ hb, ?_⟩
      by_cases ho : o > co
      · simp only [ho, if_true, Bool.true_eq_false, if_false]
        exact NextToken_of_scan_token _ _ (by
          rw [scan_newline_not_good _ rfl hg]; simp [ho])
      · simp only [ho, if_false, Bool.true_eq_false]
        exact NextToken_of_dispatch _ ⟨⟨i.buf, false, true⟩, tok, true, o, co⟩ _ none
          (by rw [scan_newline_not_good _ rfl hg]; simp only [ho, if_false]) (by
            simp [dispatch])

theorem IStream.LeftWith.atEnd {i : IStream} {m : Nat}
    (h : i.LeftWith (List.replicate m ' ') []) : i.AtEnd := by
  obtain ⟨buf, e, f⟩ := i
  obtain ⟨hb, hg | ⟨hq, -⟩⟩ := h
  · left
    simp only [IStream.good, Bool.and_eq_true, Bool.not_eq_true'] at hg
    simp only [List.append_nil] at hb
    exact ⟨m, by rw [hb, hg.1, hg.2]⟩
  · simp only [List.append_nil] at hb
    by_cases hg : (IStream.mk buf e f).good = true
    · left
      simp only [IStream.good, Bool.and_eq_true, Bool.not_eq_true'] at hg
      exact ⟨0, by rw [hb, hq, hg.1, hg.2]; rfl⟩
    · right
      exact ⟨by simpa using hg, by rw [hb, hq]⟩

/-- At the end of the text, the end of the input and a line feed give the same token. -/
theorem NextToken_end_or_newline (m : Nat) (iA iB : IStream)
    (hA : iA.LeftWith (List.replicate m ' ') []) (hB : iB.LeftWith (List.replicate m ' ') ['\n'])
    (tok : Token) (nl : Bool) (o co : Int) (hI : nl = false → tok.isContent = true) :
    ∃ iA1 iB1 tok1 o1 co1, iA1.AtEnd ∧ iB1.AtEnd ∧
      NextToken ⟨iA, tok, nl, o, co⟩ = ⟨iA1, tok1, true, o1, co1⟩ ∧
      NextToken ⟨iB, tok, nl, o, co⟩ = ⟨iB1, tok1, true, o1, co1⟩ := by
  obtain ⟨iA1, hA1, heA⟩ := NextToken_at_end iA hA.atEnd tok nl o co hI
  have hB0 : iB = ⟨List.replicate m ' ' ++ '\n' :: [], false, false⟩ := by
    obtain ⟨buf, e, f⟩ := iB
    obtain ⟨hb, hg | ⟨-, hq⟩⟩ := hB
    · simp only [IStream.good, Bool.and_eq_true, Bool.not_eq_true'] at hg
      simp only at hb
      rw [hb, hg.1, hg.2]
    · exact absurd hq (by simp)
  subst hB0
  cases nl with
  | false =>
    refine ⟨iA1, ⟨[], false, false⟩, _, _, _, hA1, Or.inl ⟨0, rfl⟩, heA, ?_⟩
    exact NextToken_of_dispatch _ _ _ _ (scan_inline_char _ m '\n' [] (by decide) rfl rfl) (by
      simp [dispatch_newline, LoadNewline])
  | true =>
    obtain ⟨iB1, hB1, heB⟩ :=
      NextToken_at_end ⟨[], false, false⟩ (Or.inl ⟨0, rfl⟩) tok true o co hI
    refine ⟨iA1, iB1, _, _, _, hA1, hB1, heA, ?_⟩
    rw [← heB]
    exact NextToken_of_reload _ _ _ _
      (scan_newline_blank _ m '\n' [] (Or.inl rfl) rfl rfl) (fun load => by
        simp [dispatch_newline, LoadNewline])

/-! ## C20: the `Newline` at the end of the input -/

theorem LineEnd.nil : LineEnd [] := Or.inl rfl

theorem LineEnd.newline (more : List Char) : LineEnd ('\n' :: more) := Or.inr ⟨more, rfl⟩

/-- One call of `NextToken` on a text that is followed by the end of the input, and on the
same text followed by one line feed: the two lexers stay the same but for their streams. -/
theorem NextToken_end_step (tok : Token) (nl : Bool) (o co : Int) (iA iB : IStream)
    (hI : nl = false → tok.isContent = true)
    (h : (∃ Q, (whereAfter Q).outsideString = true ∧ iA.LeftWith Q [] ∧ iB.LeftWith Q ['\n'])
      ∨ (iA.AtEnd ∧ iB.AtEnd)) :
    ∃ iA1 iB1 tok1 nl1 o1 co1,
      NextToken ⟨iA, tok, nl, o, co⟩ = ⟨iA1, tok1, nl1, o1, co1⟩ ∧
      NextToken ⟨iB, tok, nl, o, co⟩ = ⟨iB1, tok1, nl1, o1, co1⟩ ∧
      (nl1 = false → tok1.isContent = true) ∧
      ((∃ Q, (whereAfter Q).outsideString = true ∧ iA1.LeftWith Q [] ∧ iB1.LeftWith Q ['\n'])
        ∨ (iA1.AtEnd ∧ iB1.AtEnd)) := by
  have hline := (NextToken_InLine ⟨iA, tok, nl, o, co⟩ hI).1
  rcases h with ⟨Q, hcl, hA, hB⟩ | ⟨hA, hB⟩
  · rcases NextToken_local Q.length Q (le_refl _) hcl tok nl o co with
      ⟨Q1, tok1, nl1, o1, co1, hcl1, h1⟩ | ⟨m, h1⟩
    · obtain ⟨iA1, hA1, heA⟩ := h1 [] iA LineEnd.nil hA
      obtain ⟨iB1, hB1, heB⟩ := h1 ['\n'] iB (LineEnd.newline []) hB
      rw [heA] at hline
      exact ⟨iA1, iB1, tok1, nl1, o1, co1, heA, heB, hline, Or.inl ⟨Q1, hcl1, hA1, hB1⟩⟩
    · obtain ⟨iA1, hA1, heA⟩ := h1 [] iA LineEnd.nil hA
      obtain ⟨iB1, hB1, heB⟩ := h1 ['\n'] iB (LineEnd.newline []) hB
      obtain ⟨iA2, iB2, tok2, o2, co2, hA2, hB2, heA2, heB2⟩ :=
        NextToken_end_or_newline m iA1 iB1 hA1 hB1 tok nl o co hI
      exact ⟨iA2, iB2, tok2, true, o2, co2, heA.trans heA2, heB.trans heB2,
        fun e => absurd e (by decide), Or.inr ⟨hA2, hB2⟩⟩
  · obtain ⟨iA1, hA1, heA⟩ := NextToken_at_end iA hA tok nl o co hI
    obtain ⟨iB1, hB1, heB⟩ := NextToken_at_end iB hB tok nl o co hI
    exact ⟨iA1, iB1, _, true, _, _, heA, heB, fun e => absurd e (by decide), Or.inr ⟨hA1, hB1⟩⟩

theorem tokenStream_end_or_newline : ∀ (n : Nat) (tok : Token) (nl : Bool) (o co : Int)
    (iA iB : IStream), (nl = false → tok.isContent = true) →
    ((∃ Q, (whereAfter Q).outsideString = true ∧ iA.LeftWith Q [] ∧ iB.LeftWith Q ['\n'])
      ∨ (iA.AtEnd ∧ iB.AtEnd)) →
    tokenStream n ⟨iA, tok, nl, o, co⟩ = tokenStream n ⟨iB, tok, nl, o, co⟩
  | 0, _, _, _, _, _, _, _, _ => rfl
  | n + 1, tok, nl, o, co, iA, iB, hI, h => by
    obtain ⟨iA1, iB1, tok1, nl1, o1, co1, heA, heB, hI1, h1⟩ :=
      NextToken_end_step tok nl o co iA iB hI h
    rw [tokenStream, tokenStream, heA, heB,
      tokenStream_end_or_newline n tok1 nl1 o1 co1 iA1 iB1 hI1 h1]

theorem iterate_InLine (s : Lexer) (hI : s.InLine) : ∀ k : Nat, (NextToken^[k] s).InLine
  | 0 => hI
  | k + 1 => by
    rw [Function.iterate_succ_apply']
    exact (NextToken_InLine _ (iterate_InLine s hI k)).1

theorem members_InLine (input : List Char) (new_line : Bool) :
    (Lexer.members input new_line).InLine := fun _ => rfl

/-- Once nothing but spaces is left to read and the lexer is on a new line, it returns
`Dedent`s and `Eof` only. -/
theorem iterate_at_end : ∀ (j : Nat) (s : Lexer), s.new_line_ = true → s.input_.AtEnd →
    (NextToken^[j + 1] s).token_ = .Dedent ∨ (NextToken^[j + 1] s).token_ = .Eof
  | j, ⟨i, tok, nl, o, co⟩, hn, hi => by
    simp only at hn hi
    subst hn
    obtain ⟨i1, hi1, he⟩ := NextToken_at_end i hi tok true o co (fun e => absurd e (by decide))
    cases j with
    | zero =>
      rw [Function.iterate_one, he]
      by_cases ho : o > co <;> simp [ho]
    | succ j =>
      rw [Function.iterate_succ_apply, he]
      exact iterate_at_end j _ rfl hi1

/-- C20: for every input that does not end inside a string literal, the token stream is the
same as for that input with one line feed appended. While the lexer is inside a line (the
line has a token), the next token is another token of the line or a `Newline`, never a
`Dedent` or `Eof`; and when it is inside a line with nothing but spaces left to read, the
next token is a `Newline` (the synthesized one) and all tokens after it are `Dedent`s and
`Eof`. -/
theorem C20_newline_at_end_of_input (input : List Char) (new_line : Bool)
    (hout : (whereAfter input).outsideString = true) :
    (∀ n : Nat, tokenStream n (Lexer.new input new_line)
        = tokenStream n (Lexer.new (input ++ ['\n']) new_line))
    ∧ (∀ k : Nat, (NextToken^[k] (Lexer.new input new_line)).new_line_ = false →
        (NextToken^[k + 1] (Lexer.new input new_line)).token_ = .Newline ∨
          (NextToken^[k + 1] (Lexer.new input new_line)).token_.isContent = true)
    ∧ (∀ k : Nat, (NextToken^[k] (Lexer.new input new_line)).new_line_ = false →
        (NextToken^[k] (Lexer.new input new_line)).input_.AtEnd →
        (NextToken^[k + 1] (Lexer.new input new_line)).token_ = .Newline ∧
          ∀ j : Nat, (NextToken^[k + 1 + (j + 1)] (Lexer.new input new_line)).token_ = .Dedent ∨
            (NextToken^[k + 1 + (j + 1)] (Lexer.new input new_line)).token_ = .Eof) := by
  have hnew : (Lexer.new input new_line).InLine :=
    (NextToken_InLine _ (members_InLine input new_line)).1
  refine ⟨fun n => ?_, fun k hk => ?_, fun k hk hend => ?_⟩
  · obtain ⟨iA1, iB1, tok1, nl1, o1, co1, heA, heB, hI1, h1⟩ :=
      NextToken_end_step (.Number 0) new_line 0 0 ⟨input, false, false⟩
        ⟨input ++ ['\n'], false, false⟩ (fun _ => rfl)
        (Or.inl ⟨input, hout,
          by simpa using IStream.LeftWith.of_good input [],
          IStream.LeftWith.of_good input ['\n']⟩)
    have eA : Lexer.new input new_line = ⟨iA1, tok1, nl1, o1, co1⟩ := heA
    have eB : Lexer.new (input ++ ['\n']) new_line = ⟨iB1, tok1, nl1, o1, co1⟩ := heB
    rw [eA, eB]
    exact tokenStream_end_or_newline n tok1 nl1 o1 co1 iA1 iB1 hI1 h1
  · rw [Function.iterate_succ_apply']
    exact (NextToken_InLine _ (iterate_InLine _ hnew k)).2 hk
  · have hIk := iterate_InLine _ hnew k
    have h1 : NextToken^[k + 1] (Lexer.new input new_line)
        = NextToken (NextToken^[k] (Lexer.new input new_line)) :=
      Function.iterate_succ_apply' _ _ _
    have h2 : ∀ j : Nat, NextToken^[k + 1 + (j + 1)] (Lexer.new input new_line)
        = NextToken^[j + 1] (NextToken^[k + 1] (Lexer.new input new_line)) := by
      intro j
      rw [Nat.add_comm (k + 1) (j + 1), Function.iterate_add_apply]
    rcases hs : NextToken^[k] (Lexer.new input new_line) with ⟨i, tok, nl, o, co⟩
    rw [hs] at hk hend hIk h1
    simp only at hk hend
    subst hk
    obtain ⟨i1, hi1, he⟩ := NextToken_at_end i hend tok false o co hIk
    simp only [if_true] at he
    refine ⟨by rw [h1, he], fun j => ?_⟩
    rw [h2, h1, he]
    exact iterate_at_end j _ rfl hi1

theorem C20_newline_at_end_of_input_witness :
    tokenStream 20 (Lexer.new ['i', 'f', ' ', 'x', ':', '\n', ' ', ' ', 'y', ' ', '=', ' ',
        Char.ofNat 39, 'a', '#', Char.ofNat 39, ' ', '#', ' ', '"'] true)
      = tokenStream 20 (Lexer.new (['i', 'f', ' ', 'x', ':', '\n', ' ', ' ', 'y', ' ', '=', ' ',
        Char.ofNat 39, 'a', '#', Char.ofNat 39, ' ', '#', ' ', '"'] ++ ['\n']) true)
    ∧ ((NextToken^[7 + 1] (Lexer.new ['i', 'f', ' ', 'x', ':', '\n', ' ', ' ', 'y', ' ', '=',
          ' ', Char.ofNat 39, 'a', '#', Char.ofNat 39, ' ', '#', ' ', '"'] true)).token_
        = .Newline ∨
      (NextToken^[7 + 1] (Lexer.new ['i', 'f', ' ', 'x', ':', '\n', ' ', ' ', 'y', ' ', '=',
          ' ', Char.ofNat 39, 'a', '#', Char.ofNat 39, ' ', '#', ' ', '"'] true)).token_.isContent
        = true)
    ∧ (NextToken^[0 + 1] (Lexer.new ['x', ' ', ' '] false)).token_ = .Newline :=
  ⟨(C20_newline_at_end_of_input ['i', 'f', ' ', 'x', ':', '\n', ' ', ' ', 'y', ' ', '=', ' ',
      Char.ofNat 39, 'a', '#', Char.ofNat 39, ' ', '#', ' ', '"'] true (by decide)).1 20,
   (C20_newline_at_end_of_input ['i', 'f', ' ', 'x', ':', '\n', ' ', ' ', 'y', ' ', '=', ' ',
      Char.ofNat 39, 'a', '#', Char.ofNat 39, ' ', '#', ' ', '"'] true (by decide)).2.1 7
      (by decide),
   ((C20_newline_at_end_of_input ['x', ' ', ' '] false (by decide)).2.2 0 (by decide)
      (Or.inl ⟨2, by decide⟩)).1⟩

/-! ## C19: blank lines and comment lines -/

theorem IStream.LeftWith.eq_of_tail_ne_nil {i : IStream} {text tail : List Char}
    (h : i.LeftWith text tail) (hne : tail ≠ []) : i = ⟨text ++ tail, false, false⟩ := by
  obtain ⟨buf, e, f⟩ := i
  obtain ⟨hb, hg | ⟨-, hq⟩⟩ := h
  · simp only [IStream.good, Bool.and_eq_true, Bool.not_eq_true'] at hg
    simp only at hb
    rw [hb, hg.1, hg.2]
  · exact absurd hq hne

/-- On a new line `NextToken` passes over a blank line or a comment line: it returns what
it returns without the line. -/
theorem NextToken_skip_line (line after : List Char)
    (hline : blankOrComment line = true ∧ '\n' ∉ line) (tok : Token) (o co : Int) :
    NextToken ⟨⟨line ++ '\n' :: after, false, false⟩, tok, true, o, co⟩
      = NextToken ⟨⟨after, false, false⟩, tok, true, o, co⟩ := by
  have hblank : ∀ m : Nat,
      NextToken ⟨⟨List.replicate m ' ' ++ '\n' :: after, false, false⟩, tok, true, o, co⟩
        = NextToken ⟨⟨after, false, false⟩, tok, true, o, co⟩ := fun m =>
    NextToken_of_reload _ _ _ _ (scan_newline_blank _ m '\n' after (Or.inl rfl) rfl rfl)
      (fun load => by simp [dispatch_newline, LoadNewline])
  rcases skipped_line_shape line hline.1 hline.2 with ⟨m, rfl⟩ | ⟨m, cm, rfl, hcm⟩
  · exact hblank m
  · rw [List.append_assoc, List.cons_append]
    refine (NextToken_of_reload _ _ ⟨⟨'\n' :: after, false, false⟩, tok, true, o, co⟩ _
      (scan_newline_blank _ m '#' (cm ++ '\n' :: after) (Or.inr rfl) rfl rfl)
      (fun load => by
        simp [dispatch_comment, LoadComment,
          skipComment_to_newline cm after hcm])).trans ?_
    exact hblank 0

/-- One call of `NextToken` on a source and on the same source with a blank line or a
comment line inserted after one of its line feeds: the two lexers stay the same but for
their streams, and are the same once the inserted line is read. -/
theorem NextToken_line_step (line after : List Char)
    (hline : blankOrComment line = true ∧ '\n' ∉ line)
    (tok : Token) (nl : Bool) (o co : Int) (iA iB : IStream)
    (h : iA = iB
      ∨ (nl = true ∧ iA = ⟨line ++ '\n' :: after, false, false⟩ ∧ iB = ⟨after, false, false⟩)
      ∨ (∃ Q, (whereAfter Q).outsideString = true ∧
          iA.LeftWith Q ('\n' :: (line ++ '\n' :: after)) ∧ iB.LeftWith Q ('\n' :: after))) :
    ∃ iA1 iB1 tok1 nl1 o1 co1,
      NextToken ⟨iA, tok, nl, o, co⟩ = ⟨iA1, tok1, nl1, o1, co1⟩ ∧
      NextToken ⟨iB, tok, nl, o, co⟩ = ⟨iB1, tok1, nl1, o1, co1⟩ ∧
      (iA1 = iB1
        ∨ (nl1 = true ∧ iA1 = ⟨line ++ '\n' :: after, false, false⟩ ∧
            iB1 = ⟨after, false, false⟩)
        ∨ (∃ Q, (whereAfter Q).outsideString = true ∧
            iA1.LeftWith Q ('\n' :: (line ++ '\n' :: after)) ∧
            iB1.LeftWith Q ('\n' :: after))) := by
  have hsame : ∀ sA sB : Lexer, NextToken sA = NextToken sB →
      ∃ iA1 iB1 tok1 nl1 o1 co1,
        NextToken sA = ⟨iA1, tok1, nl1, o1, co1⟩ ∧ NextToken sB = ⟨iB1, tok1, nl1, o1, co1⟩ ∧
        (iA1 = iB1
          ∨ (nl1 = true ∧ iA1 = ⟨line ++ '\n' :: after, false, false⟩ ∧
              iB1 = ⟨after, false, false⟩)
          ∨ (∃ Q, (whereAfter Q).outsideString = true ∧
              iA1.LeftWith Q ('\n' :: (line ++ '\n' :: after)) ∧
              iB1.LeftWith Q ('\n' :: after))) := by
    intro sA sB he
    rcases hr : NextToken sB with ⟨i, t, n, a, b⟩
    exact ⟨i, i, t, n, a, b, he.trans hr, rfl, Or.inl rfl⟩
  rcases h with rfl | ⟨rfl, rfl, rfl⟩ | ⟨Q, hcl, hA, hB⟩
  · exact hsame _ _ rfl
  · exact hsame _ _ (NextToken_skip_line line after hline tok o co)
  · rcases NextToken_local Q.length Q (le_refl _) hcl tok nl o co with
      ⟨Q1, tok1, nl1, o1, co1, hcl1, h1⟩ | ⟨m, h1⟩
    · obtain ⟨iA1, hA1, heA⟩ := h1 _ iA (LineEnd.newline _) hA
      obtain ⟨iB1, hB1, heB⟩ := h1 _ iB (LineEnd.newline _) hB
      exact ⟨iA1, iB1, tok1, nl1, o1, co1, heA, heB, Or.inr (Or.inr ⟨Q1, hcl1, hA1, hB1⟩)⟩
    · obtain ⟨iA1, hA1, heA⟩ := h1 _ iA (LineEnd.newline _) hA
      obtain ⟨iB1, hB1, heB⟩ := h1 _ iB (LineEnd.newline _) hB
      have eA := hA1.eq_of_tail_ne_nil (by simp)
      have eB := hB1.eq_of_tail_ne_nil (by simp)
      subst eA eB
      cases nl with
      | false =>
        refine ⟨⟨line ++ '\n' :: after, false, false⟩, ⟨after, false, false⟩, .Newline, true,
          co, 0, heA.trans ?_, heB.trans ?_, Or.inr (Or.inl ⟨rfl, rfl, rfl⟩)⟩
        · exact NextToken_of_dispatch _ _ _ _
            (scan_inline_char _ m '\n' _ (by decide) rfl rfl) (by
              simp [dispatch_newline, LoadNewline])
        · exact NextToken_of_dispatch _ _ _ _
            (scan_inline_char _ m '\n' _ (by decide) rfl rfl) (by
              simp [dispatch_newline, LoadNewline])
      | true =>
        apply hsame
        rw [heA, heB]
        have e1 : NextToken ⟨⟨List.replicate m ' ' ++ '\n' :: (line ++ '\n' :: after), false,
              false⟩, tok, true, o, co⟩
            = NextToken ⟨⟨line ++ '\n' :: after, false, false⟩, tok, true, o, co⟩ :=
          NextToken_of_reload _ _ _ _
            (scan_newline_blank _ m '\n' _ (Or.inl rfl) rfl rfl) (fun load => by
              simp [dispatch_newline, LoadNewline])
        have e2 : NextToken ⟨⟨List.replicate m ' ' ++ '\n' :: after, false, false⟩, tok, true,
              o, co⟩
            = NextToken ⟨⟨after, false, false⟩, tok, true, o, co⟩ :=
          NextToken_of_reload _ _ _ _
            (scan_newline_blank _ m '\n' _ (Or.inl rfl) rfl rfl) (fun load => by
              simp [dispatch_newline, LoadNewline])
        rw [e1, e2]
        exact NextToken_skip_line line after hline tok o co

theorem tokenStream_line_inserted (line after : List Char)
    (hline : blankOrComment line = true ∧ '\n' ∉ line) :
    ∀ (n : Nat) (tok : Token) (nl : Bool) (o co : Int) (iA iB : IStream),
    (iA = iB
      ∨ (nl = true ∧ iA = ⟨line ++ '\n' :: after, false, false⟩ ∧ iB = ⟨after, false, false⟩)
      ∨ (∃ Q, (whereAfter Q).outsideString = true ∧
          iA.LeftWith Q ('\n' :: (line ++ '\n' :: after)) ∧ iB.LeftWith Q ('\n' :: after))) →
    tokenStream n ⟨iA, tok, nl, o, co⟩ = tokenStream n ⟨iB, tok, nl, o, co⟩
  | 0, _, _, _, _, _, _, _ => rfl
  | n + 1, tok, nl, o, co, iA, iB, h => by
    obtain ⟨iA1, iB1, tok1, nl1, o1, co1, heA, heB, h1⟩ :=
      NextToken_line_step line after hline tok nl o co iA iB h
    rw [tokenStream, tokenStream, heA, heB,
      tokenStream_line_inserted line after hline n tok1 nl1 o1 co1 iA1 iB1 h1]

/-- C19: for every source and every line feed of it that is not inside a string literal,
a blank line (spaces only) or a comment line (spaces, `#`, any characters but a line feed)
inserted right after that line feed leaves the token stream as it is: the same tokens in
the same order, the same `Indent`s and `Dedent`s, and no `Newline` more. The text before the
line feed is `before`, the text after it is `after`. -/
theorem C19_inserted_line_transparent (before line after : List Char) (new_line : Bool)
    (hout : (whereAfter before).outsideString = true)
    (hline : blankOrComment line = true ∧ '\n' ∉ line) (n : Nat) :
    tokenStream n (Lexer.new (before ++ '\n' :: (line ++ '\n' :: after)) new_line)
      = tokenStream n (Lexer.new (before ++ '\n' :: after) new_line) := by
  obtain ⟨iA1, iB1, tok1, nl1, o1, co1, heA, heB, h1⟩ :=
    NextToken_line_step line after hline (.Number 0) new_line 0 0
      ⟨before ++ '\n' :: (line ++ '\n' :: after), false, false⟩
      ⟨before ++ '\n' :: after, false, false⟩
      (Or.inr (Or.inr ⟨before, hout, IStream.LeftWith.of_good _ _,
        IStream.LeftWith.of_good _ _⟩))
  have eA : Lexer.new (before ++ '\n' :: (line ++ '\n' :: after)) new_line
      = ⟨iA1, tok1, nl1, o1, co1⟩ := heA
  have eB : Lexer.new (before ++ '\n' :: after) new_line = ⟨iB1, tok1, nl1, o1, co1⟩ := heB
  rw [eA, eB]
  exact tokenStream_line_inserted line after hline n tok1 nl1 o1 co1 iA1 iB1 h1

theorem C19_inserted_line_transparent_witness :
    tokenStream 30 (Lexer.new (['i', 'f', ' ', 'x', ':', ' ', '#', Char.ofNat 39] ++ '\n' ::
        ([' ', ' ', ' ', '#', ' ', '"', 'n', 'o'] ++ '\n' ::
          [' ', ' ', 'y', ' ', '=', ' ', '1', '\n', 'z'])) false)
      = tokenStream 30 (Lexer.new (['i', 'f', ' ', 'x', ':', ' ', '#', Char.ofNat 39] ++ '\n' ::
          [' ', ' ', 'y', ' ', '=', ' ', '1', '\n', 'z']) false) :=
  C19_inserted_line_transparent ['i', 'f', ' ', 'x', ':', ' ', '#', Char.ofNat 39]
    [' ', ' ', ' ', '#', ' ', '"', 'n', 'o'] [' ', ' ', 'y', ' ', '=', ' ', '1', '\n', 'z'] false
    (by decide) (by decide) 30

/-! ## The first part of `Load` at the end of the input -/

theorem codeChars_outsideStrings (p : Char → Bool) (hp : p '\n' = true) :
    Where.OutsideStrings (fun w c _ => !w.isCode || p c) :=
  ⟨fun _ _ _ => rfl, fun _ _ _ => rfl, fun _ _ => by simp [hp]⟩

theorem codeLinesEven_outsideStrings :
    Where.OutsideStrings (fun w c rest => !(w.outsideString && c == '\n') || evenLead rest) :=
  ⟨fun _ _ _ => rfl, fun _ _ _ => rfl, fun _ h => by simpa [Where.outsideString] using h⟩

theorem Where.all_cons (P : Where → Char → List Char → Bool) (w : Where) (c : Char)
    (rest : List Char) :
    Where.all P w (c :: rest) = (P w c rest && Where.all P (w.step c) rest) := rfl

theorem Where.all_tail {P : Where → Char → List Char → Bool} {w : Where} {c : Char}
    {rest : List Char} (h : Where.all P w (c :: rest) = true) :
    Where.all P (w.step c) rest = true := by
  rw [Where.all_cons, Bool.and_eq_true] at h
  exact h.2

theorem Where.all_head {P : Where → Char → List Char → Bool} {w : Where} {c : Char}
    {rest : List Char} (h : Where.all P w (c :: rest) = true) : P w c rest = true := by
  rw [Where.all_cons, Bool.and_eq_true] at h
  exact h.1

theorem Where.all_spaces {P : Where → Char → List Char → Bool} (m : Nat) (l : List Char)
    (h : Where.all P .code (List.replicate m ' ' ++ l) = true) : Where.all P .code l = true := by
  induction m with
  | zero => simpa using h
  | succ n ih =>
    apply ih
    have := Where.all_tail h
    rwa [Where.step_code ' ' (by decide) (by decide) (by decide)] at this

theorem Where.all_dropWhile {P : Where → Char → List Char → Bool} (q : Char → Bool)
    (hq : ∀ c, q c = true → c ≠ '"' ∧ c ≠ Char.ofNat 39 ∧ c ≠ '#') (l : List Char)
    (h : Where.all P .code l = true) : Where.all P .code (l.dropWhile q) = true := by
  induction l with
  | nil => exact h
  | cons x xs ih =>
    rw [List.dropWhile_cons]
    split_ifs with hx
    · apply ih
      obtain ⟨h1, h2, h3⟩ := hq x hx
      have := Where.all_tail h
      rwa [Where.step_code x h1 h2 h3] at this
    · exact h

theorem Where.all_comment {P : Where → Char → List Char → Bool} (hP : Where.OutsideStrings P)
    (l : List Char) (h : Where.all P .comment l = true) :
    Where.all P .code (l.dropWhile fun c => decide (c ≠ '\n')) = true := by
  induction l with
  | nil => rfl
  | cons x xs ih =>
    rw [List.dropWhile_cons]
    by_cases hx : x = '\n'
    · subst hx
      simp only [ne_eq, not_true_eq_false, decide_False, Bool.false_eq_true, if_false]
      rw [Where.all_cons, Bool.and_eq_true] at h ⊢
      exact ⟨hP.comment _ h.1, h.2⟩
    · simp only [ne_eq, hx, not_false_eq_true, decide_True, if_true]
      apply ih
      have := Where.all_tail h
      simpa [Where.step, hx] using this

theorem skipComment_all {P : Where → Char → List Char → Bool} (hP : Where.OutsideStrings P)
    (rest : List Char) (h : Where.all P .comment rest = true) :
    Where.all P .code (skipComment ⟨rest, false, false⟩).buf = true := by
  have h1 := Where.all_comment hP rest h
  simp only [skipComment, IStream.good, Bool.not_false, Bool.and_self, if_true]
  split
  · rfl
  · exact h1

theorem LoadStringBuf_all {P : Where → Char → List Char → Bool} (hP : Where.OutsideStrings P)
    (first : Char) :
    ∀ (n : Nat) (buf result : List Char), buf.length ≤ n →
      Where.all P (.string first) buf = true →
      Where.all P .code (LoadStringBuf first buf result).2.buf = true := by
  intro n
  induction n with
  | zero =>
    intro buf result h _
    have : buf = [] := List.length_eq_zero.1 (Nat.le_zero.1 h)
    subst this
    rfl
  | succ k ih =>
    intro buf result h hall
    match buf, h, hall with
    | [], _, _ => rfl
    | [c], _, _ =>
      simp only [LoadStringBuf]
      split_ifs <;> rfl
    | c :: d :: rest, h, hall =>
      simp only [List.length_cons] at h
      simp only [LoadStringBuf]
      have ht := Where.all_tail hall
      by_cases hc : c = first
      · simp only [hc, if_true]
        simpa [Where.step, hc] using ht
      · simp only [hc, if_false]
        by_cases hb : c = '\\'
        · subst hb
          have hst : Where.step (.string first) '\\' = .escape first := by
            simp [Where.step, hc]
          rw [hst] at ht
          simp only [if_true]
          have ht2 := Where.all_tail ht
          by_cases hd : d = '"' ∨ d = Char.ofNat 39
          · simp only [hd, if_true]
            apply ih rest _ (by omega)
            have e : Where.step (.escape first) d = .string first := by
              have : d = '"' ∨ d = Char.ofNat 39 ∨ d = 'n' ∨ d = 't' := by tauto
              simp [Where.step, this]
            rwa [e] at ht2
          · simp only [hd, if_false]
            by_cases hn : d = 'n'
            · simp only [hn, if_true]
              apply ih rest _ (by omega)
              have e : Where.step (.escape first) d = .string first := by
                simp [Where.step, hn]
              rwa [e] at ht2
            · simp only [hn, if_false]
              by_cases htt : d = 't'
              · simp only [htt, if_true]
                apply ih rest _ (by omega)
                have e : Where.step (.escape first) d = .string first := by
                  simp [Where.step, htt]
                rwa [e] at ht2
              · simp only [htt, if_false]
                apply ih (d :: rest) _ (by simp; omega)
                have e : Where.step (.escape first) d = Where.step (.string first) d := by
                  have : ¬(d = '"' ∨ d = Char.ofNat 39 ∨ d = 'n' ∨ d = 't') := by tauto
                  simp [Where.step, this]
                rw [Where.all_cons, Bool.and_eq_true]
                exact ⟨hP.string _ _ _, by rwa [← e]⟩
        · simp only [hb, if_false]
          apply ih (d :: rest) _ (by simp; omega)
          simpa [Where.step, hc, hb] using ht

/-- What the first part of `Load` leaves to read: it reads spaces only, and the character it
hands on; after a character the stream is good. -/
theorem scan_shape (s : Lexer) :
    match scan s with
    | .token r => ∃ m, s.input_.buf = List.replicate m ' ' ++ r.input_.buf
    | .char none s1 => s1.input_.buf = s.input_.buf ∨ s1.input_.buf = []
    | .char (some c) s1 =>
      ∃ m rest, s.input_.buf = List.replicate m ' ' ++ c :: rest ∧
        s1.input_ = ⟨rest, false, false⟩ := by
  cases hn : s.new_line_
  · rcases IStream.shape s.input_ with hg | ⟨m, hi⟩ | ⟨m, c, rest, hc, hi⟩
    · rw [scan_inline_not_good s hn hg]
      exact Or.inl rfl
    · rw [scan_inline_spaces s m hn hi]
      exact Or.inr rfl
    · rw [scan_inline_char s m c rest hc hn hi]
      exact ⟨m, rest, by rw [hi], rfl⟩
  · rcases IStream.shape s.input_ with hg | ⟨m, hi⟩ | ⟨m, c, rest, hc, hi⟩
    · rw [scan_newline_not_good s hn hg]
      split_ifs
      · exact ⟨0, rfl⟩
      · exact Or.inl rfl
    · rw [scan_newline_spaces s m hn hi]
      split_ifs
      · exact ⟨m, by rw [hi]; simp⟩
      · exact Or.inr rfl
    · by_cases hb : c = '\n' ∨ c = '#'
      · rw [scan_newline_blank s m c rest hb hn hi]
        exact ⟨m, rest, by rw [hi], rfl⟩
      · have hnl : c ≠ '\n' := fun h => hb (Or.inl h)
        have hcm : c ≠ '#' := fun h => hb (Or.inr h)
        cases m with
        | zero =>
          simp only [List.replicate_zero, List.nil_append] at hi
          rw [scan_newline_content_zero s c rest hc hnl hcm hn hi]
          split_ifs
          · exact ⟨0, by rw [hi]; rfl⟩
          · exact ⟨0, rest, by rw [hi]; rfl, rfl⟩
        | succ k =>
          rw [scan_newline_content_succ s k c rest hc hnl hcm hn hi]
          rcases countSpacesBuf_spec s.offset_ k c rest hc s.current_offset_ with
            ⟨j, hj, heq, -⟩ | ⟨heq, -⟩
          · rw [heq]
            obtain ⟨pre, hpre⟩ := replicate_append_suffix j (k + 1) (by omega) (c :: rest)
            have hp : pre = List.replicate pre.length ' ' := by
              apply List.eq_replicate_of_mem
              intro x hx
              have hmem : x ∈ List.replicate (k + 1) ' ' ++ c :: rest := by
                rw [← hpre]; simp [hx]
              have hlen := congrArg List.length hpre
              simp only [List.length_append, List.length_replicate, List.length_cons] at hlen
              have hpl : pre.length ≤ k + 1 := by omega
              have htake := congrArg (List.take pre.length) hpre
              rw [List.take_left, List.take_append_of_le_length (by simpa using hpl)] at htake
              have hx2 : x ∈ List.take pre.length (List.replicate (k + 1) ' ') := by
                rw [← htake]; exact hx
              exact List.eq_of_mem_replicate (List.mem_of_mem_take hx2)
            refine ⟨pre.length, ?_⟩
            rw [hi]
            simp only
            rw [← hpre, ← hp]
          · rw [heq]
            by_cases ho : s.current_offset_ + ↑k + 1 < s.offset_
            · simp only [ho, if_true]
              exact ⟨k + 1, by rw [hi]; rfl⟩
            · simp only [ho, if_false]
              exact ⟨k + 1, rest, by rw [hi], rfl⟩

/-- After the first part of `Load` has handed on a character standing outside string
literals and comments, `P` holds of that character and of the text after it. -/
theorem Where.all_of_scan {P : Where → Char → List Char → Bool} (s s1 : Lexer) (c : Char)
    (hsc : scan s = .char (some c) s1) (h : Where.all P .code s.input_.buf = true) :
    ∃ rest, s1.input_ = ⟨rest, false, false⟩ ∧ Where.all P .code (c :: rest) = true := by
  have hs := scan_shape s
  rw [hsc] at hs
  obtain ⟨m, rest, hb, hi⟩ := hs
  rw [hb] at h
  exact ⟨rest, hi, Where.all_spaces m _ h⟩

theorem LoadChar_all {P : Where → Char → List Char → Bool} (c : Char) (s : Lexer)
    (h : Where.all P .code s.input_.buf = true) :
    Where.all P .code (LoadChar c s).input_.buf = true := by
  have hget : s.input_.peek.1 = some '=' →
      Where.all P .code s.input_.peek.2.get.2.buf = true := by
    intro hg
    unfold IStream.peek at hg ⊢
    split_ifs at hg ⊢ with hgood
    · cases hb : s.input_.buf with
      | nil => rw [hb] at hg; simp at hg
      | cons x xs =>
        rw [hb] at hg h
        simp only [Option.some.injEq] at hg
        subst hg
        simp only [IStream.get, hgood, if_true, hb]
        have := Where.all_tail h
        rwa [Where.step_code '=' (by decide) (by decide) (by decide)] at this
  by_cases h1 : c = '!' ∨ c = '=' ∨ c = '>' ∨ c = '<'
  · by_cases h2 : s.input_.peek.1 = some '='
    · simp only [LoadChar, h1, h2, if_true]
      exact hget h2
    · simp only [LoadChar, h1, h2, if_true, if_false, IStream.peek_buf]
      exact h
  · simpa only [LoadChar, h1, if_false] using h

theorem switchChar_all {P : Where → Char → List Char → Bool} (hP : Where.OutsideStrings P)
    (load : Lexer → Option Lexer) (c : Char) (rest : List Char) (tok : Token) (nl : Bool)
    (o co : Int) (r : Lexer) (hc : startsToken c = true)
    (h : Where.all P .code (c :: rest) = true)
    (hr : switchChar load c ⟨⟨rest, false, false⟩, tok, nl, o, co⟩ = some r) :
    Where.all P .code r.input_.buf = true := by
  obtain ⟨-, hnl, hcm⟩ := startsToken_ne c hc
  have ht := Where.all_tail h
  unfold switchChar at hr
  simp only [hnl, hcm, if_false] at hr
  split_ifs at hr with h1 h2 h3 h4
  · injection hr with hr
    subst hr
    apply LoadChar_all
    obtain ⟨a, b, d⟩ := isOperatorChar_plain c h1
    rwa [Where.step_code c a b d] at ht
  · injection hr with hr
    subst hr
    have hst : Where.step .code c = .string c := by
      rcases h2 with e | e <;> simp [Where.step, e]
    rw [hst] at ht
    simp only [LoadString, IStream.good, Bool.not_false, Bool.and_self, if_true]
    exact LoadStringBuf_all hP c _ rest [] (le_refl _) ht
  · injection hr with hr
    subst hr
    have hpb : (⟨rest, false, false⟩ : IStream).putback (some c) = ⟨c :: rest, false, false⟩ :=
      rfl
    have hd := Where.all_dropWhile (P := P) isIdChar isIdChar_plain (c :: rest) h
    simp only [LoadId, GetString, hpb, takeWhilePeek, IStream.good, Bool.not_false,
      Bool.and_self, if_true]
    split <;> (simp only; split <;> first | rfl | exact hd)
  · injection hr with hr
    subst hr
    have hpb : (⟨rest, false, false⟩ : IStream).putback (some c) = ⟨c :: rest, false, false⟩ :=
      rfl
    have hd := Where.all_dropWhile (P := P) Char.isDigit isDigit_plain (c :: rest) h
    simp only [LoadNumber, hpb, takeWhilePeek, IStream.good, Bool.not_false,
      Bool.and_self, if_true]
    split <;> first | rfl | exact hd
  · exfalso
    simp only [startsToken, Bool.or_eq_true, decide_eq_true_eq] at hc
    simp only [not_or] at h2
    rcases hc with (((hc | hc) | hc) | hc) | hc
    · exact h1 hc
    · exact h2.1 hc
    · exact h2.2 hc
    · exact h3 hc
    · exact h4 hc

theorem unrecognised_plain (c : Char) (h : recognised c = false) :
    Where.step .code c = .code := by
  simp only [recognised, startsToken, Bool.or_eq_false_iff, decide_eq_false_iff_not] at h
  obtain ⟨⟨⟨-, -⟩, hcm⟩, ⟨⟨⟨-, hq1⟩, hq2⟩, -⟩, -⟩ := h
  exact Where.step_code c hq2 hq1 hcm

/-- `Load` keeps `Where.all P` of the text left to read: it stops outside string literals
and comments (or at the end of the input). -/
theorem Load_all {P : Where → Char → List Char → Bool} (hP : Where.OutsideStrings P)
    (fuel : Nat) (s r : Lexer) (hs : Where.all P .code s.input_.buf = true)
    (h : Load fuel s = some r) : Where.all P .code r.input_.buf = true := by
  refine Load_induction (fun s => Where.all P .code s.input_.buf = true)
    (fun _ r => Where.all P .code r.input_.buf = true) ?_ ?_ fuel s r hs h
  · intro s r hI hsc
    have hsh := scan_shape s
    rw [hsc] at hsh
    obtain ⟨m, hb⟩ := hsh
    rw [hb] at hI
    exact Where.all_spaces m _ hI
  · intro s c s1 hI hsc load r hload hd
    cases c with
    | none =>
      have hsh := scan_shape s
      rw [hsc] at hsh
      have h1 : Where.all P .code s1.input_.buf = true := by
        rcases hsh with e | e
        · rw [e]; exact hI
        · rw [e]; rfl
      rw [dispatch_isEOF load none s1 rfl] at hd
      split_ifs at hd
      · injection hd with hd
        subst hd
        simpa [IStream.putback_none_buf] using h1
      · injection hd with hd
        subst hd
        exact h1
    | some ch =>
      obtain ⟨rest, hi, hall⟩ := Where.all_of_scan s s1 ch hsc hI
      obtain ⟨i1, tok, nl, o, co⟩ := s1
      simp only at hi
      subst hi
      have ht := Where.all_tail hall
      by_cases hff : ch = Char.ofNat 255
      · subst hff
        rw [dispatch_eofByte] at hd
        have hst : Where.step .code (Char.ofNat 255) = .code :=
          Where.step_code _ (by decide) (by decide) (by decide)
        rw [hst] at ht
        split_ifs at hd with hc
        · have hnl : nl = false := hc.2
          subst hnl
          simp only [LoadNewline, Bool.not_false, if_true, Option.some.injEq] at hd
          subst hd
          exact hall
        · injection hd with hd
          subst hd
          exact ht
      rw [dispatch_some _ _ _ hff] at hd
      rcases char_cases ch with rfl | rfl | rfl | hst | hun
      · have hs := scan_spec s
        rw [hsc] at hs
        exact absurd rfl hs.1
      · rw [switchChar_newline] at hd
        have hc : Where.all P .code rest = true := by
          simpa [Where.step] using ht
        cases nl with
        | false =>
          simp only [LoadNewline, Bool.not_false, if_true, Option.some.injEq] at hd
          subst hd
          exact hc
        | true =>
          simp only [LoadNewline, Bool.not_true, Bool.false_eq_true, if_false] at hd
          exact hload _ _ hc hd
      · rw [switchChar_comment] at hd
        have hc : Where.all P .comment rest = true := by
          simpa [Where.step] using ht
        exact hload _ _ (skipComment_all hP rest hc) hd
      · exact switchChar_all hP load ch rest tok nl o co r hst hall hd
      · rw [switchChar_unrecognised load ch _ hun] at hd
        injection hd with hd
        subst hd
        rwa [unrecognised_plain ch hun] at ht

theorem NextToken_all {P : Where → Char → List Char → Bool} (hP : Where.OutsideStrings P)
    (s : Lexer) (hs : Where.all P .code s.input_.buf = true) :
    Where.all P .code (NextToken s).input_.buf = true :=
  Load_all hP _ s _ hs (Load_NextToken s)

theorem iterate_all {P : Where → Char → List Char → Bool} (hP : Where.OutsideStrings P)
    (s : Lexer) (hs : Where.all P .code s.input_.buf = true) :
    ∀ k : Nat, Where.all P .code (NextToken^[k] s).input_.buf = true
  | 0 => hs
  | k + 1 => by
    rw [Function.iterate_succ_apply']
    exact NextToken_all hP _ (iterate_all hP s hs k)

/-! ## C21: `Eof` is absorbing -/

/-- One call of `Load` on an input whose characters outside string literals and comments all
have a case in `Load`: `token_` is `Newline` only with `new_line_` set, and a `Newline` is not
followed by a `Newline`. -/
theorem Load_newline_step (fuel : Nat) (s r : Lexer)
    (hI : (s.token_ = .Newline → s.new_line_ = true) ∧ codeChars hasCase s.input_.buf = true)
    (h : Load fuel s = some r) :
    ((r.token_ = .Newline → r.new_line_ = true) ∧ codeChars hasCase r.input_.buf = true) ∧
      (s.token_ = .Newline → r.token_ ≠ .Newline) := by
  have hP := codeChars_outsideStrings hasCase (by decide)
  have hbuf := Load_all hP fuel s r hI.2 h
  refine Load_induction
    (fun s => (s.token_ = .Newline → s.new_line_ = true) ∧
      codeChars hasCase s.input_.buf = true)
    (fun s r => (r.token_ = .Newline → r.new_line_ = true) ∧
      (s.token_ = .Newline → r.token_ ≠ .Newline))
    ?_ ?_ fuel s r hI h |> fun hq => ⟨⟨hq.1, hbuf⟩, hq.2⟩
  · intro s r _ hsc
    have hs := scan_spec s
    rw [hsc] at hs
    obtain ⟨-, hnl, htok, -⟩ := hs
    exact ⟨fun _ => hnl, fun _ => by rcases htok with e | e <;> rw [e] <;> decide⟩
  · intro s c s1 hI hsc load r hload hd
    have hs := scan_spec s
    rw [hsc] at hs
    have htok : s1.token_ = s.token_ := by
      cases c with
      | none => exact hs.2.1
      | some ch => exact hs.2.2.1
    have hnl : s1.new_line_ = s.new_line_ := by
      cases c with
      | none => exact hs.2.2.1
      | some ch => exact hs.2.2.2
    have hflag : s1.token_ = .Newline → s1.new_line_ = true :=
      fun e => by rw [hnl]; exact hI.1 (htok ▸ e)
    -- a character that was read stands outside string literals and comments
    have hchar : ∀ ch, c = some ch → ∃ rest, s1.input_ = ⟨rest, false, false⟩ ∧
        Where.all (fun w c _ => !w.isCode || hasCase c) .code (ch :: rest) = true := by
      intro ch hc
      subst hc
      exact Where.all_of_scan s s1 ch hsc hI.2
    rcases dispatch_cases load c s1 r hd with
      ⟨-, -, hn1, rfl⟩ | ⟨-, -, rfl⟩ | ⟨-, hn1, rfl⟩ | ⟨hc, -, hl⟩ | ⟨hc, hl⟩ |
      ⟨ch, -, -, hcont, -, -, -, -⟩ | ⟨ch, hc, hunrec, hne, rfl⟩ | ⟨rfl, rfl⟩
    · refine ⟨fun _ => rfl, fun e => ?_⟩
      have := hI.1 e
      rw [← hnl, hn1] at this
      exact absurd this (by decide)
    · exact ⟨fun e => by simp at e, fun _ => by simp⟩
    · refine ⟨fun _ => rfl, fun e => ?_⟩
      have := hI.1 e
      rw [← hnl, hn1] at this
      exact absurd this (by decide)
    · obtain ⟨rest, hi, hr⟩ := hchar _ hc
      have := hload _ _ ⟨hflag, by rw [hi]; simpa [Where.step] using Where.all_tail hr⟩ hl
      exact ⟨this.1, fun e => this.2 (htok.trans e)⟩
    · obtain ⟨rest, hi, hr⟩ := hchar _ hc
      have := hload { s1 with input_ := skipComment s1.input_ } r
        ⟨hflag, by
          rw [hi]
          exact skipComment_all hP rest (by simpa [Where.step] using Where.all_tail hr)⟩ hl
      exact ⟨this.1, fun e => this.2 (htok.trans e)⟩
    · have hne : r.token_ ≠ .Newline := by
        intro e; rw [e] at hcont; exact absurd hcont (by decide)
      exact ⟨fun e => absurd e hne, fun _ => hne⟩
    · exfalso
      obtain ⟨rest, -, hr⟩ := hchar _ hc
      have := Where.all_head hr
      simp only [Where.isCode, Bool.not_true, Bool.false_or, hasCase, hunrec, beq_iff_eq,
        hne] at this
    · exact absurd rfl hs.1

theorem tokenStream_noDoubleNewline : ∀ (n : Nat) (s : Lexer),
    ((s.token_ = .Newline → s.new_line_ = true) ∧ codeChars hasCase s.input_.buf = true) →
    noDoubleNewline (tokenStream n s) = true
  | 0, _, _ => rfl
  | n + 1, s, hI => by
    have hstep := Load_newline_step _ s _ hI (Load_NextToken s)
    have ih := tokenStream_noDoubleNewline n (NextToken s) hstep.1
    rw [tokenStream]
    split_ifs with he
    · cases ht : s.token_ <;> simp [noDoubleNewline]
    · cases n with
      | zero => cases ht : s.token_ <;> simp [tokenStream, noDoubleNewline]
      | succ k =>
        rw [tokenStream] at ih ⊢
        rw [noDoubleNewline_cons_cons, ih]
        simp only [Bool.and_true, Bool.not_eq_true', Bool.and_eq_false_imp, decide_eq_true_eq,
          decide_eq_false_iff_not]
        exact hstep.2

/-- C5, as stated, fails: on the input `x`, line feed, `@` (whichever way `new_line_`
starts) the lexer returns `Newline` twice in a row, because the `switch` has no case for
`@` and leaves `token_` as it is. -/
theorem C5_counterexample :
    tokenStream 10 (Lexer.new ['x', '\n', '@'] true) = [.Id "x", .Newline, .Newline, .Eof]
    ∧ tokenStream 10 (Lexer.new ['x', '\n', '@'] false) = [.Id "x", .Newline, .Newline, .Eof]
    ∧ noDoubleNewline (tokenStream 10 (Lexer.new ['x', '\n', '@'] true)) = false
    ∧ codeChars hasCase ['x', '\n', '@'] = false := by
  decide

/-- C5, amended. For every input in which every character outside string literals and
comments is one `Load` has a case for (space, line feed, `#`, a character that starts a
token, or the byte 0xFF), whichever way `new_line_` starts, no two consecutive tokens
returned by the lexer are both `Newline`: neither up to the first `Eof` (`tokenStream`) nor
at any two consecutive calls of `NextToken` afterwards. Inside string literals and comments
the input may hold any character. -/
theorem C5_no_double_newline (input : List Char) (new_line : Bool)
    (hin : codeChars hasCase input = true) :
    (∀ n : Nat, noDoubleNewline (tokenStream n (Lexer.new input new_line)) = true)
    ∧ ∀ k : Nat, ¬((NextToken^[k] (Lexer.new input new_line)).token_ = .Newline ∧
        (NextToken^[k + 1] (Lexer.new input new_line)).token_ = .Newline) := by
  have h0 : ((Lexer.members input new_line).token_ = .Newline →
      (Lexer.members input new_line).new_line_ = true) ∧
      codeChars hasCase (Lexer.members input new_line).input_.buf = true :=
    ⟨fun e => by simp [Lexer.members] at e, hin⟩
  have h1 := (Load_newline_step _ _ _ h0 (Load_NextToken _)).1
  refine ⟨fun n => tokenStream_noDoubleNewline n _ h1, ?_⟩
  have hinv : ∀ k : Nat,
      ((NextToken^[k] (Lexer.new input new_line)).token_ = .Newline →
        (NextToken^[k] (Lexer.new input new_line)).new_line_ = true) ∧
      codeChars hasCase (NextToken^[k] (Lexer.new input new_line)).input_.buf = true := by
    intro k
    induction k with
    | zero => exact h1
    | succ k ih =>
      rw [Function.iterate_succ_apply']
      exact (Load_newline_step _ _ _ ih (Load_NextToken _)).1
  intro k hk
  have := (Load_newline_step _ _ _ (hinv k) (Load_NextToken _)).2 hk.1
  rw [Function.iterate_succ_apply'] at hk
  exact this hk.2

/-- C5 amended, on `x`, two line feeds, an indented `y = '@\q'`, a comment with a tab, a
blank line. -/
theorem C5_no_double_newline_witness :
    noDoubleNewline (tokenStream 20 (Lexer.new
      ['x', '\n', '\n', ' ', ' ', 'y', '=', Char.ofNat 39, '@', '\\', 'q', Char.ofNat 39, ' ',
       '#', '\t', '\n', ' ', '\n'] true)) = true :=
  (C5_no_double_newline
    ['x', '\n', '\n', ' ', ' ', 'y', '=', Char.ofNat 39, '@', '\\', 'q', Char.ofNat 39, ' ',
     '#', '\t', '\n', ' ', '\n'] true (by decide)).1 20

/-! ## C4: balance of `Indent` and `Dedent` -/


theorem codeChars_spaces (p : Char → Bool) (m : Nat) (l : List Char)
    (h : codeChars p (List.replicate m ' ' ++ l) = true) : codeChars p l = true :=
  Where.all_spaces m l h

theorem codeChars_head (p : Char → Bool) (c : Char) (rest : List Char)
    (h : codeChars p (c :: rest) = true) : p c = true := by
  simpa [Where.isCode] using Where.all_head h

theorem codeLinesEven_spaces (m : Nat) (l : List Char)
    (h : codeLinesEven (List.replicate m ' ' ++ l) = true) : codeLinesEven l = true :=
  Where.all_spaces m l h

/-- The text a lexer has left to read when its characters outside string literals and
comments are recognised and its lines evenly indented, after some leading spaces. -/
theorem lexable_spaces (m : Nat) (l : List Char)
    (h : codeChars recognised (List.replicate m ' ' ++ l) = true ∧
      codeLinesEven (List.replicate m ' ' ++ l) = true) :
    codeChars recognised l = true ∧ codeLinesEven l = true :=
  ⟨codeChars_spaces _ m l h.1, codeLinesEven_spaces m l h.2⟩

/-- After a line feed outside string literals and comments: the next line is blank, a
comment or evenly indented. -/
theorem lexable_newline (rest : List Char)
    (h : codeChars recognised ('\n' :: rest) = true ∧ codeLinesEven ('\n' :: rest) = true) :
    (codeChars recognised rest = true ∧ codeLinesEven rest = true) ∧ evenLead rest = true := by
  obtain ⟨h1, h2⟩ := h
  have t1 := Where.all_tail h1
  have t2 := Where.all_tail h2
  have hd := Where.all_head h2
  have hst : Where.step .code '\n' = .code := by simp [Where.step]
  rw [hst] at t1 t2
  exact ⟨⟨t1, t2⟩, by simpa [Where.outsideString] using hd⟩

/-- After a comment: what `LoadComment` leaves is lexable, and if the stream is still good
it starts with the line feed that ends the comment. -/
theorem lexable_comment (rest : List Char)
    (h : codeChars recognised ('#' :: rest) = true ∧ codeLinesEven ('#' :: rest) = true) :
    codeChars recognised (skipComment ⟨rest, false, false⟩).buf = true ∧
      codeLinesEven (skipComment ⟨rest, false, false⟩).buf = true := by
  obtain ⟨h1, h2⟩ := h
  have t1 := Where.all_tail h1
  have t2 := Where.all_tail h2
  have hst : Where.step .code '#' = .comment := by simp [Where.step]
  rw [hst] at t1 t2
  exact ⟨skipComment_all (codeChars_outsideStrings recognised (by decide)) rest t1,
    skipComment_all codeLinesEven_outsideStrings rest t2⟩

/-- After a token: what the `switch` leaves is lexable. -/
theorem lexable_switchChar (load : Lexer → Option Lexer) (c : Char) (rest : List Char)
    (tok : Token) (nl : Bool) (o co : Int) (r : Lexer) (hc : startsToken c = true)
    (h : codeChars recognised (c :: rest) = true ∧ codeLinesEven (c :: rest) = true)
    (hr : switchChar load c ⟨⟨rest, false, false⟩, tok, nl, o, co⟩ = some r) :
    codeChars recognised r.input_.buf = true ∧ codeLinesEven r.input_.buf = true :=
  ⟨switchChar_all (codeChars_outsideStrings recognised (by decide)) load c rest tok nl o co r
      hc h.1 hr,
    switchChar_all codeLinesEven_outsideStrings load c rest tok nl o co r hc h.2 hr⟩

/-- What the first part of `Load` leaves to read is lexable. -/
theorem lexable_scan (s : Lexer)
    (h : codeChars recognised s.input_.buf = true ∧ codeLinesEven s.input_.buf = true) :
    match scan s with
    | .token r => codeChars recognised r.input_.buf = true ∧ codeLinesEven r.input_.buf = true
    | .char none s1 =>
      codeChars recognised s1.input_.buf = true ∧ codeLinesEven s1.input_.buf = true
    | .char (some c) s1 =>
      ∃ rest, s1.input_ = ⟨rest, false, false⟩ ∧
        codeChars recognised (c :: rest) = true ∧ codeLinesEven (c :: rest) = true := by
  have hs := scan_shape s
  cases hsc : scan s with
  | token r =>
    rw [hsc] at hs
    obtain ⟨m, hb⟩ := hs
    rw [hb] at h
    exact lexable_spaces m _ h
  | char c s1 =>
    rw [hsc] at hs
    cases c with
    | none =>
      simp only at hs ⊢
      rcases hs with e | e
      · rw [e]; exact h
      · rw [e]; exact ⟨rfl, rfl⟩
    | some ch =>
      obtain ⟨m, rest, hb, hi⟩ := hs
      rw [hb] at h
      exact ⟨rest, hi, lexable_spaces m _ h⟩

namespace Lexer.EvenlyIndented

/-- On a new line that holds a token, the spaces left before it are even in number. -/
theorem content_even {s : Lexer} (hJ : s.EvenlyIndented) (hn : s.new_line_ = true) (m : Nat)
    (c : Char) (rest : List Char)
    (hi : s.input_ = ⟨List.replicate m ' ' ++ c :: rest, false, false⟩)
    (hsp : c ≠ ' ') (hnl : c ≠ '\n') (hcm : c ≠ '#') :
    m % 2 = 0 ∧ startsToken c = true := by
  have hst : startsToken c = true := by
    apply startsToken_of_recognised c _ hsp hnl hcm
    have h := hJ.chars_recognised
    rw [hi] at h
    exact codeChars_head _ c rest (codeChars_spaces _ m _ h)
  refine ⟨?_, hst⟩
  by_cases hco : s.current_offset_ = 0
  · have := hJ.line_even hn hco (by rw [hi]; rfl)
    rw [hi] at this
    simp only at this
    rw [evenLead_content m c rest hsp hnl hcm] at this
    simpa using this
  · obtain ⟨m1, c1, rest1, h1, hc1, hm1⟩ := hJ.mid_line hn hco
    rw [hi] at h1
    injection h1 with h1
    obtain ⟨e, -, -⟩ := spaces_cons_unique m m1 c c1 rest rest1 hsp (startsToken_ne c1 hc1).1 h1
    rw [e]; exact hm1

/-- A blank line or a comment only comes up with `current_offset_ = 0`. -/
theorem blank_co_zero {s : Lexer} (hJ : s.EvenlyIndented) (hn : s.new_line_ = true) (m : Nat)
    (c : Char) (rest : List Char)
    (hi : s.input_ = ⟨List.replicate m ' ' ++ c :: rest, false, false⟩)
    (hc : c = '\n' ∨ c = '#') : s.current_offset_ = 0 := by
  by_contra hco
  obtain ⟨m1, c1, rest1, h1, hc1, -⟩ := hJ.mid_line hn hco
  rw [hi] at h1
  injection h1 with h1
  have hsp : c ≠ ' ' := by rcases hc with rfl | rfl <;> decide
  obtain ⟨-, e, -⟩ := spaces_cons_unique m m1 c c1 rest rest1 hsp (startsToken_ne c1 hc1).1 h1
  rw [← e] at hc1
  rcases hc with rfl | rfl <;> exact absurd hc1 (by decide)

/-- The end of the input only comes up with `current_offset_ = 0`. -/
theorem end_co_zero {s : Lexer} (hJ : s.EvenlyIndented) (hn : s.new_line_ = true)
    (hi : s.input_.good = false ∨ ∃ m, s.input_ = ⟨List.replicate m ' ', false, false⟩) :
    s.current_offset_ = 0 := by
  by_contra hco
  obtain ⟨m1, c1, rest1, h1, hc1, -⟩ := hJ.mid_line hn hco
  rcases hi with hg | ⟨m, hm⟩
  · rw [h1] at hg
    simp [IStream.good] at hg
  · rw [hm] at h1
    injection h1 with h1
    exact spaces_ne_spaces_cons m m1 c1 rest1 (startsToken_ne c1 hc1).1 h1

theorem lexable {s : Lexer} (hJ : s.EvenlyIndented) :
    codeChars recognised s.input_.buf = true ∧ codeLinesEven s.input_.buf = true :=
  ⟨hJ.chars_recognised, hJ.lines_even⟩

/-- The lexer after a `Dedent`. -/
theorem dedent_state {s : Lexer} (hJ : s.EvenlyIndented) (hn : s.new_line_ = true)
    (input1 : IStream) (co1 : Int) (hlt : co1 < s.offset_) (hge : s.current_offset_ ≤ co1)
    (hev : co1 % 2 = 0)
    (htxt : codeChars recognised input1.buf = true ∧ codeLinesEven input1.buf = true)
    (hline : co1 = 0 → input1.good = true → evenLead input1.buf = true)
    (hmid : co1 ≠ 0 → ∃ m c rest, input1 = ⟨List.replicate m ' ' ++ c :: rest, false, false⟩ ∧
      startsToken c = true ∧ m % 2 = 0) :
    ({ s with input_ := input1, current_offset_ := co1, offset_ := s.offset_ - 2,
              token_ := .Dedent } : Lexer).EvenlyIndented ∧
    ({ s with input_ := input1, current_offset_ := co1, offset_ := s.offset_ - 2,
              token_ := .Dedent } : Lexer).level = s.level + balance [.Dedent] := by
  have h1 := hJ.co_nonneg
  have h2 := hJ.co_even
  have h3 := hJ.offset_nonneg hn
  have h4 := hJ.offset_even hn
  obtain ⟨hb1, hb2⟩ := htxt
  refine ⟨⟨?_, hb1, hb2, ?_, hev, ?_, ?_, fun _ => hline, fun _ => hmid, ?_⟩, ?_⟩
  · intro e; simp at e
  · show 0 ≤ co1; omega
  · intro _; show 0 ≤ s.offset_ - 2; omega
  · intro _; show (s.offset_ - 2) % 2 = 0; omega
  · intro e; simp at e
  · simp only [Lexer.level, hn, if_true, balance, max_def]
    split_ifs <;> omega

/-- The lexer after an `Indent`. -/
theorem indent_state {s : Lexer} (hJ : s.EvenlyIndented) (hn : s.new_line_ = true)
    (k : Nat) (c : Char) (rest : List Char) (co1 : Int)
    (hco1 : co1 = max s.offset_ s.current_offset_ + 2)
    (htxt : codeChars recognised (List.replicate k ' ' ++ c :: rest) = true ∧
      codeLinesEven (List.replicate k ' ' ++ c :: rest) = true)
    (hk : k % 2 = 0) (hc : startsToken c = true) :
    ({ s with input_ := ⟨List.replicate k ' ' ++ c :: rest, false, false⟩,
              current_offset_ := co1, token_ := .Indent } : Lexer).EvenlyIndented ∧
    ({ s with input_ := ⟨List.replicate k ' ' ++ c :: rest, false, false⟩,
              current_offset_ := co1, token_ := .Indent } : Lexer).level
      = s.level + balance [.Indent] := by
  have h1 := hJ.co_nonneg
  have h2 := hJ.co_even
  have h3 := hJ.offset_nonneg hn
  have h4 := hJ.offset_even hn
  obtain ⟨hb1, hb2⟩ := htxt
  have hpos : co1 ≠ 0 ∧ 0 ≤ co1 ∧ co1 % 2 = 0 ∧ s.offset_ < co1 := by
    rw [hco1]; simp only [max_def]; split_ifs <;> omega
  refine ⟨⟨?_, hb1, hb2, hpos.2.1, hpos.2.2.1, fun _ => h3, fun _ => h4, ?_, ?_, ?_⟩, ?_⟩
  · intro e; simp at e
  · intro _ e; exact absurd e hpos.1
  · intro _ _; exact ⟨k, c, rest, rfl, hc, hk⟩
  · intro e; simp at e
  · simp only [Lexer.level, hn, if_true, balance, hco1, max_def]
    split_ifs <;> omega

/-- The lexer after a `Newline`. -/
theorem newline_state {s : Lexer} (hJ : s.EvenlyIndented) (s1 : Lexer) (input1 : IStream)
    (hnl : s1.new_line_ = false) (hco : s1.current_offset_ = s.current_offset_)
    (htxt : codeChars recognised input1.buf = true ∧ codeLinesEven input1.buf = true)
    (hline : input1.good = true → evenLead input1.buf = true) :
    ({ s1 with input_ := input1, new_line_ := true, offset_ := s1.current_offset_,
               current_offset_ := 0, token_ := .Newline } : Lexer).EvenlyIndented ∧
    ({ s1 with input_ := input1, new_line_ := true, offset_ := s1.current_offset_,
               current_offset_ := 0, token_ := .Newline } : Lexer).level
      = s1.level + balance [.Newline] := by
  have h1 := hJ.co_nonneg
  have h2 := hJ.co_even
  obtain ⟨hb1, hb2⟩ := htxt
  refine ⟨⟨fun _ => rfl, hb1, hb2, le_refl _, rfl, ?_, ?_, fun _ _ => hline, ?_, ?_⟩, ?_⟩
  · intro _; show 0 ≤ s1.current_offset_; omega
  · intro _; show s1.current_offset_ % 2 = 0; omega
  · intro _ e; exact absurd rfl e
  · intro e; simp at e
  · simp only [Lexer.level, hnl, if_true, balance, max_def, Bool.false_eq_true, if_false]
    split_ifs <;> omega

/-- The lexer after a token of the line. -/
theorem content_state (r : Lexer)
    (hcont : r.token_.isContent = true) (hnl : r.new_line_ = false)
    (hco : 0 ≤ r.current_offset_ ∧ r.current_offset_ % 2 = 0)
    (htxt : codeChars recognised r.input_.buf = true ∧ codeLinesEven r.input_.buf = true) :
    r.EvenlyIndented ∧ r.level = r.current_offset_ / 2 + balance [r.token_] := by
  obtain ⟨hb1, hb2⟩ := htxt
  refine ⟨⟨?_, hb1, hb2, hco.1, hco.2, ?_, ?_, ?_, ?_, ?_⟩, ?_⟩
  · intro e; rw [e] at hcont; exact absurd hcont (by decide)
  · intro e; rw [hnl] at e; exact absurd e (by decide)
  · intro e; rw [hnl] at e; exact absurd e (by decide)
  · intro e; rw [hnl] at e; exact absurd e (by decide)
  · intro e; rw [hnl] at e; exact absurd e (by decide)
  · intro e; rw [e] at hcont; exact absurd hcont (by decide)
  · simp [Lexer.level, hnl, balance_content _ hcont]

/-- The first part of `Load` returning an `Indent` or a `Dedent` keeps the lexer evenly
indented and moves its depth by one. -/
theorem scan_token {s : Lexer} (hJ : s.EvenlyIndented) (r : Lexer)
    (hsc : scan s = .token r) :
    r.EvenlyIndented ∧ r.level = s.level + balance [r.token_] := by
  have hn : s.new_line_ = true := by
    have := scan_spec s
    rw [hsc] at this
    exact this.1
  have htxt : codeChars recognised r.input_.buf = true ∧ codeLinesEven r.input_.buf = true := by
    have := lexable_scan s hJ.lexable
    rw [hsc] at this
    exact this
  have h1 := hJ.co_nonneg
  have h2 := hJ.co_even
  have h3 := hJ.offset_nonneg hn
  have h4 := hJ.offset_even hn
  rcases IStream.shape s.input_ with hg | ⟨m, hi⟩ | ⟨m, c, rest, hsp, hi⟩
  · have hco := hJ.end_co_zero hn (Or.inl hg)
    rw [scan_newline_not_good s hn hg] at hsc
    split_ifs at hsc with ho
    · injection hsc with hsc
      subst hsc
      exact hJ.dedent_state hn ⟨s.input_.buf, false, true⟩ s.current_offset_ ho (le_refl _) h2
        htxt (fun _ h => by simp [IStream.good] at h)
        (fun h => absurd hco h)
  · have hco := hJ.end_co_zero hn (Or.inr ⟨m, hi⟩)
    rw [scan_newline_spaces s m hn hi] at hsc
    split_ifs at hsc with ho
    · injection hsc with hsc
      subst hsc
      exact hJ.dedent_state hn ⟨[], false, true⟩ s.current_offset_ ho (le_refl _) h2
        htxt (fun _ h => by simp [IStream.good] at h)
        (fun h => absurd hco h)
  · by_cases hb : c = '\n' ∨ c = '#'
    · rw [scan_newline_blank s m c rest hb hn hi] at hsc
      cases hsc
    · have hnl : c ≠ '\n' := fun h => hb (Or.inl h)
      have hcm : c ≠ '#' := fun h => hb (Or.inr h)
      obtain ⟨hm, hst⟩ := hJ.content_even hn m c rest hi hsp hnl hcm
      cases m with
      | zero =>
        simp only [List.replicate_zero, List.nil_append] at hi
        rw [scan_newline_content_zero s c rest hsp hnl hcm hn hi] at hsc
        split_ifs at hsc with ho
        · injection hsc with hsc
          subst hsc
          exact hJ.dedent_state hn ⟨c :: rest, false, false⟩ s.current_offset_ ho (le_refl _) h2
            htxt
            (fun _ _ => by
              have := evenLead_content 0 c rest hsp hnl hcm
              simpa using this)
            (fun _ => ⟨0, c, rest, rfl, hst, rfl⟩)
      | succ k =>
        rw [scan_newline_content_succ s k c rest hsp hnl hcm hn hi] at hsc
        rcases countSpacesBuf_spec s.offset_ k c rest hsp s.current_offset_ with
          ⟨j, hj, heq, hc1, hc2, hlt⟩ | ⟨heq, hno⟩
        · rw [heq] at hsc
          simp only at hsc
          injection hsc with hsc
          subst hsc
          have hco1 : s.current_offset_ + ((k : Int) - j) + 1
              = max s.offset_ s.current_offset_ + 2 := by
            have hjk : (j : Int) ≤ k := by exact_mod_cast hj
            simp only [max_def]
            split_ifs with hle
            · by_contra hne
              have hgt : s.current_offset_ + ((k : Int) - j) + 1 > s.current_offset_ + 2 := by
                omega
              exact hlt 2 (by omega) (by omega) ⟨by omega, by omega⟩
            · by_contra hne
              have hgt : s.current_offset_ + ((k : Int) - j) + 1 > s.offset_ + 2 := by omega
              exact hlt (s.offset_ + 2 - s.current_offset_) (by omega) (by omega)
                ⟨by omega, by omega⟩
          have hjeven : j % 2 = 0 := by
            have : (s.current_offset_ + ((k : Int) - j) + 1) % 2 = 0 := hc2
            omega
          exact hJ.indent_state hn j c rest _ hco1 htxt hjeven hst
        · rw [heq] at hsc
          simp only at hsc
          split_ifs at hsc with ho
          · injection hsc with hsc
            subst hsc
            have hput : IStream.putback ⟨rest, false, false⟩ (some c) = ⟨c :: rest, false, false⟩ :=
              rfl
            rw [hput] at htxt ⊢
            exact hJ.dedent_state hn ⟨c :: rest, false, false⟩ _ ho (by omega) (by omega)
              htxt
              (fun _ _ => by
                have := evenLead_content 0 c rest hsp hnl hcm
                simpa using this)
              (fun _ => ⟨0, c, rest, rfl, hst, rfl⟩)

/-- An evenly indented lexer with less text left to read, inside a line. -/
theorem inline_suffix {s : Lexer} (hJ : s.EvenlyIndented) (hn : s.new_line_ = false)
    (input1 : IStream)
    (htxt : codeChars recognised input1.buf = true ∧ codeLinesEven input1.buf = true) :
    ({ s with input_ := input1 } : Lexer).EvenlyIndented := by
  obtain ⟨hb1, hb2⟩ := htxt
  refine ⟨hJ.newline_flag, hb1, hb2, hJ.co_nonneg, hJ.co_even, ?_, ?_, ?_, ?_, ?_⟩
  · intro e; exact absurd (hn ▸ e : false = true) (by decide)
  · intro e; exact absurd (hn ▸ e : false = true) (by decide)
  · intro e; exact absurd (hn ▸ e : false = true) (by decide)
  · intro e; exact absurd (hn ▸ e : false = true) (by decide)
  · intro e
    have := hJ.eof_level e
    simpa [Lexer.level, hn] using this

/-- An evenly indented lexer with less text left to read, at the start of a line. -/
theorem line_start_suffix {s : Lexer} (hJ : s.EvenlyIndented) (hco : s.current_offset_ = 0)
    (input1 : IStream)
    (htxt : codeChars recognised input1.buf = true ∧ codeLinesEven input1.buf = true)
    (hline : input1.good = true → evenLead input1.buf = true) :
    ({ s with input_ := input1 } : Lexer).EvenlyIndented := by
  obtain ⟨hb1, hb2⟩ := htxt
  refine ⟨hJ.newline_flag, hb1, hb2, hJ.co_nonneg, hJ.co_even, hJ.offset_nonneg,
    hJ.offset_even, fun _ _ => hline, ?_, ?_⟩
  · intro _ e; exact absurd hco e
  · intro e
    have := hJ.eof_level e
    simpa [Lexer.level] using this

end Lexer.EvenlyIndented

/-- The second part of `Load` from inside a line keeps the lexer evenly indented and moves
its depth by what the token returned says. -/
theorem dispatch_inline {s : Lexer} (hJ : s.EvenlyIndented) (hn : s.new_line_ = false)
    (c : Option Char) (input1 : IStream)
    (hc : match c with
      | none => codeChars recognised input1.buf = true ∧ codeLinesEven input1.buf = true
      | some ch => ch ≠ ' ' ∧ ∃ rest, input1 = ⟨rest, false, false⟩ ∧
          codeChars recognised (ch :: rest) = true ∧ codeLinesEven (ch :: rest) = true)
    (load : Lexer → Option Lexer) (r : Lexer)
    (hload : ∀ x y : Lexer, x.EvenlyIndented → load x = some y →
      y.EvenlyIndented ∧ y.level = x.level + balance [y.token_])
    (hd : dispatch load c { s with input_ := input1 } = some r) :
    r.EvenlyIndented ∧ r.level = s.level + balance [r.token_] := by
  have htok : s.token_ ≠ .Newline := by
    intro e
    have := hJ.newline_flag e
    rw [hn] at this
    exact absurd this (by decide)
  cases c with
  | none =>
    simp only [dispatch_none, htok, ne_eq, not_false_eq_true, hn, and_self, if_true,
      LoadNewline, Bool.not_false, Option.some.injEq] at hd
    subst hd
    have := hJ.newline_state { s with input_ := input1 } (input1.putback none) hn rfl
      (by rw [IStream.putback_none_buf]; exact hc)
      (fun h => by rw [IStream.putback_none_not_good] at h; exact absurd h (by decide))
    simpa [Lexer.level, hn] using this
  | some ch =>
    obtain ⟨hsp, rest, hi, htxt⟩ := hc
    subst hi
    have hrec : recognised ch = true := codeChars_head _ ch rest htxt.1
    rw [dispatch_some _ _ _ (ne_eofByte_of_recognised ch hrec)] at hd
    rcases char_cases ch with rfl | rfl | rfl | hst | hun
    · exact absurd rfl hsp
    · rw [switchChar_newline] at hd
      simp only [LoadNewline, hn, Bool.not_false, if_true, Option.some.injEq] at hd
      subst hd
      obtain ⟨ht, hl⟩ := lexable_newline rest htxt
      have := hJ.newline_state { s with input_ := ⟨rest, false, false⟩ } ⟨rest, false, false⟩
        hn rfl ht (fun _ => hl)
      simpa [Lexer.level, hn] using this
    · rw [switchChar_comment] at hd
      simp only [LoadComment] at hd
      have hx := hJ.inline_suffix hn (skipComment ⟨rest, false, false⟩) (lexable_comment rest htxt)
      have := hload _ _ hx hd
      simpa [Lexer.level, hn] using this
    · obtain ⟨r1, hr1, hcont, hnl1, -, hco1, -⟩ :=
        switchChar_startsToken load ch { s with input_ := ⟨rest, false, false⟩ } hst
      have ht1 := lexable_switchChar load ch rest s.token_ s.new_line_ s.offset_
        s.current_offset_ r1 hst htxt hr1
      rw [hr1] at hd
      injection hd with hd
      subst hd
      have := Lexer.EvenlyIndented.content_state r1 hcont hnl1
        (by rw [hco1]; exact ⟨hJ.co_nonneg, hJ.co_even⟩) ht1
      refine ⟨this.1, ?_⟩
      rw [this.2, hco1]
      simp [Lexer.level, hn]
    · rw [hrec] at hun
      exact absurd hun (by decide)

/-- The second part of `Load` keeps the lexer evenly indented and moves its depth by what
the token returned says, if the inner calls of `Load` do. -/
theorem scan_char_step {s : Lexer} (hJ : s.EvenlyIndented) (c : Option Char) (s1 : Lexer)
    (hsc : scan s = .char c s1) (load : Lexer → Option Lexer) (r : Lexer)
    (hload : ∀ x y : Lexer, x.EvenlyIndented → load x = some y →
      y.EvenlyIndented ∧ y.level = x.level + balance [y.token_])
    (hd : dispatch load c s1 = some r) :
    r.EvenlyIndented ∧ r.level = s.level + balance [r.token_] := by
  have hlex := lexable_scan s hJ.lexable
  rw [hsc] at hlex
  cases hn : s.new_line_
  · rcases IStream.shape s.input_ with hg | ⟨m, hi⟩ | ⟨m, ch, rest, hsp, hi⟩
    · rw [scan_inline_not_good s hn hg] at hsc
      injection hsc with hc hs1
      subst hc hs1
      exact dispatch_inline hJ hn none { s.input_ with failbit := true } hlex load r hload hd
    · rw [scan_inline_spaces s m hn hi] at hsc
      injection hsc with hc hs1
      subst hc hs1
      exact dispatch_inline hJ hn none ⟨[], true, true⟩ hlex load r hload hd
    · rw [scan_inline_char s m ch rest hsp hn hi] at hsc
      injection hsc with hc hs1
      subst hc hs1
      exact dispatch_inline hJ hn (some ch) ⟨rest, false, false⟩ ⟨hsp, hlex⟩ load r hload hd
  · have h1 := hJ.co_nonneg
    have h2 := hJ.co_even
    have h3 := hJ.offset_nonneg hn
    have h4 := hJ.offset_even hn
    have hend : ∀ input1 : IStream, input1.good = false →
        (codeChars recognised input1.buf = true ∧ codeLinesEven input1.buf = true) →
        s.current_offset_ = 0 → ¬ s.offset_ > s.current_offset_ →
        dispatch load none ⟨input1, s.token_, s.new_line_, s.offset_, s.current_offset_⟩
          = some r →
        r.EvenlyIndented ∧ r.level = s.level + balance [r.token_] := by
      intro input1 hg1 htxt hco ho hd1
      have hr : r = ⟨input1, .Eof, true, s.offset_, s.current_offset_⟩ := by
        simp only [dispatch_none, hn, Bool.true_eq_false, and_false, if_false,
          Option.some.injEq] at hd1
        exact hd1.symm
      obtain ⟨hb1, hb2⟩ := htxt
      have hlev : r.level = 0 := by
        rw [hr]
        simp only [Lexer.level, if_true, max_def]
        split_ifs <;> omega
      refine ⟨⟨?_, ?_, ?_, ?_, ?_, ?_, ?_, ?_, ?_, fun _ => hlev⟩, ?_⟩
      · rw [hr]; intro e; simp at e
      · rw [hr]; exact hb1
      · rw [hr]; exact hb2
      · rw [hr]; exact h1
      · rw [hr]; exact h2
      · rw [hr]; exact fun _ => h3
      · rw [hr]; exact fun _ => h4
      · rw [hr]; intro _ _ e; rw [hg1] at e; exact absurd e (by decide)
      · rw [hr]; intro _ e; exact absurd hco e
      · rw [hlev, hr]
        simp only [Lexer.level, hn, if_true, max_def, balance]
        split_ifs <;> omega
    rcases IStream.shape s.input_ with hg | ⟨m, hi⟩ | ⟨m, ch, rest, hsp, hi⟩
    · have hco := hJ.end_co_zero hn (Or.inl hg)
      rw [scan_newline_not_good s hn hg] at hsc
      split_ifs at hsc with ho
      injection hsc with hc hs1
      subst hc hs1
      exact hend ⟨s.input_.buf, false, true⟩ (by simp [IStream.good]) hlex hco ho hd
    · have hco := hJ.end_co_zero hn (Or.inr ⟨m, hi⟩)
      rw [scan_newline_spaces s m hn hi] at hsc
      split_ifs at hsc with ho
      injection hsc with hc hs1
      subst hc hs1
      exact hend ⟨[], false, true⟩ (by simp [IStream.good]) hlex hco ho hd
    · by_cases hb : ch = '\n' ∨ ch = '#'
      · have hco := hJ.blank_co_zero hn m ch rest hi hb
        rw [scan_newline_blank s m ch rest hb hn hi] at hsc
        injection hsc with hc hs1
        subst hc hs1
        obtain ⟨rest1, hi1, htxt⟩ := hlex
        simp only at hi1
        injection hi1 with hi1
        subst hi1
        rcases hb with rfl | rfl
        · rw [dispatch_newline] at hd
          simp only [LoadNewline, hn, Bool.not_true, Bool.false_eq_true, if_false] at hd
          obtain ⟨ht, hl⟩ := lexable_newline rest htxt
          have hx := hJ.line_start_suffix hco ⟨rest, false, false⟩ ht (fun _ => hl)
          have := hload _ _ (by rw [← hn]; exact hx) hd
          simpa [Lexer.level, hn] using this
        · rw [dispatch_comment] at hd
          simp only [LoadComment] at hd
          have hx := hJ.line_start_suffix hco (skipComment ⟨rest, false, false⟩)
            (lexable_comment rest htxt)
            (fun hg => by
              obtain ⟨rest1, hr1⟩ := skipComment_good _ hg
              rw [hr1]; exact evenLead_newline_cons rest1)
          have := hload _ _ hx hd
          simpa [Lexer.level, hn] using this
      · have hnl : ch ≠ '\n' := fun h => hb (Or.inl h)
        have hcm : ch ≠ '#' := fun h => hb (Or.inr h)
        obtain ⟨hm, hst⟩ := hJ.content_even hn m ch rest hi hsp hnl hcm
        have hfin : ∀ co1 : Int, co1 = max s.offset_ s.current_offset_ → co1 % 2 = 0 →
            (codeChars recognised (ch :: rest) = true ∧ codeLinesEven (ch :: rest) = true) →
            dispatch load (some ch) ⟨⟨rest, false, false⟩, s.token_, s.new_line_, s.offset_, co1⟩
              = some r →
            r.EvenlyIndented ∧ r.level = s.level + balance [r.token_] := by
          intro co1 hco1 hev htxt hd1
          rw [dispatch_startsToken _ _ _ hst] at hd1
          obtain ⟨r1, hr1, hcont, hnl1, -, hcor, -⟩ :=
            switchChar_startsToken load ch
              ⟨⟨rest, false, false⟩, s.token_, s.new_line_, s.offset_, co1⟩ hst
          have ht1 := lexable_switchChar load ch rest s.token_ s.new_line_ s.offset_ co1 r1
            hst htxt hr1
          rw [hr1] at hd1
          injection hd1 with hd1
          subst hd1
          have hco1' : 0 ≤ co1 := by
            rw [hco1]; simp only [max_def]; split_ifs <;> omega
          have := Lexer.EvenlyIndented.content_state r1 hcont hnl1
            (by rw [hcor]; exact ⟨hco1', hev⟩) ht1
          refine ⟨this.1, ?_⟩
          rw [this.2, hcor]
          simp [Lexer.level, hn, hco1]
        cases m with
        | zero =>
          simp only [List.replicate_zero, List.nil_append] at hi
          rw [scan_newline_content_zero s ch rest hsp hnl hcm hn hi] at hsc
          split_ifs at hsc with ho
          injection hsc with hc hs1
          subst hc hs1
          obtain ⟨rest1, hi1, htxt⟩ := hlex
          simp only at hi1
          injection hi1 with hi1
          subst hi1
          exact hfin s.current_offset_ (by simp only [max_def]; split_ifs <;> omega) h2 htxt hd
        | succ k =>
          rw [scan_newline_content_succ s k ch rest hsp hnl hcm hn hi] at hsc
          rcases countSpacesBuf_spec s.offset_ k ch rest hsp s.current_offset_ with
            ⟨j, hj, heq, -⟩ | ⟨heq, hno⟩
          · rw [heq] at hsc
            cases hsc
          · rw [heq] at hsc
            simp only at hsc
            split_ifs at hsc with ho
            injection hsc with hc hs1
            subst hc hs1
            obtain ⟨rest1, hi1, htxt⟩ := hlex
            simp only at hi1
            injection hi1 with hi1
            subst hi1
            have hlast := hno ((k : Int) + 1) (by omega) (le_refl _)
            have e : s.current_offset_ + ((k : Int) + 1) = s.current_offset_ + k + 1 := by ring
            rw [e] at hlast
            have hev : (s.current_offset_ + (k : Int) + 1) % 2 = 0 := by omega
            exact hfin _ (by simp only [max_def]; split_ifs <;> omega) hev htxt hd

/-- One call of `Load` on an evenly indented lexer. -/
theorem Load_balance_step (fuel : Nat) (s r : Lexer) (hJ : s.EvenlyIndented)
    (h : Load fuel s = some r) :
    r.EvenlyIndented ∧ r.level = s.level + balance [r.token_] :=
  Load_induction Lexer.EvenlyIndented
    (fun s r => r.EvenlyIndented ∧ r.level = s.level + balance [r.token_])
    (fun _ r hJ hsc => hJ.scan_token r hsc)
    (fun _ c s1 hJ hsc load r hload hd => scan_char_step hJ c s1 hsc load r hload hd)
    fuel s r hJ h

theorem balance_cons (t : Token) (l : List Token) : balance (t :: l) = balance [t] + balance l := by
  cases t <;> simp [balance] <;> ring

/-- Along an evenly indented input, the tokens after the current one, up to `Eof`, take the
lexer from its depth to depth 0. -/
theorem tokenStream_balance : ∀ (n : Nat) (s : Lexer), s.EvenlyIndented →
    (tokenStream n s).getLast? = some .Eof → balance (tokenStream n s).tail = - s.level
  | 0, _, _, h => by simp [tokenStream] at h
  | n + 1, s, hJ, h => by
    rw [tokenStream] at h ⊢
    by_cases he : s.token_ = .Eof
    · simp only [he, if_true, List.tail_cons, balance]
      rw [hJ.eof_level he]; rfl
    · simp only [he, if_false, List.tail_cons] at h ⊢
      have hstep := Load_balance_step _ s _ hJ (Load_NextToken s)
      cases n with
      | zero =>
        simp only [tokenStream, List.getLast?_singleton, Option.some.injEq] at h
        exact absurd h he
      | succ k =>
        have hsplit : tokenStream (k + 1) (NextToken s)
            = (NextToken s).token_ :: (tokenStream (k + 1) (NextToken s)).tail := by
          rw [tokenStream]; rfl
        rw [hsplit, List.getLast?_cons_cons, ← hsplit] at h
        have ih := tokenStream_balance (k + 1) (NextToken s) hstep.1 h
        rw [hsplit, balance_cons, ih, hstep.2]
        ring

theorem members_EvenlyIndented (input : List Char) (new_line : Bool)
    (hrec : codeChars recognised input = true) (heven : evenIndented input = true) :
    (Lexer.members input new_line).EvenlyIndented ∧ (Lexer.members input new_line).level = 0 := by
  simp only [evenIndented, Bool.and_eq_true] at heven
  refine ⟨⟨?_, hrec, heven.2, le_refl _, rfl, fun _ => le_refl _, fun _ => rfl,
    fun _ _ _ => heven.1, fun _ e => absurd rfl e, ?_⟩, ?_⟩
  · intro e; simp [Lexer.members] at e
  · intro e; simp [Lexer.members] at e
  · cases new_line <;> simp [Lexer.level, Lexer.members]

/-- C4, as stated, fails. (1) With lines indented 0, 3, 2 and 0 spaces the lexer returns
one `Indent` and two `Dedent`s before `Eof`, whichever way `new_line_` starts. (2) With an
indented line that starts with `@`, for which the `switch` has no case, it returns the
`Indent` twice and no `Dedent`. (3) With an indented line that starts with the byte 0xFF,
which `Load` takes for the end of the input, it returns an `Indent`, then `Eof`. -/
theorem C4_counterexample :
    tokenStream 20 (Lexer.new
        ['a', '\n', ' ', ' ', ' ', 'b', '\n', ' ', ' ', 'c', '\n', 'd', '\n'] true)
      = [.Id "a", .Newline, .Indent, .Id "b", .Newline, .Dedent, .Id "c", .Newline, .Dedent,
          .Id "d", .Newline, .Eof]
    ∧ tokenStream 20 (Lexer.new
        ['a', '\n', ' ', ' ', ' ', 'b', '\n', ' ', ' ', 'c', '\n', 'd', '\n'] false)
      = [.Id "a", .Newline, .Indent, .Id "b", .Newline, .Dedent, .Id "c", .Newline, .Dedent,
          .Id "d", .Newline, .Eof]
    ∧ (tokenStream 20 (Lexer.new
        ['a', '\n', ' ', ' ', ' ', 'b', '\n', ' ', ' ', 'c', '\n', 'd', '\n'] true)).count .Indent
      ≠ (tokenStream 20 (Lexer.new
        ['a', '\n', ' ', ' ', ' ', 'b', '\n', ' ', ' ', 'c', '\n', 'd', '\n'] true)).count
          .Dedent
    ∧ tokenStream 20 (Lexer.new ['x', '\n', ' ', ' ', '@'] true)
      = [.Id "x", .Newline, .Indent, .Indent, .Eof]
    ∧ tokenStream 20 (Lexer.new ['x', '\n', ' ', ' ', '@'] false)
      = [.Id "x", .Newline, .Indent, .Indent, .Eof]
    ∧ (∀ nl : Bool, tokenStream 20 (Lexer.new ['x', '\n', ' ', ' ', Char.ofNat 255] nl)
      = [.Id "x", .Newline, .Indent, .Eof]) := by
  decide

/-- C4, amended. For every input in which every character outside string literals and
comments is one the `switch` of `Load` has a case for (space, line feed, `#`, a character
that starts a token), and in which every line is blank, a comment, or indented by an even
number of spaces, whichever way `new_line_` starts: the token stream reaches `Eof`, and up
to and including `Eof` it holds as many `Indent` tokens as `Dedent` tokens. Inside string
literals and comments the input may hold any character. -/
theorem C4_indent_dedent_balance (input : List Char) (new_line : Bool)
    (hrec : codeChars recognised input = true) (heven : evenIndented input = true) :
    (∃ n, (tokenStream n (Lexer.new input new_line)).getLast? = some .Eof)
    ∧ ∀ n, (tokenStream n (Lexer.new input new_line)).getLast? = some .Eof →
        (tokenStream n (Lexer.new input new_line)).count .Indent
          = (tokenStream n (Lexer.new input new_line)).count .Dedent := by
  refine ⟨tokenStream_reaches_Eof _, ?_⟩
  intro n hn
  obtain ⟨h0, hl0⟩ := members_EvenlyIndented input new_line hrec heven
  have hstep := Load_balance_step _ _ _ h0 (Load_NextToken (Lexer.members input new_line))
  have hbal := tokenStream_balance n _ hstep.1 hn
  have hall : balance (tokenStream n (Lexer.new input new_line)) = 0 := by
    cases n with
    | zero => rfl
    | succ k =>
      have hsplit : tokenStream (k + 1) (Lexer.new input new_line)
          = (Lexer.new input new_line).token_
            :: (tokenStream (k + 1) (Lexer.new input new_line)).tail := by
        rw [tokenStream]; rfl
      rw [hsplit, balance_cons]
      unfold Lexer.new
      rw [hbal, hstep.2, hl0]
      ring
  rw [balance_eq_count] at hall
  omega

/-- C4 amended, on a program with two levels of indentation, a blank line, a comment with a
tab in it, and a string literal with an escape and a `@` in it. -/
theorem C4_indent_dedent_balance_witness :
    (tokenStream 30 (Lexer.new
        ['i', 'f', ' ', 'x', ':', '\n', ' ', ' ', 'y', '\n', '\n', ' ', ' ', ' ', '#', '\t', '\n',
         ' ', ' ', ' ', ' ', 'z', '=', '"', '\\', 'q', '@', '"', '\n', 'w'] true)).count .Indent
      = (tokenStream 30 (Lexer.new
        ['i', 'f', ' ', 'x', ':', '\n', ' ', ' ', 'y', '\n', '\n', ' ', ' ', ' ', '#', '\t', '\n',
         ' ', ' ', ' ', ' ', 'z', '=', '"', '\\', 'q', '@', '"', '\n', 'w'] true)).count .Dedent :=
  (C4_indent_dedent_balance
    ['i', 'f', ' ', 'x', ':', '\n', ' ', ' ', 'y', '\n', '\n', ' ', ' ', ' ', '#', '\t', '\n',
     ' ', ' ', ' ', ' ', 'z', '=', '"', '\\', 'q', '@', '"', '\n', 'w'] true
    (by decide) (by decide)).2 30 (by decide)

/-! ## C3: the number of `Indent` and `Dedent` tokens between two lines -/

theorem noEofByteBefore_outsideStrings (n : Nat) : Where.OutsideStrings (noEofByteBefore n) :=
  ⟨fun _ _ _ => by simp [noEofByteBefore, Where.isCode],
   fun _ _ _ => by simp [noEofByteBefore, Where.isCode],
   fun _ _ => by simp [noEofByteBefore, Where.isCode, notEofByte]⟩

theorem noEofByteBefore_tail (n : Nat) (w : Where) : ∀ (tail : List Char), tail.length ≤ n →
    Where.all (noEofByteBefore n) w tail = true := by
  intro tail
  induction tail generalizing w with
  | nil => intro _; rfl
  | cons x xs ih =>
    intro h
    simp only [List.length_cons] at h
    rw [Where.all_cons, Bool.and_eq_true]
    refine ⟨?_, ih _ (by omega)⟩
    have : xs.length < n := by omega
    simp [noEofByteBefore, this]

theorem noEofByteBefore_prefix (n : Nat) (tail : List Char) (h : tail.length ≤ n) :
    ∀ (Q : List Char) (w : Where),
      Where.all (fun w c _ => !w.isCode || notEofByte c) w Q = true →
      Where.all (noEofByteBefore n) w (Q ++ tail) = true := by
  intro Q
  induction Q with
  | nil => intro w _; exact noEofByteBefore_tail n w tail h
  | cons x xs ih =>
    intro w hQ
    rw [Where.all_cons, Bool.and_eq_true] at hQ
    rw [List.cons_append, Where.all_cons, Bool.and_eq_true]
    refine ⟨?_, ih _ hQ.2⟩
    have h1 := hQ.1
    simp only [Bool.or_eq_true, Bool.not_eq_true'] at h1
    simp only [noEofByteBefore, Bool.or_eq_true, decide_eq_true_eq, Bool.not_eq_true']
    rcases h1 with h1 | h1
    · exact Or.inl (Or.inr h1)
    · exact Or.inr h1

theorem suffix_append_cancel (l1 l2 T : List Char) (h : l1 ++ T <:+ l2 ++ T) : l1 <:+ l2 := by
  obtain ⟨pre, hpre⟩ := h
  refine ⟨pre, ?_⟩
  rw [← List.append_assoc] at hpre
  exact List.append_cancel_right hpre

/-- The `switch` on a character that starts a token, in a line: it returns a token of the
line and leaves a part of the line to read. -/
theorem switchChar_line (load : Lexer → Option Lexer) (c : Char) (rest tail : List Char)
    (tok : Token) (nl : Bool) (o co : Int) (hc : startsToken c = true)
    (hout : (whereAfter (c :: rest)).outsideString = true) :
    ∃ Q1 tok1, Q1 <:+ rest ∧ (whereAfter Q1).outsideString = true ∧ tok1.isContent = true ∧
      switchChar load c ⟨⟨rest ++ '\n' :: tail, false, false⟩, tok, nl, o, co⟩
        = some ⟨⟨Q1 ++ '\n' :: tail, false, false⟩, tok1, false, o, co⟩ := by
  obtain ⟨-, hnl, hcm⟩ := startsToken_ne c hc
  have hT : LineEnd ('\n' :: tail) := LineEnd.newline tail
  obtain ⟨r, hr, hcont, -, -, -, hsuf⟩ :=
    switchChar_startsToken load c ⟨⟨rest ++ '\n' :: tail, false, false⟩, tok, nl, o, co⟩ hc
  -- it is enough to find the text left and to see that it ends outside a literal
  have key : ∀ (Q1 : List Char) (tok1 : Token) (i : IStream),
      (whereAfter Q1).outsideString = true → i.LeftWith Q1 ('\n' :: tail) →
      switchChar load c ⟨⟨rest ++ '\n' :: tail, false, false⟩, tok, nl, o, co⟩
        = some ⟨i, tok1, false, o, co⟩ →
      ∃ Q1 tok1, Q1 <:+ rest ∧ (whereAfter Q1).outsideString = true ∧
        tok1.isContent = true ∧
        switchChar load c ⟨⟨rest ++ '\n' :: tail, false, false⟩, tok, nl, o, co⟩
          = some ⟨⟨Q1 ++ '\n' :: tail, false, false⟩, tok1, false, o, co⟩ := by
    intro Q1 tok1 i hcl hi he
    have ei := hi.eq_of_tail_ne_nil (by simp)
    subst ei
    rw [he] at hr
    injection hr with hr
    subst hr
    exact ⟨Q1, tok1, suffix_append_cancel _ _ _ hsuf, hcl, hcont, he⟩
  rw [whereAfter, List.foldl_cons] at hout
  by_cases hop : isOperatorChar c = true
  · obtain ⟨Q1, tok1, hw, -, h1⟩ := LoadChar_local c rest
    have hst : Where.step .code c = .code := by
      obtain ⟨a, b, d⟩ := isOperatorChar_plain c hop
      exact Where.step_code c a b d
    obtain ⟨i1, he, hl⟩ := h1 ('\n' :: tail) tok nl o co hT
    refine key Q1 tok1 i1 (by rw [whereAfter, hw, ← hst]; exact hout) hl ?_
    simp only [switchChar, hnl, hop, if_false, if_true, he]
  by_cases hqu : c = Char.ofNat 39 ∨ c = '"'
  · have hq : c = '"' ∨ c = Char.ofNat 39 := hqu.symm
    have hst : Where.step .code c = .string c := by simp [Where.step, hq]
    rw [hst] at hout
    obtain ⟨Q1, tok1, hw, -, h1⟩ := LoadString_local c hq rest hout
    obtain ⟨i1, he, hl⟩ := h1 ('\n' :: tail) tok nl o co
    refine key Q1 tok1 i1 (by rw [whereAfter, hw]; exact hout) hl ?_
    simp only [switchChar, hnl, hop, hqu, if_false, if_true, he, Bool.false_eq_true]
  have hplain : Where.step .code c = .code := by
    have h1 : c ≠ '"' := fun e => hqu (Or.inr e)
    have h2 : c ≠ Char.ofNat 39 := fun e => hqu (Or.inl e)
    exact Where.step_code c h1 h2 hcm
  rw [hplain] at hout
  by_cases hid : isIdStart c = true
  · obtain ⟨tok1, h1⟩ := LoadId_local c rest
    obtain ⟨i1, he, hl⟩ := h1 ('\n' :: tail) tok nl o co hT
    refine key ((c :: rest).dropWhile isIdChar) tok1 i1 ?_ hl ?_
    · rw [whereAfter, dropWhile_foldl_code isIdChar isIdChar_plain, List.foldl_cons, hplain]
      exact hout
    · simp only [switchChar, hnl, hop, hqu, hcm, hid, if_false, if_true, he,
        Bool.false_eq_true]
  by_cases hdg : c.isDigit = true
  · obtain ⟨tok1, h1⟩ := LoadNumber_local c rest
    obtain ⟨i1, he, hl⟩ := h1 ('\n' :: tail) tok nl o co hT
    refine key ((c :: rest).dropWhile Char.isDigit) tok1 i1 ?_ hl ?_
    · rw [whereAfter, dropWhile_foldl_code Char.isDigit isDigit_plain, List.foldl_cons, hplain]
      exact hout
    · simp only [switchChar, hnl, hop, hqu, hcm, hid, hdg, if_false, if_true, he,
        Bool.false_eq_true]
  · exfalso
    simp only [startsToken, Bool.or_eq_true, decide_eq_true_eq] at hc
    simp only [not_or] at hqu
    rcases hc with (((hc | hc) | hc) | hc) | hc
    · exact hop hc
    · exact hqu.1 hc
    · exact hqu.2 hc
    · exact hid hc
    · exact hdg hc

/-- Inside a line that holds no byte 0xFF outside string literals and comments and does not
end inside a string literal, the lexer returns tokens of the line and then the `Newline` of
the line: it is then at the start of the next line, with the `current_offset_` of the line
as `offset_`. -/
theorem inline_reaches_newline (tail : List Char) :
    ∀ (n : Nat) (Q : List Char), Q.length ≤ n → '\n' ∉ Q →
      (whereAfter Q).outsideString = true →
      ∀ (tok : Token) (o co : Int), tok.isContent = true →
      Where.all (noEofByteBefore (tail.length + 1)) .code (Q ++ '\n' :: tail) = true →
      ∃ k, 0 < k ∧
        NextToken^[k] ⟨⟨Q ++ '\n' :: tail, false, false⟩, tok, false, o, co⟩
          = atLineStart tail .Newline co := by
  have hP := noEofByteBefore_outsideStrings (tail.length + 1)
  have hend : ∀ (m : Nat) (tok : Token) (o co : Int),
      NextToken ⟨⟨List.replicate m ' ' ++ '\n' :: tail, false, false⟩, tok, false, o, co⟩
        = atLineStart tail .Newline co := fun m tok o co =>
    NextToken_of_dispatch _ _ _ _ (scan_inline_char _ m '\n' tail (by decide) rfl rfl) (by
      simp [dispatch_newline, LoadNewline, atLineStart])
  intro n
  induction n with
  | zero =>
    intro Q hlen _ _ tok o co _ _
    have : Q = [] := List.length_eq_zero.1 (Nat.le_zero.1 hlen)
    subst this
    exact ⟨1, Nat.one_pos, hend 0 tok o co⟩
  | succ n ih =>
    intro Q hlen hnl hout tok o co htok hall
    obtain ⟨m, hQ | ⟨c, rest, hc, hQ⟩⟩ := spaces_decomp Q
    · subst hQ
      exact ⟨1, Nat.one_pos, hend m tok o co⟩
    subst hQ
    have hcnl : c ≠ '\n' := fun e => hnl (by simp [e])
    have hrnl : '\n' ∉ rest := fun e => hnl (by simp [e])
    have hrest : rest.length ≤ n := by
      simp only [List.length_append, List.length_replicate, List.length_cons] at hlen
      omega
    have hbuf : List.replicate m ' ' ++ c :: rest ++ '\n' :: tail
        = List.replicate m ' ' ++ c :: (rest ++ '\n' :: tail) := by simp
    rw [hbuf] at hall ⊢
    have hff : c ≠ Char.ofNat 255 := by
      have h1 := Where.all_head (Where.all_spaces m _ hall)
      intro e
      subst e
      simp [noEofByteBefore, Where.isCode, notEofByte] at h1
    have hsc := scan_inline_char
      ⟨⟨List.replicate m ' ' ++ c :: (rest ++ '\n' :: tail), false, false⟩, tok, false, o, co⟩
      m c (rest ++ '\n' :: tail) hc rfl rfl
    rw [whereAfter_spaces_cons] at hout
    -- after one call that leaves `Q1` of the line
    have hnext : ∀ (Q1 : List Char) (tok1 : Token), Q1 <:+ rest →
        (whereAfter Q1).outsideString = true → tok1.isContent = true →
        NextToken ⟨⟨List.replicate m ' ' ++ c :: (rest ++ '\n' :: tail), false, false⟩, tok,
            false, o, co⟩
          = ⟨⟨Q1 ++ '\n' :: tail, false, false⟩, tok1, false, o, co⟩ →
        ∃ k, 0 < k ∧
          NextToken^[k] ⟨⟨List.replicate m ' ' ++ c :: (rest ++ '\n' :: tail), false, false⟩,
              tok, false, o, co⟩
            = atLineStart tail .Newline co := by
      intro Q1 tok1 hsuf hout1 hcont he
      have hall1 := NextToken_all hP
        ⟨⟨List.replicate m ' ' ++ c :: (rest ++ '\n' :: tail), false, false⟩, tok, false, o, co⟩
        hall
      rw [he] at hall1
      obtain ⟨k, -, hk⟩ := ih Q1 (hsuf.length_le.trans hrest)
        (fun e => hrnl (hsuf.subset e)) hout1 tok1 o co hcont hall1
      exact ⟨k + 1, Nat.succ_pos _, by rw [Function.iterate_succ_apply, he, hk]⟩
    by_cases hcm : c = '#'
    · subst hcm
      refine ⟨1, Nat.one_pos, ?_⟩
      rw [Function.iterate_one]
      refine (NextToken_of_reload _ _ ⟨⟨'\n' :: tail, false, false⟩, tok, false, o, co⟩ _ hsc
        (fun load => by
          simp [dispatch_comment, LoadComment, skipComment_to_newline rest tail hrnl])).trans ?_
      exact hend 0 tok o co
    by_cases hst : startsToken c = true
    · obtain ⟨Q1, tok1, hsuf, hout1, hcont, he⟩ :=
        switchChar_line (Load 0) c rest tail tok false o co hst
          (by rw [whereAfter, List.foldl_cons]; exact hout)
      exact hnext Q1 tok1 hsuf hout1 hcont
        (NextToken_of_dispatch _ _ _ _ hsc (by rw [dispatch_some _ _ _ hff]; exact he))
    · have hun : recognised c = false := by
        rcases char_cases c with h | h | h | h | h
        · exact absurd h hc
        · exact absurd h hcnl
        · exact absurd h hcm
        · exact absurd h hst
        · exact h
      rw [unrecognised_plain c hun] at hout
      exact hnext rest tok (List.suffix_refl _) hout htok
        (NextToken_of_dispatch _ _ _ _ hsc (by
          rw [dispatch_some _ _ _ hff, switchChar_unrecognised _ _ _ hun]))

/-- On a new line with `j` spaces before a character `c` that starts a token, the lexer
returns `Indent`s and `Dedent`s, and then goes to the `switch` with `c`, all the spaces of
the line counted in `current_offset_`. -/
theorem line_start_reaches_switch (c : Char) (rest : List Char) (hc : startsToken c = true) :
    ∀ (n j : Nat) (tok : Token) (o co : Int), j + (o - (co + j)).toNat ≤ n →
      ∃ k tok1 o1, 0 < k ∧
        switchChar (fun _ => none) c ⟨⟨rest, false, false⟩, tok1, true, o1, co + j⟩
          = some (NextToken^[k]
              ⟨⟨List.replicate j ' ' ++ c :: rest, false, false⟩, tok, true, o, co⟩) := by
  obtain ⟨hsp, hnl, hcm⟩ := startsToken_ne c hc
  -- the call that goes to the `switch`
  have hswitch : ∀ (j : Nat) (tok : Token) (o co co1 : Int), co1 = co + j →
      scan ⟨⟨List.replicate j ' ' ++ c :: rest, false, false⟩, tok, true, o, co⟩
        = .char (some c) ⟨⟨rest, false, false⟩, tok, true, o, co1⟩ →
      ∃ k tok1 o1, 0 < k ∧
        switchChar (fun _ => none) c ⟨⟨rest, false, false⟩, tok1, true, o1, co + j⟩
          = some (NextToken^[k]
              ⟨⟨List.replicate j ' ' ++ c :: rest, false, false⟩, tok, true, o, co⟩) := by
    intro j tok o co co1 hco1 hsc
    subst hco1
    obtain ⟨r, hr, -⟩ := switchChar_startsToken (Load 0) c
      ⟨⟨rest, false, false⟩, tok, true, o, co + j⟩ hc
    refine ⟨1, tok, o, Nat.one_pos, ?_⟩
    rw [Function.iterate_one, switchChar_startsToken_load (fun _ => none) (Load 0) c _ hc, hr,
      NextToken_of_dispatch _ _ r _ hsc (by rw [dispatch_startsToken _ _ _ hc]; exact hr)]
  -- the call that returns an `Indent` or a `Dedent`
  have hmore : ∀ (j j1 : Nat) (tok tok1 : Token) (o o1 co co1 : Int), co1 + j1 = co + j →
      scan ⟨⟨List.replicate j ' ' ++ c :: rest, false, false⟩, tok, true, o, co⟩
        = .token ⟨⟨List.replicate j1 ' ' ++ c :: rest, false, false⟩, tok1, true, o1, co1⟩ →
      (∃ k tok2 o2, 0 < k ∧
        switchChar (fun _ => none) c ⟨⟨rest, false, false⟩, tok2, true, o2, co1 + j1⟩
          = some (NextToken^[k]
              ⟨⟨List.replicate j1 ' ' ++ c :: rest, false, false⟩, tok1, true, o1, co1⟩)) →
      ∃ k tok2 o2, 0 < k ∧
        switchChar (fun _ => none) c ⟨⟨rest, false, false⟩, tok2, true, o2, co + j⟩
          = some (NextToken^[k]
              ⟨⟨List.replicate j ' ' ++ c :: rest, false, false⟩, tok, true, o, co⟩) := by
    rintro j j1 tok tok1 o o1 co co1 hco hsc ⟨k, tok2, o2, -, hk⟩
    refine ⟨k + 1, tok2, o2, Nat.succ_pos _, ?_⟩
    rw [Function.iterate_succ_apply, NextToken_of_scan_token _ _ hsc, ← hco]
    exact hk
  intro n
  induction n with
  | zero =>
    intro j tok o co hm
    have hj : j = 0 := by omega
    subst hj
    have ho : ¬ o > co := by
      intro h
      have : 0 < (o - (co + ((0 : Nat) : Int))).toNat := by
        simp only [Nat.cast_zero, add_zero]
        omega
      omega
    refine hswitch 0 tok o co co (by simp) ?_
    rw [scan_newline_content_zero _ c rest hsp hnl hcm rfl rfl]
    simp only [ho, if_false]
  | succ n ih =>
    intro j tok o co hm
    cases j with
    | zero =>
      by_cases ho : o > co
      · refine hmore 0 0 tok .Dedent o (o - 2) co co rfl ?_ (ih 0 .Dedent (o - 2) co ?_)
        · rw [scan_newline_content_zero _ c rest hsp hnl hcm rfl rfl]
          simp only [ho, if_true]
          rfl
        · simp only [Nat.cast_zero, add_zero, zero_add] at hm ⊢
          omega
      · refine hswitch 0 tok o co co (by simp) ?_
        rw [scan_newline_content_zero _ c rest hsp hnl hcm rfl rfl]
        simp only [ho, if_false]
    | succ m =>
      have hsc := scan_newline_content_succ
        ⟨⟨List.replicate (m + 1) ' ' ++ c :: rest, false, false⟩, tok, true, o, co⟩ m c rest
        hsp hnl hcm rfl rfl
      simp only at hsc
      rcases countSpacesBuf_spec o m c rest hsp co with ⟨k, hk, heq, -⟩ | ⟨heq, -⟩
      · rw [heq] at hsc
        simp only at hsc
        have hkm : (k : Int) ≤ m := by exact_mod_cast hk
        refine hmore (m + 1) k tok .Indent o o co (co + (m - k) + 1) (by push_cast; ring) hsc
          (ih k .Indent o (co + (m - k) + 1) ?_)
        have e : co + ((m : Int) - k) + 1 + k = co + ((m + 1 : Nat) : Int) := by
          push_cast; ring
        rw [e]
        omega
      · rw [heq] at hsc
        simp only at hsc
        by_cases ho : co + (m : Int) + 1 < o
        · simp only [ho, if_true] at hsc
          have hput : IStream.putback ⟨rest, false, false⟩ (some c) = ⟨c :: rest, false, false⟩ :=
            rfl
          rw [hput] at hsc
          refine hmore (m + 1) 0 tok .Dedent o (o - 2) co (co + m + 1) (by push_cast; ring) hsc
            (ih 0 .Dedent (o - 2) (co + m + 1) ?_)
          simp only [Nat.cast_zero, add_zero, zero_add]
          have : (o - (co + ((m + 1 : Nat) : Int))).toNat = (o - (co + m + 1)).toNat := by
            push_cast; congr 1; ring
          rw [this] at hm
          omega
        · simp only [ho, if_false] at hsc
          exact hswitch (m + 1) tok o co (co + m + 1) (by push_cast; ring) hsc

theorem SourceLine.tokenLine_iff (l : SourceLine) :
    l.tokenLine = true ↔ startsToken l.first = true ∧ '\n' ∉ l.body ∧
      (whereAfter (l.first :: l.body)).outsideString = true ∧
      codeChars notEofByte (l.first :: l.body) = true := by
  simp [SourceLine.tokenLine, and_assoc]

/-- From the start of a line that holds a token, over the blank lines and comment lines
before it: the lexer returns the `Indent`s or `Dedent`s of the line, its tokens and its
`Newline`; it is then at the start of the next line with the number of leading spaces of the
line in `offset_`, whatever `offset_` was before. -/
theorem line_pass (skipped : List (List Char)) (l : SourceLine) (tail : List Char)
    (hskip : ∀ line ∈ skipped, blankOrComment line = true ∧ '\n' ∉ line)
    (hl : l.tokenLine = true) (tok : Token) (o : Int) :
    ∃ k, 0 < k ∧
      NextToken^[k] (atLineStart (skippedText skipped ++ (l.text ++ '\n' :: tail)) tok o)
        = atLineStart tail .Newline l.indent := by
  obtain ⟨hc, hnl, hout, hff⟩ := (SourceLine.tokenLine_iff l).1 hl
  have hP := noEofByteBefore_outsideStrings (tail.length + 1)
  -- the text of the line, followed by the rest of the source
  have htext : l.text ++ '\n' :: tail
      = List.replicate l.indent ' ' ++ l.first :: (l.body ++ '\n' :: tail) := by
    simp [SourceLine.text]
  have hall : Where.all (noEofByteBefore (tail.length + 1)) .code
      (atLineStart (l.text ++ '\n' :: tail) tok o).input_.buf = true := by
    have h1 : Where.all (fun w c _ => !w.isCode || notEofByte c) .code l.text = true := by
      have hsp : ∀ m : Nat, Where.all (fun w c _ => !w.isCode || notEofByte c) .code
          (List.replicate m ' ' ++ l.first :: l.body) = true := by
        intro m
        induction m with
        | zero => exact hff
        | succ n ih =>
          rw [List.replicate_succ, List.cons_append, Where.all_cons, Bool.and_eq_true]
          refine ⟨by decide, ?_⟩
          rw [Where.step_code ' ' (by decide) (by decide) (by decide)]
          exact ih
      exact hsp l.indent
    exact noEofByteBefore_prefix (tail.length + 1) ('\n' :: tail) (by simp) l.text .code h1
  -- up to the first token of the line
  obtain ⟨k1, tok1, o1, hk1, h1⟩ := line_start_reaches_switch l.first (l.body ++ '\n' :: tail) hc
    _ l.indent tok o 0 (le_refl _)
  obtain ⟨Q1, tok2, hsuf, hout1, hcont, he⟩ :=
    switchChar_line (fun _ => none) l.first l.body tail tok1 true o1 (0 + l.indent) hc hout
  rw [he] at h1
  injection h1 with h1
  have hstart : atLineStart (l.text ++ '\n' :: tail) tok o
      = ⟨⟨List.replicate l.indent ' ' ++ l.first :: (l.body ++ '\n' :: tail), false, false⟩,
          tok, true, o, 0⟩ := by
    rw [atLineStart, htext]
  -- the rest of the line
  have hall1 := iterate_all hP _ hall k1
  rw [hstart, ← h1] at hall1
  obtain ⟨k2, -, h2⟩ := inline_reaches_newline tail Q1.length Q1 (le_refl _)
    (fun e => hnl (hsuf.subset e)) hout1 tok2 o1 (0 + l.indent) hcont hall1
  refine ⟨k2 + k1, by omega, ?_⟩
  obtain ⟨j, rfl⟩ : ∃ j, k1 = j + 1 := ⟨k1 - 1, by omega⟩
  rw [← Nat.add_assoc, iterate_NextToken_skips skipped hskip, Nat.add_assoc,
    Function.iterate_add_apply, hstart, ← h1, h2]
  simp

/-- From the start of a source made of lines that hold a token, with blank lines and comment
lines between them: the lexer comes to the start of what follows the last line, with the
number of leading spaces of that line in `offset_`. -/
theorem source_pass (tail : List Char) :
    ∀ (before : List (List (List Char) × SourceLine)) (g : List (List Char) × SourceLine),
      (∀ x ∈ before ++ [g],
        (∀ line ∈ x.1, blankOrComment line = true ∧ '\n' ∉ line) ∧ x.2.tokenLine = true) →
      ∀ (tok : Token) (o : Int),
      ∃ k, 0 < k ∧
        NextToken^[k] (atLineStart (sourceText (before ++ [g]) ++ tail) tok o)
          = atLineStart tail .Newline g.2.indent := by
  intro before
  induction before with
  | nil =>
    intro g hg tok o
    obtain ⟨h1, h2⟩ := hg g (by simp)
    have := line_pass g.1 g.2 tail h1 h2 tok o
    simpa [sourceText] using this
  | cons x more ih =>
    intro g hg tok o
    obtain ⟨h1, h2⟩ := hg x (by simp)
    obtain ⟨k1, hk1, e1⟩ := line_pass x.1 x.2 (sourceText (more ++ [g]) ++ tail) h1 h2 tok o
    obtain ⟨k2, hk2, e2⟩ := ih g (fun y hy => hg y (by simp at hy ⊢; tauto)) .Newline x.2.indent
    refine ⟨k2 + k1, by omega, ?_⟩
    have htext : sourceText (x :: more ++ [g]) ++ tail
        = skippedText x.1 ++ (x.2.text ++ '\n' :: (sourceText (more ++ [g]) ++ tail)) := by
      simp [sourceText]
    rw [htext, Function.iterate_add_apply, e1, e2]

/-- C3, as stated, fails. (1) A second line that starts with `@`, for which the `switch` has
no case: from a line indented 0 to a line indented 2 the lexer returns `Indent` twice before
the first token of the line. (2) A first line that starts with `@`: `new_line_` stays set
after it and the space after it is counted, so from a line indented 2 to a line indented 2
the lexer returns a `Dedent`. (3) A byte 0xFF in the first line, which `Load` takes for the
end of the input: from a line indented 2 to a line indented 2 the lexer returns `Newline`,
`Dedent`, `Eof`, `Indent` before the first token of the second line. (4) A first line that
ends inside a string literal: the next line is read as a part of the literal, and no
`Indent` is returned for it. In (1) to (4) `new_line_` starts either way. (5) If `new_line_`
is not set when the first line of the source is read (its initialiser is in `lexer.h`), the
spaces of that line are not counted: from a first line indented 2 to a line indented 2 the
lexer returns an `Indent`. -/
theorem C3_counterexample :
    (∀ nl : Bool, (List.range 5).map
        (fun k => (NextToken^[k] (Lexer.new ['x', '\n', ' ', ' ', '@', 'y', '\n'] nl)).token_)
      = [.Id "x", .Newline, .Indent, .Indent, .Id "y"])
    ∧ (∀ nl : Bool, (List.range 8).map
        (fun k => (NextToken^[k] (Lexer.new
          ['a', '\n', ' ', ' ', '@', ' ', 'x', '\n', ' ', ' ', 'y', '\n'] nl)).token_)
      = [.Id "a", .Newline, .Indent, .Indent, .Id "x", .Newline, .Dedent, .Id "y"])
    ∧ (∀ nl : Bool, (List.range 9).map
        (fun k => (NextToken^[k] (Lexer.new
          ['a', '\n', ' ', ' ', 'x', Char.ofNat 255, '\n', ' ', ' ', 'y', '\n'] nl)).token_)
      = [.Id "a", .Newline, .Indent, .Id "x", .Newline, .Dedent, .Eof, .Indent, .Id "y"])
    ∧ (∀ nl : Bool, (List.range 5).map
        (fun k => (NextToken^[k] (Lexer.new
          ['x', '=', '"', 'a', '\n', ' ', ' ', 'b', '"', '\n'] nl)).token_)
      = [.Id "x", .Char '=', .String "a\n  b", .Newline, .Eof])
    ∧ (List.range 4).map
        (fun k => (NextToken^[k] (Lexer.new
          [' ', ' ', 'x', '\n', ' ', ' ', 'y', '\n'] false)).token_)
      = [.Id "x", .Newline, .Indent, .Id "y"] := by
  decide

/-- C3, amended. The source is made of lines that hold a token (`before`, then the line
`l1`), each after any number of blank lines and comment lines; each of these lines starts,
after its spaces, with a character that starts a token, holds no byte 0xFF outside string
literals and comments, and does not end inside a string literal. The line `l1` is indented
`2a` spaces. After it come blank lines and comment lines (`skipped`) and a line of `2b`
spaces and a character `c` that starts a token. The lexer `s0` is at the start of the source
on a new line (`new_line_` set, `current_offset_ = 0`, as is `Lexer.members input true`, and
as is every lexer that has just returned a `Newline`); its `offset_` and `token_` are any.

Then some call `k` of `NextToken` returns the `Newline` of `l1` and leaves the lexer at the
start of the next line with `offset_ = 2a`. The next `b - a` calls return `Indent` if
`b > a`, the next `a - b` calls return `Dedent` if `a > b`, one token a call; the call after
them (the next call if `a = b`) returns a token that is none of `Indent`, `Dedent`,
`Newline`, `Eof`, the first token of the line, and leaves `current_offset_ = 2b`. -/
theorem C3_indent_dedent_count (before : List (List (List Char) × SourceLine))
    (skipped1 : List (List Char)) (l1 : SourceLine) (a b : Nat) (skipped : List (List Char))
    (c : Char) (rest : List Char) (s0 : Lexer)
    (hbefore : ∀ x ∈ before,
      (∀ line ∈ x.1, blankOrComment line = true ∧ '\n' ∉ line) ∧ x.2.tokenLine = true)
    (hskip1 : ∀ line ∈ skipped1, blankOrComment line = true ∧ '\n' ∉ line)
    (hl1 : l1.tokenLine = true) (ha : l1.indent = 2 * a)
    (hskip : ∀ line ∈ skipped, blankOrComment line = true ∧ '\n' ∉ line)
    (hc : startsToken c = true)
    (hn : s0.new_line_ = true) (hco : s0.current_offset_ = 0)
    (hi : s0.input_ = ⟨sourceText (before ++ [(skipped1, l1)]) ++
      (skippedText skipped ++ (List.replicate (2 * b) ' ' ++ c :: rest)), false, false⟩) :
    ∃ k, 0 < k ∧
      NextToken^[k] s0
        = atLineStart (skippedText skipped ++ (List.replicate (2 * b) ' ' ++ c :: rest))
            .Newline (2 * a)
      ∧ (∀ i, i < b - a → (NextToken^[i + 1 + k] s0).token_ = .Indent)
      ∧ (∀ i, i < a - b → (NextToken^[i + 1 + k] s0).token_ = .Dedent)
      ∧ (NextToken^[(b - a) + (a - b) + 1 + k] s0).token_.isContent = true
      ∧ (NextToken^[(b - a) + (a - b) + 1 + k] s0).current_offset_ = 2 * b := by
  obtain ⟨i0, tok0, nl0, o0, co0⟩ := s0
  simp only at hn hco hi
  subst hn hco hi
  obtain ⟨k, hk, e⟩ := source_pass
    (skippedText skipped ++ (List.replicate (2 * b) ' ' ++ c :: rest)) before (skipped1, l1)
    (by
      intro x hx
      rcases List.mem_append.1 hx with h | h
      · exact hbefore x h
      · rw [List.mem_singleton.1 h]; exact ⟨hskip1, hl1⟩)
    tok0 o0
  simp only [ha] at e
  have e1 : NextToken^[k] ⟨⟨sourceText (before ++ [(skipped1, l1)]) ++
        (skippedText skipped ++ (List.replicate (2 * b) ' ' ++ c :: rest)), false, false⟩,
        tok0, true, o0, 0⟩
      = atLineStart (skippedText skipped ++ (List.replicate (2 * b) ' ' ++ c :: rest))
          .Newline (2 * a) := by
    have hcast : ((2 * a : Nat) : Int) = 2 * (a : Int) := by push_cast; ring
    rw [← hcast, ← e]
    rfl
  obtain ⟨h1, h2, -, h4, h5⟩ :=
    indent_dedent_from_line_start a b skipped c rest .Newline hskip hc
  refine ⟨k, hk, e1, fun i hi => ?_, fun i hi => ?_, ?_, ?_⟩
  · rw [Function.iterate_add_apply, e1]; exact h1 i hi
  · rw [Function.iterate_add_apply, e1]; exact h2 i hi
  · rw [Function.iterate_add_apply, e1]; exact h4
  · rw [Function.iterate_add_apply, e1]; exact h5

/-- C3 amended, from the members of a new lexer (the constructor makes the first call of
`NextToken` on them). The source is `if x:`, a comment line, `y = '#'` indented 2, a blank
line, `z` indented 6 (`a = 1`, `b = 3`). Some call returns the `Newline` of the line of `y`
and leaves `offset_ = 2`; the next two calls return `Indent`, and the call after them returns
the token of `z`. -/
theorem C3_indent_dedent_count_witness :
    ∃ k, 0 < k ∧
      NextToken^[k] (Lexer.members
          ['i', 'f', ' ', 'x', ':', '\n', ' ', '#', 'c', '\n',
           ' ', ' ', 'y', ' ', '=', ' ', Char.ofNat 39, '#', Char.ofNat 39, '\n', ' ', '\n',
           ' ', ' ', ' ', ' ', ' ', ' ', 'z', '\n'] true)
        = atLineStart [' ', '\n', ' ', ' ', ' ', ' ', ' ', ' ', 'z', '\n'] .Newline 2
      ∧ (NextToken^[0 + 1 + k] (Lexer.members
          ['i', 'f', ' ', 'x', ':', '\n', ' ', '#', 'c', '\n',
           ' ', ' ', 'y', ' ', '=', ' ', Char.ofNat 39, '#', Char.ofNat 39, '\n', ' ', '\n',
           ' ', ' ', ' ', ' ', ' ', ' ', 'z', '\n'] true)).token_ = .Indent
      ∧ (NextToken^[1 + 1 + k] (Lexer.members
          ['i', 'f', ' ', 'x', ':', '\n', ' ', '#', 'c', '\n',
           ' ', ' ', 'y', ' ', '=', ' ', Char.ofNat 39, '#', Char.ofNat 39, '\n', ' ', '\n',
           ' ', ' ', ' ', ' ', ' ', ' ', 'z', '\n'] true)).token_ = .Indent
      ∧ (NextToken^[2 + 1 + k] (Lexer.members
          ['i', 'f', ' ', 'x', ':', '\n', ' ', '#', 'c', '\n',
           ' ', ' ', 'y', ' ', '=', ' ', Char.ofNat 39, '#', Char.ofNat 39, '\n', ' ', '\n',
           ' ', ' ', ' ', ' ', ' ', ' ', 'z', '\n'] true)).token_.isContent = true :=
  let ⟨k, hk, e, h1, _, h4, _⟩ :=
    C3_indent_dedent_count [([], ⟨0, 'i', ['f', ' ', 'x', ':']⟩)] [[' ', '#', 'c']]
      ⟨2, 'y', [' ', '=', ' ', Char.ofNat 39, '#', Char.ofNat 39]⟩ 1 3 [[' ']] 'z' ['\n']
      (Lexer.members
          ['i', 'f', ' ', 'x', ':', '\n', ' ', '#', 'c', '\n',
           ' ', ' ', 'y', ' ', '=', ' ', Char.ofNat 39, '#', Char.ofNat 39, '\n', ' ', '\n',
           ' ', ' ', ' ', ' ', ' ', ' ', 'z', '\n'] true)
      (by decide) (by decide) (by decide) rfl (by decide) (by decide) rfl rfl rfl
  ⟨k, hk, e, h1 0 (by decide), h1 1 (by decide), h4⟩

end parse

end Mython
